import Mathlib

/-!
# Image upscaler pipeline (`src/upscaler.js`)

Shallow embedding of the pixel pipeline of `ImageUpscaler`:
the three resamplers, the unsharp mask, the two smoothing filters, the colour
enhancement, the contrast normalisation and the orchestrating `upscale` /
`processImage`.

Modelling conventions.

* A JavaScript number is a rational (`ℚ`).  The arithmetic of the resamplers
  and of the filters is carried out without rounding.  The luminance of
  `normalizeContrast`, whose floor selects a histogram bucket, is computed as
  the source computes it, every operation rounded to a double by `toDouble`.
  The transcendental library functions `Math.exp`, `Math.sin` and the constant
  `Math.PI` are the fields of a parameter `JSMath`; theorems state what they
  need from them.
* A `Uint8ClampedArray` is a `List Nat`; a write converts the number with
  `toUint8Clamp` (clamp to `[0, 255]`, round half to even), a write beyond the
  length is dropped, as for a typed array.  A read is `rd`.
* An `ImageData` object is a record of `width`, `height` and `data`; the browser
  keeps `data.length = width * height * 4` and every sample at most 255
  (`ImageData.WF`).
* A `for` loop is a left fold over the list of its loop-variable values; an
  in-place update threads the array through the fold.
-/

namespace Upscaler

/-! ## Numbers, typed arrays, loops -/

/-- The part of the JavaScript `Math` object that is not rational arithmetic. -/
structure JSMath where
  exp : ℚ → ℚ
  sin : ℚ → ℚ
  pi : ℚ

/-- An `ImageData` object: dimensions and the RGBA samples, row by row. -/
structure ImageData where
  width : Nat
  height : Nat
  data : List Nat
deriving DecidableEq, Repr

/-- The invariant the browser keeps for every `ImageData`: four samples per
pixel, each an 8-bit value. -/
def ImageData.WF (img : ImageData) : Prop :=
  img.data.length = img.width * img.height * 4 ∧ ∀ v ∈ img.data, v ≤ 255

instance (img : ImageData) : Decidable img.WF := by
  unfold ImageData.WF; infer_instance

/-- Conversion of a number stored into a `Uint8ClampedArray`: clamp to
`[0, 255]`, then round to the nearest integer, ties to even. -/
def toUint8Clamp (x : ℚ) : Nat :=
  if x ≤ 0 then 0
  else if 255 ≤ x then 255
  else
    let f : ℤ := ⌊x⌋
    if (f : ℚ) + 1 / 2 < x then (f + 1).toNat
    else if x < (f : ℚ) + 1 / 2 then f.toNat
    else if f % 2 = 0 then f.toNat else (f + 1).toNat

/-- Conversion of the quotient `n / d` stored into a `Uint8ClampedArray`.
When `d = 0` the JavaScript quotient is `Infinity`, `-Infinity` or `NaN`,
stored as 255, 0 and 0. -/
def storeDiv (n d : ℚ) : Nat :=
  if d = 0 then (if 0 < n then 255 else 0) else toUint8Clamp (n / d)

/-- Conversion of `Math.max(0, Math.min(255, n / d))` stored into a
`Uint8ClampedArray`, with the same treatment of `d = 0`. -/
def storeClampDiv (n d : ℚ) : Nat :=
  if d = 0 then (if 0 < n then 255 else 0)
  else toUint8Clamp (max 0 (min 255 (n / d)))

/-- Read of a typed array at an integer index, as a number.  A read outside the
array, which the pipeline does not perform on a well-formed buffer and which
yields `undefined` in JavaScript, is given the value 0. -/
def rd (data : List Nat) (i : ℤ) : ℚ :=
  if i < 0 then 0 else (data.getD i.toNat 0 : ℚ)

/-- Write of a number into a typed array. -/
def wr (data : List Nat) (i : Nat) (x : ℚ) : List Nat :=
  data.set i (toUint8Clamp x)

/-- The values `lo, lo + 1, …, hi - 1` of a loop `for (i = lo; i < hi; i++)`. -/
def loopFrom (lo hi : Nat) : List Nat := List.range' lo (hi - lo)

/-- The values `lo, lo + 1, …, hi` of a loop `for (i = lo; i <= hi; i++)`
over integers. -/
def loopIncl (lo hi : ℤ) : List ℤ :=
  (List.range (hi + 1 - lo).toNat).map (fun (k : ℕ) => lo + (k : ℤ))

/-- Two nested loops `for y … for x …` running a body on a threaded array. -/
def gridLoop (ys xs : List Nat) (body : Nat → Nat → List Nat → List Nat)
    (data : List Nat) : List Nat :=
  ys.foldl (fun d y => xs.foldl (fun d x => body y x d) d) data

/-- The loop `for (i = 0; i < data.length; i += 4)`: the body receives the
pixel number `k`, the loop variable being `i = 4 * k`. -/
def pixelLoop (len : Nat) (body : Nat → List Nat → List Nat)
    (data : List Nat) : List Nat :=
  (List.range ((len + 3) / 4)).foldl (fun d k => body k d) data

/-- The JavaScript remainder `a % b` on numbers (sign of the dividend). -/
def jsMod (a b : ℚ) : ℚ :=
  a - b * (if 0 ≤ a / b then ⌊a / b⌋ else ⌈a / b⌉)

/-- Rounding of a number to the nearest integer, ties to the even one. -/
def roundHalfEven (x : ℚ) : ℤ :=
  let f : ℤ := ⌊x⌋
  if (f : ℚ) + 1 / 2 < x then f + 1
  else if x < (f : ℚ) + 1 / 2 then f
  else if f % 2 = 0 then f else f + 1

/-- Search upwards for the binary exponent of `a >= 2 ^ e`: the largest `e'`,
at most `e + fuel`, with `2 ^ e' <= a`. -/
def binadeUp : ℕ → ℚ → ℤ → ℤ
  | 0, _, e => e
  | fuel + 1, a, e => if (2 : ℚ) ^ (e + 1) ≤ a then binadeUp fuel a (e + 1) else e

/-- Search downwards for the binary exponent of `a < 2 ^ (e + 1)`: the largest
`e'` with `2 ^ e' <= a`, or `e - fuel` when there is none above it. -/
def binadeDown : ℕ → ℚ → ℤ → ℤ
  | 0, _, e => e
  | fuel + 1, a, e => if a < (2 : ℚ) ^ e then binadeDown fuel a (e - 1) else e

/-- The binary exponent of a positive double-precision magnitude `a`: `e` with
`2 ^ e <= a < 2 ^ (e + 1)`, kept within the exponent range `-1022 .. 1023` of
the format (below `2 ^ (-1022)` the numbers are subnormal). -/
def binade (a : ℚ) : ℤ :=
  if 1 ≤ a then binadeUp 1023 a 0 else binadeDown 1022 a 0

/-- The value of a JavaScript number: the rational `x`, of magnitude below
`2 ^ 1024`, rounded to the nearest IEEE 754 double (53 significant bits, ties
to the even significand). -/
def toDouble (x : ℚ) : ℚ :=
  if x = 0 then 0
  else
    let a := |x|
    let u : ℚ := (2 : ℚ) ^ (binade a - 52)
    (if x < 0 then -1 else 1) * ((roundHalfEven (a / u) : ℤ) : ℚ) * u

/-! ## Resampling engines -/

/-- The number `top * (1 - y_weight) + bottom * y_weight` that
`bilinearResample` computes for destination pixel `(dx, dy)` and channel `c`. -/
def bilinearSample (src : ImageData) (sw sh dw dh : Nat) (dy dx c : Nat) : ℚ :=
  let ratio_w : ℚ := (sw : ℚ) / dw
  let ratio_h : ℚ := (sh : ℚ) / dh
  let src_x : ℚ := dx * ratio_w
  let src_y : ℚ := dy * ratio_h
  let x1 : ℤ := ⌊src_x⌋
  let y1 : ℤ := ⌊src_y⌋
  let x2 : ℤ := min (x1 + 1) ((sw : ℤ) - 1)
  let y2 : ℤ := min (y1 + 1) ((sh : ℤ) - 1)
  let x_weight : ℚ := src_x - x1
  let y_weight : ℚ := src_y - y1
  let idx11 : ℤ := (y1 * sw + x1) * 4
  let idx12 : ℤ := (y1 * sw + x2) * 4
  let idx21 : ℤ := (y2 * sw + x1) * 4
  let idx22 : ℤ := (y2 * sw + x2) * 4
  let top := rd src.data (idx11 + (c : ℤ)) * (1 - x_weight)
    + rd src.data (idx12 + (c : ℤ)) * x_weight
  let bottom := rd src.data (idx21 + (c : ℤ)) * (1 - x_weight)
    + rd src.data (idx22 + (c : ℤ)) * x_weight
  top * (1 - y_weight) + bottom * y_weight

/-- The body of the two loops of `bilinearResample` for destination pixel
`(dx, dy)`: the loop over the four channels. -/
def bilinearPixel (src : ImageData) (sw sh dw dh : Nat) (dy dx : Nat)
    (dest : List Nat) : List Nat :=
  let destIdx : Nat := (dy * dw + dx) * 4
  (List.range 4).foldl (fun dest (c : ℕ) =>
    wr dest (destIdx + c) (bilinearSample src sw sh dw dh dy dx c)) dest

/-- Source function `bilinearResample(src, dest, sw, sh, dw, dh)`. -/
def bilinearResample (src dest : ImageData) (sw sh dw dh : Nat) : ImageData :=
  { dest with data :=
      gridLoop (List.range dh) (List.range dw) (bilinearPixel src sw sh dw dh) dest.data }

/-- Source function `cubicWeight(x)`. -/
def cubicWeight (x : ℚ) : ℚ :=
  let abs_x := |x|
  if abs_x ≤ 1 then
    1.5 * abs_x * abs_x * abs_x - 2.5 * abs_x * abs_x + 1
  else if abs_x < 2 then
    -0.5 * abs_x * abs_x * abs_x + 2.5 * abs_x * abs_x - 4 * abs_x + 2
  else 0

/-- The accumulators `r, g, b, alpha` of `bicubicResample` after the two loops
over `m` and `n` for destination pixel `(dx, dy)`. -/
def bicubicAcc (src : ImageData) (sw sh dw dh : Nat) (dy dx : Nat) : ℚ × ℚ × ℚ × ℚ :=
  let ratio_w : ℚ := (sw : ℚ) / dw
  let ratio_h : ℚ := (sh : ℚ) / dh
  let src_x : ℚ := dx * ratio_w
  let src_y : ℚ := dy * ratio_h
  let x_int : ℤ := ⌊src_x⌋
  let y_int : ℤ := ⌊src_y⌋
  let x_frac : ℚ := src_x - x_int
  let y_frac : ℚ := src_y - y_int
  ([-1, 0, 1, 2] : List ℤ).foldl (fun acc m =>
    ([-1, 0, 1, 2] : List ℤ).foldl (fun acc n =>
      let sx : ℤ := max 0 (min ((sw : ℤ) - 1) (x_int + n))
      let sy : ℤ := max 0 (min ((sh : ℤ) - 1) (y_int + m))
      let weight := cubicWeight (n - x_frac) * cubicWeight (m - y_frac)
      let idx : ℤ := (sy * sw + sx) * 4
      (acc.1 + rd src.data idx * weight,
       acc.2.1 + rd src.data (idx + 1) * weight,
       acc.2.2.1 + rd src.data (idx + 2) * weight,
       acc.2.2.2 + rd src.data (idx + 3) * weight)) acc) (0, 0, 0, 0)

/-- The body of the two loops of `bicubicResample` for destination pixel
`(dx, dy)`. -/
def bicubicPixel (src : ImageData) (sw sh dw dh : Nat) (dy dx : Nat)
    (dest : List Nat) : List Nat :=
  let acc := bicubicAcc src sw sh dw dh dy dx
  let destIdx : Nat := (dy * dw + dx) * 4
  let dest := wr dest destIdx (max 0 (min 255 acc.1))
  let dest := wr dest (destIdx + 1) (max 0 (min 255 acc.2.1))
  let dest := wr dest (destIdx + 2) (max 0 (min 255 acc.2.2.1))
  wr dest (destIdx + 3) (max 0 (min 255 acc.2.2.2))

/-- Source function `bicubicResample(src, dest, sw, sh, dw, dh)`. -/
def bicubicResample (src dest : ImageData) (sw sh dw dh : Nat) : ImageData :=
  { dest with data :=
      gridLoop (List.range dh) (List.range dw) (bicubicPixel src sw sh dw dh) dest.data }

/-- Source function `lanczosKernel(x, a)`. -/
def lanczosKernel (M : JSMath) (x : ℚ) (a : ℚ) : ℚ :=
  if x = 0 then 1
  else if |x| ≥ a then 0
  else
    let pi_x := M.pi * x
    (a * M.sin pi_x * M.sin (pi_x / a)) / (pi_x * pi_x)

/-- The accumulators `r, g, b, alpha, weight_sum` of `lanczosResample` after the
two loops over `sy` and `sx` for destination pixel `(dx, dy)`. -/
def lanczosAcc (M : JSMath) (src : ImageData) (sw sh dw dh : Nat) (dy dx : Nat) :
    ℚ × ℚ × ℚ × ℚ × ℚ :=
  let a : ℚ := 3
  let ratio_w : ℚ := (sw : ℚ) / dw
  let ratio_h : ℚ := (sh : ℚ) / dh
  let src_x : ℚ := dx * ratio_w
  let src_y : ℚ := dy * ratio_h
  (loopIncl ⌊src_y - a⌋ ⌈src_y + a⌉).foldl (fun acc (sy : ℤ) =>
    (loopIncl ⌊src_x - a⌋ ⌈src_x + a⌉).foldl (fun acc (sx : ℤ) =>
      if sx ≥ 0 ∧ sx < (sw : ℤ) ∧ sy ≥ 0 ∧ sy < (sh : ℤ) then
        let weight := lanczosKernel M (src_x - sx) a * lanczosKernel M (src_y - sy) a
        let idx : ℤ := (sy * sw + sx) * 4
        (acc.1 + rd src.data idx * weight,
         acc.2.1 + rd src.data (idx + 1) * weight,
         acc.2.2.1 + rd src.data (idx + 2) * weight,
         acc.2.2.2.1 + rd src.data (idx + 3) * weight,
         acc.2.2.2.2 + weight)
      else acc) acc) (0, 0, 0, 0, 0)

/-- The body of the two loops of `lanczosResample` for destination pixel
`(dx, dy)`. -/
def lanczosPixel (M : JSMath) (src : ImageData) (sw sh dw dh : Nat) (dy dx : Nat)
    (dest : List Nat) : List Nat :=
  let acc := lanczosAcc M src sw sh dw dh dy dx
  let weight_sum := acc.2.2.2.2
  let destIdx : Nat := (dy * dw + dx) * 4
  let dest := dest.set destIdx (storeClampDiv acc.1 weight_sum)
  let dest := dest.set (destIdx + 1) (storeClampDiv acc.2.1 weight_sum)
  let dest := dest.set (destIdx + 2) (storeClampDiv acc.2.2.1 weight_sum)
  dest.set (destIdx + 3) (storeClampDiv acc.2.2.2.1 weight_sum)

/-- Source function `lanczosResample(src, dest, sw, sh, dw, dh)`. -/
def lanczosResample (M : JSMath) (src dest : ImageData) (sw sh dw dh : Nat) : ImageData :=
  { dest with data :=
      gridLoop (List.range dh) (List.range dw) (lanczosPixel M src sw sh dw dh) dest.data }

/-! ## Enhancement filters -/

/-- The 5-tap sum of one blur pass of `unsharpMask`: the loop over `k` from
`-2` to `2`, with `idxOf k` the index of the sample read for offset `k`. -/
def blurSum (buf : List Nat) (idxOf : ℤ → ℤ) : ℚ :=
  let kernel : List ℚ := [1, 4, 6, 4, 1]
  ([-2, -1, 0, 1, 2] : List ℤ).foldl (fun sum k =>
    sum + rd buf (idxOf k) * kernel.getD (k + 2).toNat 0) 0

/-- The body of the horizontal blur pass of `unsharpMask` for pixel `(x, y)`:
reads `data`, writes `temp`. -/
def blurHStep (data : List Nat) (width : Nat) (y x : Nat) (temp : List Nat) : List Nat :=
  let kernelSum : ℚ := 16
  (List.range 3).foldl (fun temp (c : ℕ) =>
    let sum := blurSum data (fun k =>
      let px : ℤ := max 0 (min ((width : ℤ) - 1) ((x : ℤ) + k))
      ((y : ℤ) * width + px) * 4 + (c : ℤ))
    wr temp ((y * width + x) * 4 + c) (sum / kernelSum)) temp

/-- The body of the vertical blur pass of `unsharpMask` for pixel `(x, y)`:
reads `temp`, writes `blurred`. -/
def blurVStep (temp : List Nat) (width height : Nat) (y x : Nat) (blurred : List Nat) :
    List Nat :=
  let kernelSum : ℚ := 16
  (List.range 3).foldl (fun blurred (c : ℕ) =>
    let sum := blurSum temp (fun k =>
      let py : ℤ := max 0 (min ((height : ℤ) - 1) ((y : ℤ) + k))
      (py * width + x) * 4 + (c : ℤ))
    wr blurred ((y * width + x) * 4 + c) (sum / kernelSum)) blurred

/-- The body of the last loop of `unsharpMask` for pixel number `p`
(`i = 4 * p`). -/
def sharpenStep (blurred : List Nat) (amount : ℚ) (p : Nat) (data : List Nat) : List Nat :=
  let i := 4 * p
  (List.range 3).foldl (fun data (c : ℕ) =>
    let sharp := rd data ((i + c : ℕ) : ℤ)
      + amount * (rd data ((i + c : ℕ) : ℤ) - rd blurred ((i + c : ℕ) : ℤ))
    wr data (i + c) (max 0 (min 255 sharp))) data

/-- Source function `unsharpMask(imageData, amount)`. -/
def unsharpMask (imageData : ImageData) (amount : ℚ) : ImageData :=
  let width := imageData.width
  let height := imageData.height
  let data := imageData.data
  let blurred := data
  let temp := data
  -- horizontal pass
  let temp := gridLoop (List.range height) (List.range width) (blurHStep data width) temp
  -- vertical pass
  let blurred :=
    gridLoop (List.range height) (List.range width) (blurVStep temp width height) blurred
  -- apply the mask
  let data := pixelLoop data.length (sharpenStep blurred amount) data
  { imageData with data := data }

/-- The accumulators `sum, weight_sum` of `edgePreservingSmooth` after the two
loops over `dy` and `dx` for pixel `(x, y)` and channel `c`. -/
def edgeAcc (M : JSMath) (data : List Nat) (width : Nat) (y x c : Nat) : ℚ × ℚ :=
  let idx : ℤ := ((y : ℤ) * width + x) * 4
  let center := rd data (idx + c)
  ([-1, 0, 1] : List ℤ).foldl (fun acc dy =>
    ([-1, 0, 1] : List ℤ).foldl (fun acc dx =>
      let nidx : ℤ := (((y : ℤ) + dy) * width + ((x : ℤ) + dx)) * 4
      let diff := |rd data (nidx + c) - center|
      let weight := M.exp (-diff / 30)
      (acc.1 + rd data (nidx + c) * weight, acc.2 + weight)) acc) (0, 0)

/-- The final copy loop `for (i = 0; i < data.length; i++) data[i] = temp[i]`
of the two smoothing filters. -/
def copyBack (temp data : List Nat) : List Nat :=
  (List.range data.length).foldl (fun data i => wr data i (rd temp i)) data

/-- The body of the two loops of `edgePreservingSmooth` for pixel `(x, y)`:
reads `data`, writes `temp`. -/
def edgeStep (M : JSMath) (data : List Nat) (width : Nat) (y x : Nat) (temp : List Nat) :
    List Nat :=
  let idx := (y * width + x) * 4
  (List.range 3).foldl (fun temp (c : ℕ) =>
    let acc := edgeAcc M data width y x c
    temp.set (idx + c) (storeDiv acc.1 acc.2)) temp

/-- Source function `edgePreservingSmooth(imageData)`. -/
def edgePreservingSmooth (M : JSMath) (imageData : ImageData) : ImageData :=
  let width := imageData.width
  let height := imageData.height
  let data := imageData.data
  let temp := data
  let temp :=
    gridLoop (loopFrom 1 (height - 1)) (loopFrom 1 (width - 1)) (edgeStep M data width) temp
  { imageData with data := copyBack temp data }

/-- The accumulators `sum, weight_sum` of `bilateralFilter` after the two loops
over `dy` and `dx` for pixel `(x, y)` and channel `c`. -/
def bilateralAcc (M : JSMath) (data : List Nat) (width : Nat) (y x c : Nat) : ℚ × ℚ :=
  let sigma_s : ℚ := 2
  let sigma_r : ℚ := 30
  let idx : ℤ := ((y : ℤ) * width + x) * 4
  ([-2, -1, 0, 1, 2] : List ℤ).foldl (fun acc dy =>
    ([-2, -1, 0, 1, 2] : List ℤ).foldl (fun acc dx =>
      let nidx : ℤ := (((y : ℤ) + dy) * width + ((x : ℤ) + dx)) * 4
      let spatial := M.exp (-((dx : ℚ) * dx + dy * dy) / (2 * sigma_s * sigma_s))
      let diff := rd data (idx + c) - rd data (nidx + c)
      let range := M.exp (-(diff * diff) / (2 * sigma_r * sigma_r))
      let weight := spatial * range
      (acc.1 + rd data (nidx + c) * weight, acc.2 + weight)) acc) (0, 0)

/-- The body of the two loops of `bilateralFilter` for pixel `(x, y)`:
reads `data`, writes `temp`. -/
def bilateralStep (M : JSMath) (data : List Nat) (width : Nat) (y x : Nat)
    (temp : List Nat) : List Nat :=
  let idx := (y * width + x) * 4
  (List.range 3).foldl (fun temp (c : ℕ) =>
    let acc := bilateralAcc M data width y x c
    temp.set (idx + c) (storeDiv acc.1 acc.2)) temp

/-- Source function `bilateralFilter(imageData)`. -/
def bilateralFilter (M : JSMath) (imageData : ImageData) : ImageData :=
  let width := imageData.width
  let height := imageData.height
  let data := imageData.data
  let temp := data
  let temp :=
    gridLoop (loopFrom 2 (height - 2)) (loopFrom 2 (width - 2)) (bilateralStep M data width)
      temp
  { imageData with data := copyBack temp data }

/-! ## Colour and tone -/

/-- The body of the loop of `enhanceColors` on the pixel whose samples start at
`i`: the new values of `data[i], data[i+1], data[i+2]`, or `none` when the
iteration is cut short by `continue`. -/
def enhancePixel (r g b : ℚ) : Option (ℚ × ℚ × ℚ) :=
  let max := Max.max r (Max.max g b)
  let min := Min.min r (Min.min g b)
  let v := max
  let s : ℚ := if max = 0 then 0 else (max - min) / max
  let enhancedS := Min.min 1 (s * 1.15)
  if s = 0 then none
  else
    let delta := max - min
    let h : ℚ :=
      if r = max then (g - b) / delta
      else if g = max then 2 + (b - r) / delta
      else 4 + (r - g) / delta
    let h := h * 60
    let h := if h < 0 then h + 360 else h
    let c := v * enhancedS
    let x := c * (1 - |jsMod (h / 60) 2 - 1|)
    let m := v - c
    let rgbp : ℚ × ℚ × ℚ :=
      if h < 60 then (c, x, 0)
      else if h < 120 then (x, c, 0)
      else if h < 180 then (0, c, x)
      else if h < 240 then (0, x, c)
      else if h < 300 then (x, 0, c)
      else (c, 0, x)
    some ((rgbp.1 + m) * 255, (rgbp.2.1 + m) * 255, (rgbp.2.2 + m) * 255)

/-- The body of the loop of `enhanceColors` for pixel number `p`
(`i = 4 * p`). -/
def enhanceStep (p : Nat) (data : List Nat) : List Nat :=
  let i := 4 * p
  match enhancePixel (rd data (i : ℕ)) (rd data ((i + 1 : ℕ) : ℤ))
      (rd data ((i + 2 : ℕ) : ℤ)) with
  | none => data
  | some rgb =>
    let data := wr data i rgb.1
    let data := wr data (i + 1) rgb.2.1
    wr data (i + 2) rgb.2.2

/-- Source function `enhanceColors(imageData)`. -/
def enhanceColors (imageData : ImageData) : ImageData :=
  let data := imageData.data
  let data := pixelLoop data.length enhanceStep data
  { imageData with data := data }

/-- The luminance bucket `Math.floor(0.299 * r + 0.587 * g + 0.114 * b)` of the
doubles `r, g, b`, computed as JavaScript does: the three constants are
doubles, and each product and each sum, taken from left to right, is rounded
to a double. -/
def grayOf (r g b : ℚ) : ℤ :=
  ⌊toDouble (toDouble (toDouble (toDouble 0.299 * r) + toDouble (toDouble 0.587 * g))
    + toDouble (toDouble 0.114 * b))⌋

/-- The luminance bucket of pixel number `p` (`i = 4 * p`). -/
def bucketOf (data : List Nat) (p : Nat) : Nat :=
  let i := 4 * p
  (grayOf (rd data (i : ℕ)) (rd data ((i + 1 : ℕ) : ℤ)) (rd data ((i + 2 : ℕ) : ℤ))).toNat

/-- The first loop of `normalizeContrast`: the 256-bucket luminance
histogram of the buffer. -/
def histogramOf (data : List Nat) : List Nat :=
  (List.range ((data.length + 3) / 4)).foldl (fun histogram p =>
    let gray := bucketOf data p
    histogram.set gray (histogram.getD gray 0 + 1)) (List.replicate 256 0)

/-- A percentile loop of `normalizeContrast`: run through the buckets `is`
adding their counts to `sum`, stop at the first bucket at which the sum exceeds
the threshold and return it; `dflt` is the initial value of the variable. -/
def percentileScan (histogram : List Nat) (threshold : ℚ) (dflt : Nat) :
    List Nat → Nat → Nat
  | [], _ => dflt
  | i :: is, sum =>
    let sum := sum + histogram.getD i 0
    if (sum : ℚ) > threshold then i else percentileScan histogram threshold dflt is sum

/-- The percentile bounds `(min, max)` computed by `normalizeContrast`.  The
threshold `data.length / 4 * 0.01` is the exact product: the counts compared
with it are integers, and for a buffer of fewer than `2 ^ 50` pixels the
product rounded to a double is the same integer when the exact one is an
integer, and lies between the same two integers otherwise. -/
def contrastBounds (data : List Nat) : Nat × Nat :=
  let histogram := histogramOf data
  let threshold : ℚ := (data.length : ℚ) / 4 * 0.01
  let min := percentileScan histogram threshold 0 (List.range 256) 0
  let max := percentileScan histogram threshold 255 (List.range 256).reverse 0
  (min, max)

/-- The remapped sample `Math.max(0, Math.min(255, 255 * (v - min) / range))`
of `normalizeContrast`.  The quotient is exact: for 8-bit `v`, `min` and
`range` it is a multiple of `1 / range`, at a distance of at least `1 / 510`
from every half-integer it is not equal to, so the quotient rounded to a
double is stored as the same sample. -/
def stretchValue (min : Nat) (range : ℤ) (v : ℚ) : ℚ :=
  Max.max 0 (Min.min 255 (255 * (v - min) / range))

/-- The body of the last loop of `normalizeContrast` for pixel number `p`
(`i = 4 * p`). -/
def stretchStep (min : Nat) (range : ℤ) (p : Nat) (data : List Nat) : List Nat :=
  let i := 4 * p
  (List.range 3).foldl (fun data (c : ℕ) =>
    wr data (i + c) (stretchValue min range (rd data ((i + c : ℕ) : ℤ)))) data

/-- Source function `normalizeContrast(imageData)`. -/
def normalizeContrast (imageData : ImageData) : ImageData :=
  let data := imageData.data
  let min := (contrastBounds data).1
  let max := (contrastBounds data).2
  let range : ℤ := (max : ℤ) - min
  if range > 0 then
    let data := pixelLoop data.length (stretchStep min range) data
    { imageData with data := data }
  else imageData

/-! ## Orchestration -/

/-- The error taxonomy of the specification.  The source raises none of them. -/
inductive UpscaleError where
  | InvalidDimensions
  | EmptyBuffer
  | UnsupportedMethod
deriving DecidableEq, Repr

/-- The buffer returned by `createImageData(w, h)`: transparent black. -/
def createImageData (w h : Nat) : ImageData :=
  { width := w, height := h, data := List.replicate (w * h * 4) 0 }

/-- Source function `upscale(method, scale)`, the source image being the
buffer `srcData` read from the original canvas.  The `switch` has no `default`
branch. -/
def upscale (M : JSMath) (method : String) (scale : Nat) (srcData : ImageData) :
    Except UpscaleError ImageData :=
  let srcWidth := srcData.width
  let srcHeight := srcData.height
  let destWidth := srcWidth * scale
  let destHeight := srcHeight * scale
  let destData := createImageData destWidth destHeight
  let destData :=
    if method = "lanczos" then
      lanczosResample M srcData destData srcWidth srcHeight destWidth destHeight
    else if method = "bicubic" then
      bicubicResample srcData destData srcWidth srcHeight destWidth destHeight
    else if method = "bilinear" then
      bilinearResample srcData destData srcWidth srcHeight destWidth destHeight
    else destData
  .ok destData

/-- Source function `processImage()`, with the values read from the page
(`method`, `scale`, `sharpening`) and the source buffer as arguments, and the
final buffer as result. -/
def processImage (M : JSMath) (method : String) (scale : Nat) (sharpening : ℚ)
    (srcData : ImageData) : Except UpscaleError ImageData := do
  let upscaledData ← upscale M method scale srcData
  let upscaledData := edgePreservingSmooth M upscaledData
  let upscaledData :=
    if sharpening > 0 then unsharpMask upscaledData sharpening else upscaledData
  let upscaledData := bilateralFilter M upscaledData
  let upscaledData := enhanceColors upscaledData
  let upscaledData := normalizeContrast upscaledData
  pure upscaledData


/-- The four neighbour coordinates `(x1, x2, y1, y2)` that `bilinearResample`
computes for destination pixel `(dx, dy)`. -/
def bilinearNeighbours (sw sh dw dh : Nat) (dy dx : Nat) : ℤ × ℤ × ℤ × ℤ :=
  let ratio_w : ℚ := (sw : ℚ) / dw
  let ratio_h : ℚ := (sh : ℚ) / dh
  let src_x : ℚ := dx * ratio_w
  let src_y : ℚ := dy * ratio_h
  let x1 : ℤ := ⌊src_x⌋
  let y1 : ℤ := ⌊src_y⌋
  let x2 : ℤ := min (x1 + 1) ((sw : ℤ) - 1)
  let y2 : ℤ := min (y1 + 1) ((sh : ℤ) - 1)
  (x1, x2, y1, y2)

/-- The indices `idx11 + c, idx12 + c, idx21 + c, idx22 + c` read by
`bilinearResample` for destination pixel `(dx, dy)` and channel `c`. -/
def bilinearReads (sw sh dw dh : Nat) (dy dx c : Nat) : List ℤ :=
  let n := bilinearNeighbours sw sh dw dh dy dx
  let x1 := n.1
  let x2 := n.2.1
  let y1 := n.2.2.1
  let y2 := n.2.2.2
  [(y1 * sw + x1) * 4 + c, (y1 * sw + x2) * 4 + c, (y2 * sw + x1) * 4 + c,
   (y2 * sw + x2) * 4 + c]

/-! ## Example inputs -/

/-- A rational stand-in for the `Math` object: `exp` is the reciprocal of the
quadratic Taylor polynomial of `exp (-x)`, `sin` a Taylor polynomial, `pi` the
approximation 355/113. -/
def exampleMath : JSMath :=
  { exp := fun x => 1 / (1 - x + x ^ 2 / 2)
    sin := fun x => x - x ^ 3 / 6 + x ^ 5 / 120
    pi := 355 / 113 }

/-- A rational stand-in for the `Math` object whose `sin` vanishes at every
integer multiple of `pi`, as the real sine does: `sin` is the parabola
`4 t (1 - t)` on each half period, with alternating sign, and `pi` the
approximation 355/113. -/
def exampleMathPeriodic : JSMath :=
  { exp := fun x => 1 / (1 - x + x ^ 2 / 2)
    sin := fun x =>
      let q : ℚ := x / (355 / 113)
      let t : ℚ := q - ⌊q⌋
      (if ⌊q⌋ % 2 = 0 then 1 else -1) * (4 * t * (1 - t))
    pi := 355 / 113 }

/-- A rational stand-in for the `Math` object whose `sin` is inexact the way a
floating-point sine is: the periodic sine of `exampleMathPeriodic` shifted by
`10^-16`, so that `sin (pi * k)` is `10^-16` and not 0. -/
def exampleMathInexact : JSMath :=
  { exp := fun x => 1 / (1 - x + x ^ 2 / 2)
    sin := fun x => exampleMathPeriodic.sin x + 1 / 10 ^ 16
    pi := 355 / 113 }

/-- A 2x2 image with sixteen different samples. -/
def exampleSrc : ImageData :=
  ⟨2, 2, [1, 2, 3, 4, 5, 6, 7, 8, 9, 10, 11, 12, 13, 14, 15, 255]⟩

/-- Every pixel of the buffer has the same four samples `k 0, k 1, k 2, k 3`. -/
def IsUniform (data : List Nat) (k : Nat → Nat) : Prop :=
  ∀ i, i < data.length → data.getD i 0 = k (i % 4)

instance (data : List Nat) (k : Nat → Nat) : Decidable (IsUniform data k) := by
  unfold IsUniform; infer_instance

/-- The samples of the gray pixel `(v, v, v, a)`, by channel. -/
def grayPixel (v a : Nat) (c : Nat) : Nat := if c = 3 then a else v

/-- The 2x2 image of the end-to-end scenario: every pixel (128, 128, 128, 255). -/
def exampleGray : ImageData :=
  ⟨2, 2, [128, 128, 128, 255, 128, 128, 128, 255, 128, 128, 128, 255, 128, 128, 128, 255]⟩

/-- The 1x1 source of the end-to-end scenario: one black, opaque pixel. -/
def blackPixel : ImageData := ⟨1, 1, [0, 0, 0, 255]⟩

/-- The 3x3 image whose nine pixels are black and opaque. -/
def blackImage3 : ImageData :=
  ⟨3, 3, [0, 0, 0, 255, 0, 0, 0, 255, 0, 0, 0, 255,
          0, 0, 0, 255, 0, 0, 0, 255, 0, 0, 0, 255,
          0, 0, 0, 255, 0, 0, 0, 255, 0, 0, 0, 255]⟩

/-- Three pixels: pure red, pure blue and a dark gray. -/
def exampleContrast : ImageData :=
  ⟨3, 1, [255, 0, 0, 255, 0, 0, 255, 255, 60, 60, 60, 255]⟩

/-- Every pixel of the buffer is achromatic: R = G = B. -/
def IsGray (data : List Nat) : Prop :=
  ∀ p, 4 * p + 2 < data.length →
    data.getD (4 * p) 0 = data.getD (4 * p + 1) 0 ∧
    data.getD (4 * p + 1) 0 = data.getD (4 * p + 2) 0

instance (data : List Nat) : Decidable (IsGray data) :=
  decidable_of_iff (∀ p, p < data.length → 4 * p + 2 < data.length →
      data.getD (4 * p) 0 = data.getD (4 * p + 1) 0 ∧
      data.getD (4 * p + 1) 0 = data.getD (4 * p + 2) 0)
    ⟨fun h p hp => h p (by omega) hp, fun h p _ hp => h p hp⟩

/-- A 2x2 gray image with four different levels. -/
def exampleGrayLevels : ImageData :=
  ⟨2, 2, [10, 10, 10, 255, 50, 50, 50, 255, 90, 90, 90, 255, 200, 200, 200, 255]⟩

/-- Two gray pixels of the levels 2 and 3; the luminance of the first, computed
in doubles, falls just below 2. -/
def exampleGrayDrift : ImageData :=
  ⟨2, 1, [2, 2, 2, 255, 3, 3, 3, 255]⟩

/-- A gray pixel followed by a coloured one. -/
def exampleGrayColor : ImageData :=
  ⟨2, 1, [100, 100, 100, 255, 200, 100, 190, 7]⟩

/-- Two pixels of different colours and of the same luminance bucket, 100. -/
def exampleFlat : ImageData :=
  ⟨2, 1, [100, 100, 100, 255, 120, 90, 104, 255]⟩

/-! ## Loop lemmas -/

theorem list_ext_getD (l₁ l₂ : List ℕ) (hlen : l₁.length = l₂.length)
    (h : ∀ i, i < l₂.length → l₁.getD i 0 = l₂.getD i 0) : l₁ = l₂ := by
  apply List.ext_getElem hlen
  intro i h1 h2
  have := h i h2
  simpa [List.getD_eq_getElem?_getD, List.getElem?_eq_getElem h1,
    List.getElem?_eq_getElem h2] using this

theorem getD_set_eq (l : List ℕ) (i : ℕ) (v : ℕ) (h : i < l.length) :
    (l.set i v).getD i 0 = v := by
  simp [List.getD_eq_getElem?_getD, List.getElem?_set, h]

theorem getD_set_ne (l : List ℕ) (i j : ℕ) (v : ℕ) (h : i ≠ j) :
    (l.set i v).getD j 0 = l.getD j 0 := by
  simp [List.getD_eq_getElem?_getD, List.getElem?_set, h]

theorem getD_set (l : List ℕ) (i j : ℕ) (v : ℕ) :
    (l.set i v).getD j 0 = if i = j ∧ j < l.length then v else l.getD j 0 := by
  by_cases h : i = j
  · subst h
    by_cases hl : i < l.length
    · simp [getD_set_eq, hl]
    · have : l.set i v = l := by
        apply List.set_eq_of_length_le; omega
      simp [hl, this]
  · simp [getD_set_ne, h]

/-- A loop whose iterations write disjoint blocks of the array: each block
ends with the value its own iteration computes from the initial array. -/
theorem foldl_blocks_aux {α κ : Type} (key : ℕ → κ) (pix : α → κ)
    (step : α → List ℕ → List ℕ) (val : ℕ → ℕ) (l0 : List ℕ)
    (hlen : ∀ a l, (step a l).length = l.length) :
    ∀ (ks : List α), (ks.map pix).Nodup →
    (∀ a ∈ ks, ∀ l i, key i ≠ pix a → (step a l).getD i 0 = l.getD i 0) →
    (∀ a ∈ ks, ∀ l, l.length = l0.length →
      (∀ i, key i = pix a → l.getD i 0 = l0.getD i 0) →
      ∀ i, key i = pix a → i < l0.length → (step a l).getD i 0 = val i) →
    ∀ l, l.length = l0.length →
    (∀ a ∈ ks, ∀ i, key i = pix a → l.getD i 0 = l0.getD i 0) →
    (ks.foldl (fun l a => step a l) l).length = l0.length ∧
    ∀ i, i < l0.length →
      (key i ∈ ks.map pix → (ks.foldl (fun l a => step a l) l).getD i 0 = val i) ∧
      (key i ∉ ks.map pix → (ks.foldl (fun l a => step a l) l).getD i 0 = l.getD i 0) := by
  intro ks
  induction ks with
  | nil =>
    intro _ _ _ l hl _
    simp [hl]
  | cons a ks ih =>
    intro hnd hother hown l hl hagree
    simp only [List.map_cons, List.nodup_cons] at hnd
    obtain ⟨hnotin, hnd'⟩ := hnd
    have hl' : (step a l).length = l0.length := by rw [hlen, hl]
    have hagree' : ∀ b ∈ ks, ∀ i, key i = pix b → (step a l).getD i 0 = l0.getD i 0 := by
      intro b hb i hi
      have hne : key i ≠ pix a := by
        intro h
        apply hnotin
        rw [← h, hi]
        exact List.mem_map_of_mem pix hb
      rw [hother a (List.mem_cons_self _ _) l i hne]
      exact hagree b (List.mem_cons_of_mem _ hb) i hi
    have IH := ih hnd'
      (fun b hb => hother b (List.mem_cons_of_mem _ hb))
      (fun b hb => hown b (List.mem_cons_of_mem _ hb))
      (step a l) hl' hagree'
    simp only [List.foldl_cons]
    refine ⟨IH.1, ?_⟩
    intro i hi
    obtain ⟨IH1, IH2⟩ := IH.2 i hi
    constructor
    · intro hmem
      simp only [List.map_cons, List.mem_cons] at hmem
      by_cases hin : key i ∈ ks.map pix
      · exact IH1 hin
      · have hka : key i = pix a := by
          rcases hmem with h | h
          · exact h
          · exact absurd h hin
        rw [IH2 hin]
        exact hown a (List.mem_cons_self _ _) l hl
          (fun j hj => hagree a (List.mem_cons_self _ _) j hj) i hka hi
    · intro hnmem
      simp only [List.map_cons, List.mem_cons, not_or] at hnmem
      rw [IH2 hnmem.2]
      exact hother a (List.mem_cons_self _ _) l i hnmem.1

theorem foldl_blocks {α κ : Type} (key : ℕ → κ) (pix : α → κ)
    (step : α → List ℕ → List ℕ) (val : ℕ → ℕ) (l0 : List ℕ) (ks : List α)
    (hlen : ∀ a l, (step a l).length = l.length)
    (hnd : (ks.map pix).Nodup)
    (hother : ∀ a ∈ ks, ∀ l i, key i ≠ pix a → (step a l).getD i 0 = l.getD i 0)
    (hown : ∀ a ∈ ks, ∀ l, l.length = l0.length →
      (∀ i, key i = pix a → l.getD i 0 = l0.getD i 0) →
      ∀ i, key i = pix a → i < l0.length → (step a l).getD i 0 = val i) :
    (ks.foldl (fun l a => step a l) l0).length = l0.length ∧
    ∀ i, i < l0.length →
      (key i ∈ ks.map pix → (ks.foldl (fun l a => step a l) l0).getD i 0 = val i) ∧
      (key i ∉ ks.map pix → (ks.foldl (fun l a => step a l) l0).getD i 0 = l0.getD i 0) :=
  foldl_blocks_aux key pix step val l0 hlen ks hnd hother hown l0 rfl
    (fun _ _ _ _ => rfl)

/-- The two nested loops of `gridLoop` are one loop over the pairs `(y, x)`. -/
theorem gridLoop_eq_foldl_product (ys xs : List ℕ) (body : ℕ → ℕ → List ℕ → List ℕ)
    (data : List ℕ) :
    gridLoop ys xs body data =
      (ys ×ˢ xs).foldl (fun d (p : ℕ × ℕ) => body p.1 p.2 d) data := by
  unfold gridLoop
  induction ys generalizing data with
  | nil => simp
  | cons y ys ih =>
    simp only [List.foldl_cons, List.product_cons, List.foldl_append, List.foldl_map]
    exact ih _


theorem grid_pix_inj (w : ℕ) (y₁ x₁ y₂ x₂ : ℕ) (h₁ : x₁ < w) (h₂ : x₂ < w)
    (h : y₁ * w + x₁ = y₂ * w + x₂) : y₁ = y₂ ∧ x₁ = x₂ := by
  have hw : 0 < w := by omega
  have e1 : (y₁ * w + x₁) / w = y₁ := by
    rw [Nat.add_comm, Nat.add_mul_div_right _ _ hw, Nat.div_eq_of_lt h₁, Nat.zero_add]
  have e2 : (y₂ * w + x₂) / w = y₂ := by
    rw [Nat.add_comm, Nat.add_mul_div_right _ _ hw, Nat.div_eq_of_lt h₂, Nat.zero_add]
  have hy : y₁ = y₂ := by rw [← e1, ← e2, h]
  subst hy
  exact ⟨rfl, by omega⟩

theorem grid_nodup (w : ℕ) (ys xs : List ℕ) (hys : ys.Nodup) (hxs : xs.Nodup)
    (hx : ∀ x ∈ xs, x < w) :
    ((ys ×ˢ xs).map (fun p : ℕ × ℕ => p.1 * w + p.2)).Nodup := by
  apply List.Nodup.map_on _ (hys.product hxs)
  rintro ⟨y₁, x₁⟩ h₁ ⟨y₂, x₂⟩ h₂ h
  simp only [List.mem_product] at h₁ h₂
  obtain ⟨e1, e2⟩ := grid_pix_inj w y₁ x₁ y₂ x₂ (hx _ h₁.2) (hx _ h₂.2) h
  rw [e1, e2]

/-- Specification of a grid loop whose body for `(y, x)` writes only the four
samples of pixel `y * w + x`. -/
theorem gridLoop_spec (w : ℕ) (ys xs : List ℕ) (body : ℕ → ℕ → List ℕ → List ℕ)
    (val : ℕ → ℕ) (l0 : List ℕ)
    (hys : ys.Nodup) (hxs : xs.Nodup) (hx : ∀ x ∈ xs, x < w)
    (hlen : ∀ y x l, (body y x l).length = l.length)
    (hother : ∀ y ∈ ys, ∀ x ∈ xs, ∀ l i, i / 4 ≠ y * w + x →
      (body y x l).getD i 0 = l.getD i 0)
    (hown : ∀ y ∈ ys, ∀ x ∈ xs, ∀ l, l.length = l0.length →
      (∀ i, i / 4 = y * w + x → l.getD i 0 = l0.getD i 0) →
      ∀ i, i / 4 = y * w + x → i < l0.length → (body y x l).getD i 0 = val i) :
    (gridLoop ys xs body l0).length = l0.length ∧
    ∀ i, i < l0.length →
      ((∃ y ∈ ys, ∃ x ∈ xs, i / 4 = y * w + x) →
        (gridLoop ys xs body l0).getD i 0 = val i) ∧
      ((¬ ∃ y ∈ ys, ∃ x ∈ xs, i / 4 = y * w + x) →
        (gridLoop ys xs body l0).getD i 0 = l0.getD i 0) := by
  rw [gridLoop_eq_foldl_product]
  have key := foldl_blocks (fun i => i / 4) (fun p : ℕ × ℕ => p.1 * w + p.2)
    (fun p l => body p.1 p.2 l) val l0 (ys ×ˢ xs)
    (fun p l => hlen p.1 p.2 l) (grid_nodup w ys xs hys hxs hx)
    (fun p hp l i hi => by
      obtain ⟨y, x⟩ := p
      simp only [List.mem_product] at hp
      exact hother y hp.1 x hp.2 l i hi)
    (fun p hp l hl hag i hi hil => by
      obtain ⟨y, x⟩ := p
      simp only [List.mem_product] at hp
      exact hown y hp.1 x hp.2 l hl hag i hi hil)
  refine ⟨key.1, ?_⟩
  intro i hi
  obtain ⟨k1, k2⟩ := key.2 i hi
  constructor
  · rintro ⟨y, hy, x, hx', e⟩
    apply k1
    simp only [List.mem_map, List.mem_product, Prod.exists]
    exact ⟨y, x, ⟨hy, hx'⟩, e.symm⟩
  · intro hne
    apply k2
    simp only [List.mem_map, List.mem_product, Prod.exists]
    rintro ⟨y, x, ⟨hy, hx'⟩, e⟩
    exact hne ⟨y, hy, x, hx', e.symm⟩

/-- Specification of a pixel loop whose body for pixel `p` writes only the four
samples of pixel `p`. -/
theorem pixelLoop_spec (len : ℕ) (body : ℕ → List ℕ → List ℕ)
    (val : ℕ → ℕ) (l0 : List ℕ) (hl0 : l0.length ≤ len)
    (hlen : ∀ p l, (body p l).length = l.length)
    (hother : ∀ p l i, i / 4 ≠ p → (body p l).getD i 0 = l.getD i 0)
    (hown : ∀ p l, l.length = l0.length →
      (∀ i, i / 4 = p → l.getD i 0 = l0.getD i 0) →
      ∀ i, i / 4 = p → i < l0.length → (body p l).getD i 0 = val i) :
    (pixelLoop len body l0).length = l0.length ∧
    ∀ i, i < l0.length → (pixelLoop len body l0).getD i 0 = val i := by
  unfold pixelLoop
  have key := foldl_blocks (fun i => i / 4) (fun p : ℕ => p)
    body val l0 (List.range ((len + 3) / 4)) hlen
    (by simpa using List.nodup_range _)
    (fun p _ l i hi => hother p l i hi)
    (fun p _ l hl hag i hi hil => hown p l hl hag i hi hil)
  refine ⟨key.1, ?_⟩
  intro i hi
  apply (key.2 i hi).1
  simp only [List.map_id', List.mem_range]
  omega

/-! ## Stored values -/

theorem toUint8Clamp_natCast (n : ℕ) (h : n ≤ 255) : toUint8Clamp (n : ℚ) = n := by
  unfold toUint8Clamp
  by_cases h0 : n = 0
  · subst h0; simp
  · have hpos : ¬ ((n : ℚ) ≤ 0) := by
      have : (0 : ℚ) < n := by exact_mod_cast Nat.pos_of_ne_zero h0
      linarith
    by_cases h255 : n = 255
    · subst h255; simp
    · have hlt : ¬ ((255 : ℚ) ≤ n) := by
        have : (n : ℚ) < 255 := by
          have : n < 255 := by omega
          exact_mod_cast this
        linarith
      simp only [hpos, hlt, if_false, Int.floor_natCast, Int.cast_natCast]
      have h1 : ¬ ((n : ℚ) + 1 / 2 < n) := by linarith
      have h2 : (n : ℚ) < n + 1 / 2 := by linarith
      simp [h1, h2]

theorem rd_natCast (data : List ℕ) (i : ℕ) : rd data (i : ℤ) = (data.getD i 0 : ℚ) := by
  have h : ¬ ((i : ℤ) < 0) := by omega
  simp [rd, h]

theorem getD_le (data : List ℕ) (h : ∀ v ∈ data, v ≤ 255) (i : ℕ) : data.getD i 0 ≤ 255 := by
  by_cases hi : i < data.length
  · have : data.getD i 0 = data[i] := by
      simp [List.getD_eq_getElem?_getD, List.getElem?_eq_getElem hi]
    rw [this]
    exact h _ (List.getElem_mem hi)
  · have : data.getD i 0 = 0 := by
      simp [List.getD_eq_getElem?_getD, List.getElem?_eq_none (by omega : data.length ≤ i)]
    omega

/-! ## Resampling at an exact source coordinate -/

theorem range_four : List.range 4 = [0, 1, 2, 3] := by decide

theorem range_three : List.range 3 = [0, 1, 2] := by decide

theorem bilinearPixel_length (src : ImageData) (sw sh dw dh dy dx : ℕ) (dest : List ℕ) :
    (bilinearPixel src sw sh dw dh dy dx dest).length = dest.length := by
  simp [bilinearPixel, range_four, wr]

theorem bilinearPixel_other (src : ImageData) (sw sh dw dh dy dx : ℕ) (dest : List ℕ)
    (i : ℕ) (h : i / 4 ≠ dy * dw + dx) :
    (bilinearPixel src sw sh dw dh dy dx dest).getD i 0 = dest.getD i 0 := by
  simp only [bilinearPixel, range_four, wr, List.foldl_cons, List.foldl_nil]
  rw [getD_set_ne _ _ _ _ (by omega), getD_set_ne _ _ _ _ (by omega),
    getD_set_ne _ _ _ _ (by omega), getD_set_ne _ _ _ _ (by omega)]

/-- When the source coordinate of destination pixel `(dx, dy)` is the integer
point `(X, Y)`, `bilinearResample` stores the samples of source pixel `(X, Y)`. -/
theorem bilinearPixel_exact (src : ImageData) (sw sh dw dh dy dx X Y : ℕ)
    (hX : (dx : ℚ) * ((sw : ℚ) / dw) = X) (hY : (dy : ℚ) * ((sh : ℚ) / dh) = Y)
    (dest : List ℕ) (i : ℕ) (hi : i / 4 = dy * dw + dx) (hil : i < dest.length) :
    (bilinearPixel src sw sh dw dh dy dx dest).getD i 0 =
      toUint8Clamp (src.data.getD ((Y * sw + X) * 4 + i % 4) 0) := by
  have hidx : ∀ c : ℕ, (((Y : ℤ) * sw + X) * 4 + (c : ℤ)) = (((Y * sw + X) * 4 + c : ℕ) : ℤ) := by
    intro c; push_cast; ring
  simp only [bilinearPixel, bilinearSample, range_four, wr, List.foldl_cons, List.foldl_nil,
    hX, hY, Int.floor_natCast, Int.cast_natCast, sub_self, mul_zero, add_zero, sub_zero, mul_one,
    hidx, rd_natCast]
  have hc : i = (dy * dw + dx) * 4 ∨ i = (dy * dw + dx) * 4 + 1 ∨
      i = (dy * dw + dx) * 4 + 2 ∨ i = (dy * dw + dx) * 4 + 3 := by omega
  rcases hc with h | h | h | h <;> subst h
  · rw [getD_set_ne _ _ _ _ (by omega), getD_set_ne _ _ _ _ (by omega),
      getD_set_ne _ _ _ _ (by omega), getD_set_eq _ _ _ hil]
    congr 3; omega
  · rw [getD_set_ne _ _ _ _ (by omega), getD_set_ne _ _ _ _ (by omega),
      getD_set_eq _ _ _ (by simpa using hil)]
    congr 3; omega
  · rw [getD_set_ne _ _ _ _ (by omega), getD_set_eq _ _ _ (by simpa using hil)]
    congr 3; omega
  · rw [getD_set_eq _ _ _ (by simpa using hil)]
    congr 3; omega

theorem rd_add_one (data : List ℕ) (i : ℕ) :
    rd data ((i : ℤ) + 1) = (data.getD (i + 1) 0 : ℚ) := by
  rw [← rd_natCast]; push_cast; rfl

theorem rd_add_two (data : List ℕ) (i : ℕ) :
    rd data ((i : ℤ) + 2) = (data.getD (i + 2) 0 : ℚ) := by
  rw [← rd_natCast]; push_cast; rfl

theorem rd_add_three (data : List ℕ) (i : ℕ) :
    rd data ((i : ℤ) + 3) = (data.getD (i + 3) 0 : ℚ) := by
  rw [← rd_natCast]; push_cast; rfl

theorem cubicWeight_zero : cubicWeight 0 = 1 := by
  simp [cubicWeight]

theorem cubicWeight_one : cubicWeight 1 = 0 := by
  simp [cubicWeight]; norm_num

theorem cubicWeight_neg_one : cubicWeight (-1) = 0 := by
  simp [cubicWeight]; norm_num

theorem cubicWeight_two : cubicWeight 2 = 0 := by
  simp [cubicWeight]

theorem clamp_natCast (n : ℕ) (h : n ≤ 255) : max (0 : ℚ) (min 255 (n : ℚ)) = n := by
  have h1 : (n : ℚ) ≤ 255 := by exact_mod_cast h
  have h2 : (0 : ℚ) ≤ n := by positivity
  rw [min_eq_right h1, max_eq_right h2]

/-- When the source coordinate of destination pixel `(dx, dy)` is the integer
point `(X, Y)` of the source, the accumulators of `bicubicResample` hold the
samples of source pixel `(X, Y)`. -/
theorem bicubicAcc_exact (src : ImageData) (sw sh dw dh dy dx X Y : ℕ)
    (hX : (dx : ℚ) * ((sw : ℚ) / dw) = X) (hY : (dy : ℚ) * ((sh : ℚ) / dh) = Y)
    (hXw : X < sw) (hYh : Y < sh) :
    bicubicAcc src sw sh dw dh dy dx =
      ((src.data.getD ((Y * sw + X) * 4) 0 : ℚ), (src.data.getD ((Y * sw + X) * 4 + 1) 0 : ℚ),
       (src.data.getD ((Y * sw + X) * 4 + 2) 0 : ℚ), (src.data.getD ((Y * sw + X) * 4 + 3) 0 : ℚ)) := by
  have hsx : max (0 : ℤ) (min ((sw : ℤ) - 1) (X : ℤ)) = X := by omega
  have hsy : max (0 : ℤ) (min ((sh : ℤ) - 1) (Y : ℤ)) = Y := by omega
  have hidx0 : (((Y : ℤ) * sw + X) * 4) = (((Y * sw + X) * 4 : ℕ) : ℤ) := by
    push_cast; ring
  simp only [bicubicAcc, List.foldl_cons, List.foldl_nil, hX, hY, Int.floor_natCast,
    Int.cast_natCast, sub_self, sub_zero, Int.cast_neg, Int.cast_one, Int.cast_zero,
    Int.cast_ofNat, cubicWeight_zero, cubicWeight_one, cubicWeight_neg_one, cubicWeight_two,
    mul_zero, zero_mul, add_zero, zero_add, mul_one, hsx, hsy, hidx0, rd_natCast,
    rd_add_one, rd_add_two, rd_add_three]

theorem bilinearPixel_exact_src (src : ImageData) (hv : ∀ v ∈ src.data, v ≤ 255)
    (sw sh dw dh dy dx X Y : ℕ)
    (hX : (dx : ℚ) * ((sw : ℚ) / dw) = X) (hY : (dy : ℚ) * ((sh : ℚ) / dh) = Y)
    (dest : List ℕ) (i : ℕ) (hi : i / 4 = dy * dw + dx) (hil : i < dest.length) :
    (bilinearPixel src sw sh dw dh dy dx dest).getD i 0 =
      src.data.getD ((Y * sw + X) * 4 + i % 4) 0 := by
  rw [bilinearPixel_exact src sw sh dw dh dy dx X Y hX hY dest i hi hil,
    toUint8Clamp_natCast _ (getD_le _ hv _)]

theorem bicubicPixel_length (src : ImageData) (sw sh dw dh dy dx : ℕ) (dest : List ℕ) :
    (bicubicPixel src sw sh dw dh dy dx dest).length = dest.length := by
  simp [bicubicPixel, wr]

theorem bicubicPixel_other (src : ImageData) (sw sh dw dh dy dx : ℕ) (dest : List ℕ)
    (i : ℕ) (h : i / 4 ≠ dy * dw + dx) :
    (bicubicPixel src sw sh dw dh dy dx dest).getD i 0 = dest.getD i 0 := by
  simp only [bicubicPixel, wr]
  rw [getD_set_ne _ _ _ _ (by omega), getD_set_ne _ _ _ _ (by omega),
    getD_set_ne _ _ _ _ (by omega), getD_set_ne _ _ _ _ (by omega)]

/-- When the source coordinate of destination pixel `(dx, dy)` is the integer
point `(X, Y)` of the source, `bicubicResample` stores the samples of source
pixel `(X, Y)`. -/
theorem bicubicPixel_exact_src (src : ImageData) (hv : ∀ v ∈ src.data, v ≤ 255)
    (sw sh dw dh dy dx X Y : ℕ)
    (hX : (dx : ℚ) * ((sw : ℚ) / dw) = X) (hY : (dy : ℚ) * ((sh : ℚ) / dh) = Y)
    (hXw : X < sw) (hYh : Y < sh)
    (dest : List ℕ) (i : ℕ) (hi : i / 4 = dy * dw + dx) (hil : i < dest.length) :
    (bicubicPixel src sw sh dw dh dy dx dest).getD i 0 =
      src.data.getD ((Y * sw + X) * 4 + i % 4) 0 := by
  simp only [bicubicPixel, wr, bicubicAcc_exact src sw sh dw dh dy dx X Y hX hY hXw hYh,
    clamp_natCast _ (getD_le _ hv _), toUint8Clamp_natCast _ (getD_le _ hv _)]
  have hc : i = (dy * dw + dx) * 4 ∨ i = (dy * dw + dx) * 4 + 1 ∨
      i = (dy * dw + dx) * 4 + 2 ∨ i = (dy * dw + dx) * 4 + 3 := by omega
  rcases hc with h | h | h | h <;> subst h
  · rw [getD_set_ne _ _ _ _ (by omega), getD_set_ne _ _ _ _ (by omega),
      getD_set_ne _ _ _ _ (by omega), getD_set_eq _ _ _ hil]
    congr 1; omega
  · rw [getD_set_ne _ _ _ _ (by omega), getD_set_ne _ _ _ _ (by omega),
      getD_set_eq _ _ _ (by simpa using hil)]
    congr 1; omega
  · rw [getD_set_ne _ _ _ _ (by omega), getD_set_eq _ _ _ (by simpa using hil)]
    congr 1; omega
  · rw [getD_set_eq _ _ _ (by simpa using hil)]
    congr 1; omega

theorem scale_one_coord (d s : ℕ) (h : d < s) : (d : ℚ) * ((s : ℚ) / s) = d := by
  have : (s : ℚ) ≠ 0 := by
    have : 0 < s := by omega
    exact_mod_cast this.ne'
  field_simp

theorem exists_grid_coord (w h i : ℕ) (hi : i < w * h * 4) :
    ∃ y ∈ List.range h, ∃ x ∈ List.range w, i / 4 = y * w + x := by
  have hw : 0 < w := by
    rcases Nat.eq_zero_or_pos w with h0 | h0
    · subst h0; simp at hi
    · exact h0
  have h4 : i / 4 < w * h := by omega
  refine ⟨i / 4 / w, ?_, i / 4 % w, ?_, ?_⟩
  · rw [List.mem_range]
    exact Nat.div_lt_of_lt_mul h4
  · rw [List.mem_range]
    exact Nat.mod_lt _ hw
  · rw [Nat.mul_comm]
    exact (Nat.div_add_mod _ _).symm

/-- C1: for a source buffer of `sw * sh` pixels of 8-bit samples and a
destination buffer of the same size, `bilinearResample` and `bicubicResample`
called with `dw = sw` and `dh = sh` (scale 1) leave in the destination exactly
the samples of the source, all four channels of every pixel. -/
theorem resample_scale_one_exact (src dest : ImageData) (sw sh : ℕ)
    (hsrc : src.data.length = sw * sh * 4) (hv : ∀ v ∈ src.data, v ≤ 255)
    (hdest : dest.data.length = sw * sh * 4) :
    (bilinearResample src dest sw sh sw sh).data = src.data ∧
    (bicubicResample src dest sw sh sw sh).data = src.data := by
  constructor
  · have key := gridLoop_spec sw (List.range sh) (List.range sw)
      (bilinearPixel src sw sh sw sh) (fun i => src.data.getD i 0) dest.data
      (List.nodup_range _) (List.nodup_range _) (fun x hx => List.mem_range.mp hx)
      (fun y x l => bilinearPixel_length src sw sh sw sh y x l)
      (fun y _ x _ l i hi => bilinearPixel_other src sw sh sw sh y x l i hi)
      (fun y hy x hx l hl _ i hi hil => by
        rw [bilinearPixel_exact_src src hv sw sh sw sh y x x y
          (scale_one_coord x sw (List.mem_range.mp hx))
          (scale_one_coord y sh (List.mem_range.mp hy)) l i hi (by omega)]
        congr 1; omega)
    apply list_ext_getD
    · simp only [bilinearResample]; rw [key.1, hdest, hsrc]
    · intro i hi
      simp only [bilinearResample]
      exact (key.2 i (by omega)).1 (exists_grid_coord sw sh i (by omega))
  · have key := gridLoop_spec sw (List.range sh) (List.range sw)
      (bicubicPixel src sw sh sw sh) (fun i => src.data.getD i 0) dest.data
      (List.nodup_range _) (List.nodup_range _) (fun x hx => List.mem_range.mp hx)
      (fun y x l => bicubicPixel_length src sw sh sw sh y x l)
      (fun y _ x _ l i hi => bicubicPixel_other src sw sh sw sh y x l i hi)
      (fun y hy x hx l hl _ i hi hil => by
        rw [bicubicPixel_exact_src src hv sw sh sw sh y x x y
          (scale_one_coord x sw (List.mem_range.mp hx))
          (scale_one_coord y sh (List.mem_range.mp hy))
          (List.mem_range.mp hx) (List.mem_range.mp hy) l i hi (by omega)]
        congr 1; omega)
    apply list_ext_getD
    · simp only [bicubicResample]; rw [key.1, hdest, hsrc]
    · intro i hi
      simp only [bicubicResample]
      exact (key.2 i (by omega)).1 (exists_grid_coord sw sh i (by omega))

/-! ## In-place pixel loops -/

theorem foldl_fixed_point {α β : Type} (f : β → α → β) (b : β) (h : ∀ a, f b a = b) :
    ∀ ks : List α, ks.foldl f b = b := by
  intro ks
  induction ks with
  | nil => rfl
  | cons a ks ih => rw [List.foldl_cons, h a, ih]

theorem set_getD_self (l : List ℕ) (j : ℕ) : l.set j (l.getD j 0) = l := by
  apply list_ext_getD
  · simp
  · intro i _
    rw [getD_set]
    split_ifs with h
    · rw [h.1]
    · rfl

/-- A pixel loop whose body reads and writes only the samples of its own
pixel computes, at every sample, what its body computes from the initial
array. -/
theorem pixelLoop_local (len : ℕ) (body : ℕ → List ℕ → List ℕ)
    (l0 : List ℕ) (hl0 : l0.length ≤ len)
    (hlen : ∀ p l, (body p l).length = l.length)
    (hother : ∀ p l i, i / 4 ≠ p → (body p l).getD i 0 = l.getD i 0)
    (hcongr : ∀ p l, l.length = l0.length →
      (∀ i, i / 4 = p → l.getD i 0 = l0.getD i 0) →
      ∀ i, i / 4 = p → (body p l).getD i 0 = (body p l0).getD i 0) :
    (pixelLoop len body l0).length = l0.length ∧
    ∀ i, i < l0.length → (pixelLoop len body l0).getD i 0 = (body (i / 4) l0).getD i 0 :=
  pixelLoop_spec len body (fun i => (body (i / 4) l0).getD i 0) l0 hl0 hlen hother
    (fun p l hl hag i hi _ => by
      show (body p l).getD i 0 = (body (i / 4) l0).getD i 0
      rw [hi]
      exact hcongr p l hl hag i hi)

theorem sharpenStep_zero (blurred data : List ℕ) (hv : ∀ v ∈ data, v ≤ 255) (p : ℕ) :
    sharpenStep blurred 0 p data = data := by
  simp only [sharpenStep, range_three, List.foldl_cons, List.foldl_nil, zero_mul, add_zero,
    rd_natCast, wr, clamp_natCast _ (getD_le data hv _),
    toUint8Clamp_natCast _ (getD_le data hv _), set_getD_self]

/-- C7: on a buffer of 8-bit samples `unsharpMask` with `amount = 0` returns the
buffer it was given: every sample (R, G, B, and alpha too) is the same after the
call as before it. -/
theorem unsharpMask_zero_identity (imageData : ImageData)
    (hv : ∀ v ∈ imageData.data, v ≤ 255) :
    unsharpMask imageData 0 = imageData := by
  have h : pixelLoop imageData.data.length
      (sharpenStep (gridLoop (List.range imageData.height) (List.range imageData.width)
        (blurVStep (gridLoop (List.range imageData.height) (List.range imageData.width)
          (blurHStep imageData.data imageData.width) imageData.data)
          imageData.width imageData.height) imageData.data) 0) imageData.data
      = imageData.data := by
    unfold pixelLoop
    exact foldl_fixed_point _ _ (fun p => sharpenStep_zero _ _ hv p) _
  simp only [unsharpMask, h]

/-- C7 (witness): the 2x2 example image goes through `unsharpMask` with amount 0
unchanged. -/
theorem unsharpMask_zero_identity_witness :
    (∀ v ∈ exampleSrc.data, v ≤ 255) ∧ unsharpMask exampleSrc 0 = exampleSrc :=
  ⟨by decide, unsharpMask_zero_identity exampleSrc (by decide)⟩

/-- C1 (witness): the 2x2 example image is reproduced by both resamplers at
scale 1. -/
theorem resample_scale_one_exact_witness :
    exampleSrc.data.length = 2 * 2 * 4 ∧ (∀ v ∈ exampleSrc.data, v ≤ 255) ∧
    (createImageData 2 2).data.length = 2 * 2 * 4 ∧
    (bilinearResample exampleSrc (createImageData 2 2) 2 2 2 2).data = exampleSrc.data ∧
    (bicubicResample exampleSrc (createImageData 2 2) 2 2 2 2).data = exampleSrc.data :=
  ⟨by decide, by decide, by decide,
    resample_scale_one_exact exampleSrc (createImageData 2 2) 2 2 (by decide) (by decide)
      (by decide)⟩

/-! ## Colour enhancement -/

theorem enhancePixel_gray (r : ℚ) : enhancePixel r r r = none := by
  simp [enhancePixel]

theorem enhanceStep_length (p : ℕ) (l : List ℕ) : (enhanceStep p l).length = l.length := by
  unfold enhanceStep
  dsimp only
  split <;> simp [wr]

theorem enhanceStep_other (p : ℕ) (l : List ℕ) (i : ℕ) (h : i / 4 ≠ p) :
    (enhanceStep p l).getD i 0 = l.getD i 0 := by
  unfold enhanceStep
  dsimp only
  split
  · rfl
  · simp only [wr]
    rw [getD_set_ne _ _ _ _ (by omega), getD_set_ne _ _ _ _ (by omega),
      getD_set_ne _ _ _ _ (by omega)]

theorem enhanceStep_congr (l0 : List ℕ) (p : ℕ) (l : List ℕ) (hl : l.length = l0.length)
    (hag : ∀ i, i / 4 = p → l.getD i 0 = l0.getD i 0) (i : ℕ) (hi : i / 4 = p) :
    (enhanceStep p l).getD i 0 = (enhanceStep p l0).getD i 0 := by
  unfold enhanceStep
  dsimp only
  simp only [rd_natCast]
  rw [hag (4 * p) (by omega), hag (4 * p + 1) (by omega), hag (4 * p + 2) (by omega)]
  split
  · exact hag i hi
  · simp only [wr, getD_set, List.length_set, hl, hag i hi]

/-- Every sample of the output of `enhanceColors` is what the loop body computes
for its pixel from the input buffer. -/
theorem enhanceColors_getD (imageData : ImageData) (i : ℕ) :
    (enhanceColors imageData).data.getD i 0 =
      (enhanceStep (i / 4) imageData.data).getD i 0 := by
  have key := pixelLoop_local imageData.data.length enhanceStep imageData.data (le_refl _)
    enhanceStep_length enhanceStep_other (enhanceStep_congr imageData.data)
  by_cases hi : i < imageData.data.length
  · exact key.2 i hi
  · have h1 : (enhanceColors imageData).data.length ≤ i := by
      simp only [enhanceColors]; rw [key.1]; omega
    have h2 : (enhanceStep (i / 4) imageData.data).length ≤ i := by
      rw [enhanceStep_length]; omega
    simp [List.getD_eq_getElem?_getD, List.getElem?_eq_none h1, List.getElem?_eq_none h2]

/-- C10: a pixel with R = G = B (saturation 0, black included) is left unchanged
by `enhanceColors`: its four samples are the same after the call as before. -/
theorem enhanceColors_achromatic_unchanged (imageData : ImageData) (p : ℕ)
    (hrg : imageData.data.getD (4 * p) 0 = imageData.data.getD (4 * p + 1) 0)
    (hgb : imageData.data.getD (4 * p + 1) 0 = imageData.data.getD (4 * p + 2) 0)
    (c : ℕ) (hc : c < 4) :
    (enhanceColors imageData).data.getD (4 * p + c) 0 = imageData.data.getD (4 * p + c) 0 := by
  rw [enhanceColors_getD]
  have hp : (4 * p + c) / 4 = p := by omega
  rw [hp]
  unfold enhanceStep
  dsimp only
  simp only [rd_natCast, ← hgb, ← hrg, enhancePixel_gray]

/-- C10 (witness): the gray first pixel of a two-pixel image keeps its four
samples while its coloured neighbour changes. -/
theorem enhanceColors_achromatic_unchanged_witness :
    (exampleGrayColor.data.getD (4 * 0) 0 = exampleGrayColor.data.getD (4 * 0 + 1) 0) ∧
    (exampleGrayColor.data.getD (4 * 0 + 1) 0 = exampleGrayColor.data.getD (4 * 0 + 2) 0) ∧
    (enhanceColors exampleGrayColor).data.getD (4 * 0 + 3) 0 =
      exampleGrayColor.data.getD (4 * 0 + 3) 0 :=
  ⟨by decide, by decide,
    enhanceColors_achromatic_unchanged exampleGrayColor 0 (by decide) (by decide) 3 (by decide)⟩

/-- C3: on the pixel (100, 90, 80, 255), whose saturation is 0.2, `enhanceColors`
returns (255, 255, 255, 255), a pixel of saturation 0: the value `v` is kept on
the scale 0..255 and the result is multiplied by 255 once more. -/
theorem enhanceColors_desaturates :
    enhancePixel 100 90 80 = some (25500, 45135 / 2, 19635) ∧
    (enhanceColors ⟨1, 1, [100, 90, 80, 255]⟩).data = [255, 255, 255, 255] := by
  constructor <;> decide!

/-! ## Method dispatch -/

theorem upscale_no_method (M : JSMath) (method : String) (scale : ℕ) (srcData : ImageData)
    (h1 : method ≠ "lanczos") (h2 : method ≠ "bicubic") (h3 : method ≠ "bilinear") :
    upscale M method scale srcData =
      Except.ok (createImageData (srcData.width * scale) (srcData.height * scale)) := by
  simp [upscale, h1, h2, h3]

/-- C4 (as stated, refuted): with the method `nearest`, which is none of the
three supported ones, `upscale` on a 1x1 image at scale 2 raises no
`UnsupportedMethod` error and returns a 2x2 pixel buffer, all samples 0. -/
theorem upscale_unsupported_returns_buffer :
    upscale exampleMath "nearest" 2 ⟨1, 1, [0, 0, 0, 255]⟩ ≠
      Except.error UpscaleError.UnsupportedMethod ∧
    upscale exampleMath "nearest" 2 ⟨1, 1, [0, 0, 0, 255]⟩ =
      Except.ok ⟨2, 2, [0, 0, 0, 0, 0, 0, 0, 0, 0, 0, 0, 0, 0, 0, 0, 0]⟩ := by
  have h := upscale_no_method exampleMath "nearest" 2 ⟨1, 1, [0, 0, 0, 255]⟩
    (by decide) (by decide) (by decide)
  constructor
  · rw [h]; simp
  · rw [h]; rfl

/-! ## Double-precision rounding -/

theorem roundHalfEven_nonneg (x : ℚ) (hx : 0 ≤ x) : 0 ≤ roundHalfEven x := by
  have hf : 0 ≤ ⌊x⌋ := Int.floor_nonneg.mpr hx
  unfold roundHalfEven
  dsimp only
  split_ifs <;> omega

theorem roundHalfEven_le (x : ℚ) : ((roundHalfEven x : ℤ) : ℚ) ≤ x + 1 / 2 := by
  have h1 : ((⌊x⌋ : ℤ) : ℚ) ≤ x := Int.floor_le x
  unfold roundHalfEven
  dsimp only
  split_ifs with h2 h3
  · push_cast; linarith
  · linarith
  · linarith
  · push_cast; linarith

theorem binadeUp_le (a : ℚ) : ∀ (fuel : ℕ) (e : ℤ), (2 : ℚ) ^ e ≤ a →
    (2 : ℚ) ^ binadeUp fuel a e ≤ a := by
  intro fuel
  induction fuel with
  | zero => intro e h; exact h
  | succ fuel ih =>
    intro e h
    unfold binadeUp
    split_ifs with h1
    · exact ih (e + 1) h1
    · exact h

theorem binadeDown_spec (a : ℚ) : ∀ (fuel : ℕ) (e : ℤ),
    (2 : ℚ) ^ binadeDown fuel a e ≤ a ∨ binadeDown fuel a e = e - fuel := by
  intro fuel
  induction fuel with
  | zero => intro e; right; simp [binadeDown]
  | succ fuel ih =>
    intro e
    unfold binadeDown
    split_ifs with h1
    · rcases ih (e - 1) with h | h
      · left; exact h
      · right; rw [h]; push_cast; ring
    · left; exact not_lt.mp h1

/-- The spacing of the doubles around a positive number `a` is small against
`a`, or is the spacing of the subnormal numbers. -/
theorem ulp_le (a : ℚ) (ha : 0 < a) :
    (2 : ℚ) ^ (binade a - 52) ≤ a / 10 ^ 6 + 1 / 10 ^ 6 := by
  have h52 : (2 : ℚ) ^ (-52 : ℤ) ≤ 1 / 10 ^ 6 := by norm_num
  have hsplit : ∀ e : ℤ, (2 : ℚ) ^ (e - 52) = (2 : ℚ) ^ e * (2 : ℚ) ^ (-52 : ℤ) := by
    intro e
    rw [sub_eq_add_neg, zpow_add₀ (by norm_num)]
  have hmain : ∀ e : ℤ, (2 : ℚ) ^ e ≤ a → (2 : ℚ) ^ (e - 52) ≤ a / 10 ^ 6 + 1 / 10 ^ 6 := by
    intro e he
    rw [hsplit]
    have hp : (0 : ℚ) < (2 : ℚ) ^ (-52 : ℤ) := by positivity
    calc (2 : ℚ) ^ e * (2 : ℚ) ^ (-52 : ℤ) ≤ a * (2 : ℚ) ^ (-52 : ℤ) :=
          mul_le_mul_of_nonneg_right he hp.le
      _ ≤ a * (1 / 10 ^ 6) := mul_le_mul_of_nonneg_left h52 ha.le
      _ ≤ a / 10 ^ 6 + 1 / 10 ^ 6 := by
          have : a * (1 / 10 ^ 6) = a / 10 ^ 6 := by ring
          rw [this]
          linarith [show (0 : ℚ) < 1 / 10 ^ 6 by positivity]
  unfold binade
  split_ifs with h1
  · exact hmain _ (binadeUp_le a 1023 0 (by simpa using h1))
  · rcases binadeDown_spec a 1022 0 with h | h
    · exact hmain _ h
    · rw [h]
      have : (2 : ℚ) ^ ((0 : ℤ) - ((1022 : ℕ) : ℤ) - 52) ≤ 1 / 10 ^ 6 := by
        have e : ((0 : ℤ) - ((1022 : ℕ) : ℤ) - 52) = -1074 := by norm_num
        rw [e]
        have h2 : (2 : ℚ) ^ (-1074 : ℤ) ≤ (2 : ℚ) ^ (-52 : ℤ) :=
          zpow_le_zpow_right₀ (by norm_num) (by norm_num)
        exact le_trans h2 h52
      have hq : (0 : ℚ) ≤ a / 10 ^ 6 := by positivity
      linarith

theorem toDouble_nonneg (x : ℚ) (hx : 0 ≤ x) : 0 ≤ toDouble x := by
  unfold toDouble
  by_cases h0 : x = 0
  · rw [if_pos h0]
  · rw [if_neg h0]
    dsimp only
    rw [if_neg (not_lt.mpr hx), one_mul]
    have hu : (0 : ℚ) < (2 : ℚ) ^ (binade |x| - 52) := by positivity
    have hr : 0 ≤ roundHalfEven (|x| / (2 : ℚ) ^ (binade |x| - 52)) :=
      roundHalfEven_nonneg _ (by positivity)
    have hr' : (0 : ℚ) ≤ ((roundHalfEven (|x| / (2 : ℚ) ^ (binade |x| - 52)) : ℤ) : ℚ) := by
      exact_mod_cast hr
    positivity

/-- Rounding to a double moves a non-negative number up by at most a millionth
of it, plus a millionth. -/
theorem toDouble_le (x : ℚ) (hx : 0 ≤ x) : toDouble x ≤ x * (1 + 1 / 10 ^ 6) + 1 / 10 ^ 6 := by
  unfold toDouble
  by_cases h0 : x = 0
  · rw [if_pos h0, h0]; norm_num
  · rw [if_neg h0]
    dsimp only
    have hpos : 0 < x := lt_of_le_of_ne hx (Ne.symm h0)
    rw [if_neg (not_lt.mpr hx), one_mul, abs_of_pos hpos]
    have hu : (0 : ℚ) < (2 : ℚ) ^ (binade x - 52) := by positivity
    have hul := ulp_le x hpos
    have hr := roundHalfEven_le (x / (2 : ℚ) ^ (binade x - 52))
    generalize (2 : ℚ) ^ (binade x - 52) = u at hu hul hr
    generalize ((roundHalfEven (x / u) : ℤ) : ℚ) = k at hr
    have h1 : k * u ≤ (x / u + 1 / 2) * u := mul_le_mul_of_nonneg_right hr hu.le
    have h2 : (x / u + 1 / 2) * u = x + u / 2 := by
      field_simp
      ring
    rw [h2] at h1
    have h3 : x / 10 ^ 6 = x * (1 / 10 ^ 6) := by ring
    linarith

/-! ## Luminance histogram -/

theorem sum_set_succ (l : List ℕ) (j : ℕ) (h : j < l.length) :
    (l.set j (l.getD j 0 + 1)).sum = l.sum + 1 := by
  induction l generalizing j with
  | nil => simp at h
  | cons a l ih =>
    cases j with
    | zero => simp; omega
    | succ j =>
      simp only [List.length_cons, Nat.add_lt_add_iff_right] at h
      simp only [List.set_cons_succ, List.getD_cons_succ, List.sum_cons, ih j h]
      omega

theorem grayOf_bounds (r g b : ℕ) (hr : r ≤ 255) (hg : g ≤ 255) (hb : b ≤ 255) :
    0 ≤ grayOf r g b ∧ grayOf r g b ≤ 255 := by
  have hr' : (r : ℚ) ≤ 255 := by exact_mod_cast hr
  have hg' : (g : ℚ) ≤ 255 := by exact_mod_cast hg
  have hb' : (b : ℚ) ≤ 255 := by exact_mod_cast hb
  have hr0 : (0 : ℚ) ≤ r := by positivity
  have hg0 : (0 : ℚ) ≤ g := by positivity
  have hb0 : (0 : ℚ) ≤ b := by positivity
  have c1 := toDouble_nonneg 0.299 (by norm_num)
  have c2 := toDouble_nonneg 0.587 (by norm_num)
  have c3 := toDouble_nonneg 0.114 (by norm_num)
  have K1 := toDouble_le 0.299 (by norm_num)
  have K2 := toDouble_le 0.587 (by norm_num)
  have K3 := toDouble_le 0.114 (by norm_num)
  have p1 : 0 ≤ toDouble 0.299 * r := mul_nonneg c1 hr0
  have p2 : 0 ≤ toDouble 0.587 * g := mul_nonneg c2 hg0
  have p3 : 0 ≤ toDouble 0.114 * b := mul_nonneg c3 hb0
  have P1 : toDouble 0.299 * r ≤ 0.2991 * 255 :=
    mul_le_mul (by linarith) hr' hr0 (by norm_num)
  have P2 : toDouble 0.587 * g ≤ 0.5871 * 255 :=
    mul_le_mul (by linarith) hg' hg0 (by norm_num)
  have P3 : toDouble 0.114 * b ≤ 0.1141 * 255 :=
    mul_le_mul (by linarith) hb' hb0 (by norm_num)
  have t1 := toDouble_nonneg _ p1
  have t2 := toDouble_nonneg _ p2
  have t3 := toDouble_nonneg _ p3
  have T1 := toDouble_le _ p1
  have T2 := toDouble_le _ p2
  have T3 := toDouble_le _ p3
  have s1 := toDouble_nonneg _ (add_nonneg t1 t2)
  have S1 := toDouble_le _ (add_nonneg t1 t2)
  have s2 := toDouble_nonneg _ (add_nonneg s1 t3)
  have S2 := toDouble_le _ (add_nonneg s1 t3)
  unfold grayOf
  constructor
  · exact Int.floor_nonneg.mpr s2
  · have : ⌊toDouble (toDouble (toDouble (toDouble 0.299 * r) + toDouble (toDouble 0.587 * g))
        + toDouble (toDouble 0.114 * b))⌋ < 256 := by
      rw [Int.floor_lt]
      push_cast
      linarith
    omega

theorem bucketOf_lt (data : List ℕ) (hv : ∀ v ∈ data, v ≤ 255) (p : ℕ) :
    bucketOf data p < 256 := by
  unfold bucketOf
  simp only [rd_natCast]
  have := grayOf_bounds (data.getD (4 * p) 0) (data.getD (4 * p + 1) 0)
    (data.getD (4 * p + 2) 0) (getD_le _ hv _) (getD_le _ hv _) (getD_le _ hv _)
  omega

/-- The histogram loop: the bucket list keeps its length, its sum grows by one
per pixel, and bucket `b` grows by the number of pixels whose bucket is `b`. -/
theorem histogram_foldl (data : List ℕ) (hv : ∀ v ∈ data, v ≤ 255) (ks : List ℕ) :
    ∀ h0 : List ℕ, h0.length = 256 →
    (ks.foldl (fun histogram p =>
        histogram.set (bucketOf data p) (histogram.getD (bucketOf data p) 0 + 1)) h0).length
      = 256 ∧
    (ks.foldl (fun histogram p =>
        histogram.set (bucketOf data p) (histogram.getD (bucketOf data p) 0 + 1)) h0).sum
      = h0.sum + ks.length ∧
    ∀ b, (ks.foldl (fun histogram p =>
        histogram.set (bucketOf data p) (histogram.getD (bucketOf data p) 0 + 1)) h0).getD b 0
      = h0.getD b 0 + ks.countP (fun p => decide (bucketOf data p = b)) := by
  induction ks with
  | nil => intro h0 hl; simp [hl]
  | cons k ks ih =>
    intro h0 hl
    have hb := bucketOf_lt data hv k
    have hl' : (h0.set (bucketOf data k) (h0.getD (bucketOf data k) 0 + 1)).length = 256 := by
      simp [hl]
    obtain ⟨i1, i2, i3⟩ := ih _ hl'
    simp only [List.foldl_cons]
    refine ⟨i1, ?_, ?_⟩
    · rw [i2, sum_set_succ _ _ (by omega)]
      simp only [List.length_cons]
      omega
    · intro b
      rw [i3 b, getD_set, List.countP_cons]
      by_cases hbk : bucketOf data k = b
      · subst hbk
        simp [hl, hb]
        omega
      · simp [hbk]

theorem sum_replicate_zero (n : ℕ) : (List.replicate n 0).sum = 0 := by
  induction n with
  | zero => rfl
  | succ n ih => rw [List.replicate_succ, List.sum_cons, ih]

theorem getD_replicate_zero (n b : ℕ) : (List.replicate n 0).getD b 0 = 0 := by
  rw [List.getD_eq_getElem?_getD, List.getElem?_replicate]
  split_ifs <;> rfl

theorem histogramOf_spec (data : List ℕ) (hv : ∀ v ∈ data, v ≤ 255) :
    (histogramOf data).length = 256 ∧
    (histogramOf data).sum = (data.length + 3) / 4 ∧
    ∀ b, (histogramOf data).getD b 0 =
      (List.range ((data.length + 3) / 4)).countP (fun p => decide (bucketOf data p = b)) := by
  have key := histogram_foldl data hv (List.range ((data.length + 3) / 4))
    (List.replicate 256 0) (List.length_replicate _ _)
  unfold histogramOf
  refine ⟨key.1, ?_, ?_⟩
  · rw [key.2.1, sum_replicate_zero, List.length_range, Nat.zero_add]
  · intro b
    rw [key.2.2 b, getD_replicate_zero, Nat.zero_add]

/-- C8: for a well-formed buffer of `width * height` pixels the histogram built
by `normalizeContrast` has 256 buckets whose counts sum to `width * height`;
the bucket `floor(0.299 R + 0.587 G + 0.114 B)` of every pixel lies in 0..255,
and bucket `b` counts exactly the pixels whose bucket is `b`. -/
theorem histogram_sum_eq_pixels (imageData : ImageData) (hwf : imageData.WF) :
    (histogramOf imageData.data).length = 256 ∧
    (histogramOf imageData.data).sum = imageData.width * imageData.height ∧
    (∀ p, p < imageData.width * imageData.height →
      0 ≤ grayOf (rd imageData.data ((4 * p : ℕ) : ℤ)) (rd imageData.data ((4 * p + 1 : ℕ) : ℤ))
            (rd imageData.data ((4 * p + 2 : ℕ) : ℤ)) ∧
      grayOf (rd imageData.data ((4 * p : ℕ) : ℤ)) (rd imageData.data ((4 * p + 1 : ℕ) : ℤ))
            (rd imageData.data ((4 * p + 2 : ℕ) : ℤ)) ≤ 255) ∧
    ∀ b, (histogramOf imageData.data).getD b 0 =
      (List.range (imageData.width * imageData.height)).countP
        (fun p => decide (bucketOf imageData.data p = b)) := by
  obtain ⟨hlen, hv⟩ := hwf
  have hn : (imageData.data.length + 3) / 4 = imageData.width * imageData.height := by
    rw [hlen]; omega
  obtain ⟨k1, k2, k3⟩ := histogramOf_spec imageData.data hv
  rw [hn] at k2 k3
  refine ⟨k1, k2, ?_, k3⟩
  intro p _
  simp only [rd_natCast]
  exact grayOf_bounds _ _ _ (getD_le _ hv _) (getD_le _ hv _) (getD_le _ hv _)

/-- C8 (witness): the histogram of the 2x2 example image. -/
theorem histogram_sum_eq_pixels_witness :
    exampleSrc.WF ∧ (histogramOf exampleSrc.data).sum = exampleSrc.width * exampleSrc.height :=
  ⟨by decide, (histogram_sum_eq_pixels exampleSrc (by decide)).2.1⟩

/-! ## Percentile bounds -/

theorem percentileScan_unique (histogram : List ℕ) (threshold : ℚ) (dflt g : ℕ) :
    ∀ (is : List ℕ) (sum : ℕ), g ∈ is →
      (∀ i ∈ is, i ≠ g → histogram.getD i 0 = 0) →
      (sum : ℚ) ≤ threshold → threshold < ((sum + histogram.getD g 0 : ℕ) : ℚ) →
      percentileScan histogram threshold dflt is sum = g := by
  intro is
  induction is with
  | nil => intro sum hg; simp at hg
  | cons i is ih =>
    intro sum hg hz hle hlt
    by_cases hig : i = g
    · subst hig
      simp only [percentileScan]
      rw [if_pos (by simpa using hlt)]
    · have h0 : histogram.getD i 0 = 0 := hz i (List.mem_cons_self _ _) hig
      simp only [percentileScan, h0, Nat.add_zero]
      rw [if_neg (by simpa using hle)]
      have hg' : g ∈ is := by
        rcases List.mem_cons.mp hg with h | h
        · exact absurd h.symm hig
        · exact h
      exact ih sum hg' (fun j hj hne => hz j (List.mem_cons_of_mem _ hj) hne) hle hlt

/-- On a non-empty buffer whose pixels all fall in bucket `g`, both percentile
bounds are `g`. -/
theorem contrastBounds_flat (data : List ℕ) (hv : ∀ v ∈ data, v ≤ 255)
    (n : ℕ) (hlen : data.length = n * 4) (hn : 0 < n) (g : ℕ)
    (hflat : ∀ p, p < n → bucketOf data p = g) :
    contrastBounds data = (g, g) := by
  obtain ⟨_, _, k3⟩ := histogramOf_spec data hv
  have hN : (data.length + 3) / 4 = n := by rw [hlen]; omega
  rw [hN] at k3
  have hg : g < 256 := by
    rw [← hflat 0 hn]; exact bucketOf_lt data hv 0
  have hgg : (histogramOf data).getD g 0 = n := by
    rw [k3 g]
    have : (List.range n).countP (fun p => decide (bucketOf data p = g)) = (List.range n).length := by
      rw [List.countP_eq_length]
      intro p hp
      simpa using hflat p (List.mem_range.mp hp)
    rw [this, List.length_range]
  have hother : ∀ i, i ≠ g → (histogramOf data).getD i 0 = 0 := by
    intro i hi
    rw [k3 i, List.countP_eq_zero]
    intro p hp
    simp only [decide_eq_true_eq]
    rw [hflat p (List.mem_range.mp hp)]
    exact fun h => hi h.symm
  have hthr : (data.length : ℚ) / 4 * 0.01 = (n : ℚ) / 100 := by
    rw [hlen]; push_cast; ring
  have hnq : (0 : ℚ) < n := by exact_mod_cast hn
  have h1 : ((0 : ℕ) : ℚ) ≤ (n : ℚ) / 100 := by
    simp only [Nat.cast_zero]; positivity
  have h2 : (n : ℚ) / 100 < ((0 + (histogramOf data).getD g 0 : ℕ) : ℚ) := by
    rw [hgg]; simp only [Nat.zero_add]; linarith
  unfold contrastBounds
  simp only [hthr]
  rw [percentileScan_unique (histogramOf data) _ 0 g (List.range 256) 0
      (List.mem_range.mpr hg) (fun i _ hi => hother i hi) h1 h2,
    percentileScan_unique (histogramOf data) _ 255 g (List.range 256).reverse 0
      (List.mem_reverse.mpr (List.mem_range.mpr hg)) (fun i _ hi => hother i hi) h1 h2]

/-- C9: on a non-empty well-formed buffer whose pixels all fall in the same
luminance bucket (a flat image for instance) the percentile bounds coincide and
`normalizeContrast` returns the buffer unchanged. -/
theorem normalizeContrast_flat_unchanged (imageData : ImageData) (hwf : imageData.WF)
    (hne : 0 < imageData.width * imageData.height) (g : ℕ)
    (hflat : ∀ p, p < imageData.width * imageData.height → bucketOf imageData.data p = g) :
    (contrastBounds imageData.data).2 = (contrastBounds imageData.data).1 ∧
    normalizeContrast imageData = imageData := by
  have hb := contrastBounds_flat imageData.data hwf.2 _ hwf.1 hne g hflat
  constructor
  · rw [hb]
  · simp [normalizeContrast, hb]

/-- C9 (witness): a 2x1 image whose two pixels, of different colours, share the
luminance bucket 100. -/
theorem normalizeContrast_flat_unchanged_witness :
    exampleFlat.WF ∧ 0 < exampleFlat.width * exampleFlat.height ∧
    (∀ p, p < exampleFlat.width * exampleFlat.height → bucketOf exampleFlat.data p = 100) ∧
    normalizeContrast exampleFlat = exampleFlat :=
  ⟨by decide, by decide, by decide!,
    (normalizeContrast_flat_unchanged exampleFlat (by decide) (by decide) 100 (by decide!)).2⟩

/-! ## Channel loops and uniform buffers -/

/-- The loop over the channels `c < n` of the pixel starting at `idx`, each
iteration replacing sample `idx + c` by a function of its current value. -/
theorem getD_foldl_set_self (idx : ℕ) (g : ℕ → ℕ → ℕ) (l : List ℕ) (i : ℕ) :
    ∀ n : ℕ,
    ((List.range n).foldl (fun d c => d.set (idx + c) (g c (d.getD (idx + c) 0))) l).length
      = l.length ∧
    ((List.range n).foldl (fun d c => d.set (idx + c) (g c (d.getD (idx + c) 0))) l).getD i 0
      = if idx ≤ i ∧ i < idx + n ∧ i < l.length then g (i - idx) (l.getD i 0)
        else l.getD i 0 := by
  intro n
  induction n generalizing i with
  | zero =>
    have h : ¬ (idx ≤ i ∧ i < idx + 0 ∧ i < l.length) := by omega
    simp only [List.range_zero, List.foldl_nil, if_neg h, and_self]
  | succ n ih =>
    rw [List.range_succ, List.foldl_append]
    simp only [List.foldl_cons, List.foldl_nil, List.length_set]
    refine ⟨(ih i).1, ?_⟩
    rw [getD_set, (ih i).1, (ih i).2, (ih (idx + n)).2]
    by_cases h1 : idx + n = i
    · subst h1
      by_cases h2 : idx + n < l.length
      · simp [h2]
      · simp [h2]
    · by_cases h2 : idx ≤ i ∧ i < idx + n ∧ i < l.length
      · have h3 : idx ≤ i ∧ i < idx + (n + 1) ∧ i < l.length := ⟨h2.1, by omega, h2.2.2⟩
        simp [h1, h2, h3]
      · have h3 : ¬ (idx ≤ i ∧ i < idx + (n + 1) ∧ i < l.length) := by
          intro h; apply h2; exact ⟨h.1, by omega, h.2.2⟩
        simp [h1, h2, h3]

/-- The loop over the channels `c < n` of the pixel starting at `idx`, each
iteration storing a value that does not depend on the array written. -/
theorem getD_foldl_set (idx : ℕ) (g : ℕ → ℕ) (l : List ℕ) (i : ℕ) (n : ℕ) :
    ((List.range n).foldl (fun d c => d.set (idx + c) (g c)) l).length = l.length ∧
    ((List.range n).foldl (fun d c => d.set (idx + c) (g c)) l).getD i 0
      = if idx ≤ i ∧ i < idx + n ∧ i < l.length then g (i - idx) else l.getD i 0 :=
  getD_foldl_set_self idx (fun c _ => g c) l i n

theorem sample_lt (w h y x c : ℕ) (hy : y < h) (hx : x < w) (hc : c < 4) :
    (y * w + x) * 4 + c < w * h * 4 := by
  have h1 : y * w + x < y * w + w := by omega
  have h2 : y * w + w = (y + 1) * w := by ring
  have h3 : (y + 1) * w ≤ h * w := Nat.mul_le_mul_right w (by omega)
  have h4 : h * w = w * h := Nat.mul_comm _ _
  omega

theorem rd_uniform (data : List ℕ) (k : ℕ → ℕ) (w h : ℕ) (hlen : data.length = w * h * 4)
    (hu : IsUniform data k) (Y X : ℤ) (hY0 : 0 ≤ Y) (hY : Y < h) (hX0 : 0 ≤ X) (hX : X < w)
    (c : ℕ) (hc : c < 4) :
    rd data ((Y * w + X) * 4 + (c : ℤ)) = k c := by
  obtain ⟨y, rfl⟩ := Int.eq_ofNat_of_zero_le hY0
  obtain ⟨x, rfl⟩ := Int.eq_ofNat_of_zero_le hX0
  have hy : y < h := by exact_mod_cast hY
  have hx : x < w := by exact_mod_cast hX
  have e : (((y : ℤ) * w + x) * 4 + (c : ℤ)) = (((y * w + x) * 4 + c : ℕ) : ℤ) := by
    push_cast; ring
  rw [e, rd_natCast, hu _ (by rw [hlen]; exact sample_lt w h y x c hy hx hc)]
  congr 2
  omega

theorem floor_coord_bounds (d s D : ℕ) (hd : d < D) (hs : 0 < s) :
    0 ≤ ⌊(d : ℚ) * ((s : ℚ) / D)⌋ ∧ ⌊(d : ℚ) * ((s : ℚ) / D)⌋ < s := by
  have hD : (0 : ℚ) < D := by
    have : 0 < D := by omega
    exact_mod_cast this
  have hsq : (0 : ℚ) < s := by exact_mod_cast hs
  have hdq : (d : ℚ) < D := by exact_mod_cast hd
  constructor
  · apply Int.floor_nonneg.mpr
    positivity
  · rw [Int.floor_lt]
    have e : (d : ℚ) * ((s : ℚ) / D) = s * (d / D) := by ring
    have h1 : (d : ℚ) / D < 1 := by rw [div_lt_one hD]; exact hdq
    rw [e]
    push_cast
    calc (s : ℚ) * (d / D) < s * 1 := by
          apply mul_lt_mul_of_pos_left h1 hsq
      _ = s := mul_one _

/-- On a source whose pixels are all `(k 0, k 1, k 2, k 3)`, the number
`bilinearResample` computes for channel `c` is `k c`. -/
theorem bilinearSample_uniform (src : ImageData) (k : ℕ → ℕ) (sw sh dw dh dy dx c : ℕ)
    (hlen : src.data.length = sw * sh * 4) (hu : IsUniform src.data k)
    (hx : dx < dw) (hy : dy < dh) (hsw : 0 < sw) (hsh : 0 < sh) (hc : c < 4) :
    bilinearSample src sw sh dw dh dy dx c = k c := by
  obtain ⟨hx0, hx1⟩ := floor_coord_bounds dx sw dw hx hsw
  obtain ⟨hy0, hy1⟩ := floor_coord_bounds dy sh dh hy hsh
  have R := rd_uniform src.data k sw sh hlen hu
  simp only [bilinearSample]
  rw [R _ _ hy0 hy1 hx0 hx1 c hc, R _ _ hy0 hy1 (by omega) (by omega) c hc,
    R _ _ (by omega) (by omega) hx0 hx1 c hc,
    R _ _ (by omega) (by omega) (by omega) (by omega) c hc]
  ring

theorem bilinearPixel_getD (src : ImageData) (sw sh dw dh dy dx : ℕ) (dest : List ℕ) (i : ℕ) :
    (bilinearPixel src sw sh dw dh dy dx dest).getD i 0 =
      if (dy * dw + dx) * 4 ≤ i ∧ i < (dy * dw + dx) * 4 + 4 ∧ i < dest.length then
        toUint8Clamp (bilinearSample src sw sh dw dh dy dx (i - (dy * dw + dx) * 4))
      else dest.getD i 0 :=
  (getD_foldl_set ((dy * dw + dx) * 4)
    (fun c => toUint8Clamp (bilinearSample src sw sh dw dh dy dx c)) dest i 4).2

/-- On a source whose pixels are all `(k 0, k 1, k 2, k 3)`, with 8-bit
samples, `bilinearResample` to any size fills the destination with the same
pixel. -/
theorem bilinearResample_uniform (src dest : ImageData) (k : ℕ → ℕ) (sw sh dw dh : ℕ)
    (hlen : src.data.length = sw * sh * 4) (hu : IsUniform src.data k)
    (hk : ∀ c, k c ≤ 255) (hsw : 0 < sw) (hsh : 0 < sh)
    (hdest : dest.data.length = dw * dh * 4) :
    (bilinearResample src dest sw sh dw dh).data.length = dw * dh * 4 ∧
    IsUniform (bilinearResample src dest sw sh dw dh).data k := by
  have key := gridLoop_spec dw (List.range dh) (List.range dw)
    (bilinearPixel src sw sh dw dh) (fun i => k (i % 4)) dest.data
    (List.nodup_range _) (List.nodup_range _) (fun x hx => List.mem_range.mp hx)
    (fun y x l => bilinearPixel_length src sw sh dw dh y x l)
    (fun y _ x _ l i hi => bilinearPixel_other src sw sh dw dh y x l i hi)
    (fun y hy x hx l hl _ i hi hil => by
      rw [bilinearPixel_getD, if_pos ⟨by omega, by omega, by omega⟩,
        bilinearSample_uniform src k sw sh dw dh y x _ hlen hu (List.mem_range.mp hx)
          (List.mem_range.mp hy) hsw hsh (by omega),
        toUint8Clamp_natCast _ (hk _)]
      congr 1; omega)
  simp only [bilinearResample]
  refine ⟨by rw [key.1, hdest], ?_⟩
  intro i hi
  rw [key.1] at hi
  exact (key.2 i hi).1 (exists_grid_coord dw dh i (by omega))

/-! ## Smoothing filters on a uniform buffer -/

/-- The accumulation `sum += r * weight; weight_sum += weight` over two nested
loops: when every sample read is `K`, the sum is `K` times the weight sum. -/
theorem weighted_fold (K : ℚ) (r w : ℤ → ℤ → ℚ) (dxs : List ℤ) :
    ∀ (dys : List ℤ) (acc0 : ℚ × ℚ),
    (∀ dy ∈ dys, ∀ dx ∈ dxs, r dy dx = K) →
    (∀ dy ∈ dys, ∀ dx ∈ dxs, 0 < w dy dx) →
    ((dys.foldl (fun acc dy =>
        dxs.foldl (fun acc dx => (acc.1 + r dy dx * w dy dx, acc.2 + w dy dx)) acc) acc0).1
      - acc0.1 =
      K * ((dys.foldl (fun acc dy =>
        dxs.foldl (fun acc dx => (acc.1 + r dy dx * w dy dx, acc.2 + w dy dx)) acc) acc0).2
        - acc0.2)) ∧
    (dys ≠ [] → dxs ≠ [] → acc0.2 <
      (dys.foldl (fun acc dy =>
        dxs.foldl (fun acc dx => (acc.1 + r dy dx * w dy dx, acc.2 + w dy dx)) acc) acc0).2) ∧
    acc0.2 ≤
      (dys.foldl (fun acc dy =>
        dxs.foldl (fun acc dx => (acc.1 + r dy dx * w dy dx, acc.2 + w dy dx)) acc) acc0).2 := by
  have inner : ∀ (dy : ℤ) (xs : List ℤ) (a : ℚ × ℚ),
      (∀ dx ∈ xs, r dy dx = K) → (∀ dx ∈ xs, 0 < w dy dx) →
      ((xs.foldl (fun acc dx => (acc.1 + r dy dx * w dy dx, acc.2 + w dy dx)) a).1 - a.1 =
        K * ((xs.foldl (fun acc dx => (acc.1 + r dy dx * w dy dx, acc.2 + w dy dx)) a).2 - a.2)) ∧
      (xs ≠ [] → a.2 <
        (xs.foldl (fun acc dx => (acc.1 + r dy dx * w dy dx, acc.2 + w dy dx)) a).2) ∧
      a.2 ≤ (xs.foldl (fun acc dx => (acc.1 + r dy dx * w dy dx, acc.2 + w dy dx)) a).2 := by
    intro dy xs
    induction xs with
    | nil => intro a _ _; simp
    | cons x xs ih =>
      intro a hr hw
      obtain ⟨i1, _, i3⟩ := ih (a.1 + r dy x * w dy x, a.2 + w dy x)
        (fun dx hdx => hr dx (List.mem_cons_of_mem _ hdx))
        (fun dx hdx => hw dx (List.mem_cons_of_mem _ hdx))
      have hx := hr x (List.mem_cons_self _ _)
      have hwx := hw x (List.mem_cons_self _ _)
      simp only [List.foldl_cons]
      simp only at i1 i3
      refine ⟨?_, ?_, ?_⟩
      · linear_combination i1 + w dy x * hx
      · intro _; linarith
      · linarith
  intro dys
  induction dys with
  | nil => intro acc0 _ _; simp
  | cons y ys ih =>
    intro acc0 hr hw
    obtain ⟨j1, j2, j3⟩ := inner y dxs acc0 (hr y (List.mem_cons_self _ _))
      (hw y (List.mem_cons_self _ _))
    obtain ⟨i1, _, i3⟩ := ih (dxs.foldl (fun acc dx =>
        (acc.1 + r y dx * w y dx, acc.2 + w y dx)) acc0)
      (fun dy hdy => hr dy (List.mem_cons_of_mem _ hdy))
      (fun dy hdy => hw dy (List.mem_cons_of_mem _ hdy))
    simp only [List.foldl_cons]
    refine ⟨?_, ?_, ?_⟩
    · linarith
    · intro _ hx; have := j2 hx; linarith
    · linarith

theorem storeDiv_mul_self (k : ℕ) (hk : k ≤ 255) (s ws : ℚ) (hs : s = (k : ℚ) * ws)
    (hws : 0 < ws) : storeDiv s ws = k := by
  unfold storeDiv
  rw [if_neg hws.ne', hs, mul_div_assoc, div_self hws.ne', mul_one, toUint8Clamp_natCast k hk]

theorem edgeAcc_uniform (M : JSMath) (hexp : ∀ x, 0 < M.exp x) (data : List ℕ) (k : ℕ → ℕ)
    (w h : ℕ) (hlen : data.length = w * h * 4) (hu : IsUniform data k)
    (y x c : ℕ) (hy1 : 1 ≤ y) (hy2 : y + 1 < h) (hx1 : 1 ≤ x) (hx2 : x + 1 < w) (hc : c < 4) :
    (edgeAcc M data w y x c).1 = (k c : ℚ) * (edgeAcc M data w y x c).2 ∧
    0 < (edgeAcc M data w y x c).2 := by
  have R := rd_uniform data k w h hlen hu
  have key := weighted_fold (k c)
    (fun dy dx => rd data ((((y : ℤ) + dy) * w + ((x : ℤ) + dx)) * 4 + (c : ℤ)))
    (fun dy dx => M.exp (-|rd data ((((y : ℤ) + dy) * w + ((x : ℤ) + dx)) * 4 + (c : ℤ))
      - rd data (((y : ℤ) * w + x) * 4 + (c : ℤ))| / 30))
    [-1, 0, 1] [-1, 0, 1] (0, 0)
    (fun dy hdy dx hdx => by
      simp only [List.mem_cons, List.mem_singleton, List.not_mem_nil, or_false] at hdy hdx
      exact R _ _ (by omega) (by omega) (by omega) (by omega) c hc)
    (fun _ _ _ _ => hexp _)
  obtain ⟨k1, k2, _⟩ := key
  have k2' := k2 (by simp) (by simp)
  simp only [sub_zero] at k1 k2'
  exact ⟨k1, k2'⟩

theorem edgeStep_length (M : JSMath) (data : List ℕ) (w y x : ℕ) (temp : List ℕ) :
    (edgeStep M data w y x temp).length = temp.length :=
  (getD_foldl_set ((y * w + x) * 4)
    (fun c => storeDiv (edgeAcc M data w y x c).1 (edgeAcc M data w y x c).2) temp 0 3).1

theorem edgeStep_getD (M : JSMath) (data : List ℕ) (w y x : ℕ) (temp : List ℕ) (i : ℕ) :
    (edgeStep M data w y x temp).getD i 0 =
      if (y * w + x) * 4 ≤ i ∧ i < (y * w + x) * 4 + 3 ∧ i < temp.length then
        storeDiv (edgeAcc M data w y x (i - (y * w + x) * 4)).1
          (edgeAcc M data w y x (i - (y * w + x) * 4)).2
      else temp.getD i 0 :=
  (getD_foldl_set ((y * w + x) * 4)
    (fun c => storeDiv (edgeAcc M data w y x c).1 (edgeAcc M data w y x c).2) temp i 3).2

theorem mem_loopFrom (lo hi i : ℕ) : i ∈ loopFrom lo hi ↔ lo ≤ i ∧ i < hi := by
  unfold loopFrom
  rw [List.mem_range'_1]
  omega

theorem nodup_loopFrom (lo hi : ℕ) : (loopFrom lo hi).Nodup := by
  unfold loopFrom
  exact List.nodup_range' _ _

theorem copyBack_eq (temp data : List ℕ) (hlen : temp.length = data.length)
    (hv : ∀ v ∈ temp, v ≤ 255) : copyBack temp data = temp := by
  have key := foldl_blocks (fun i => i) (fun i : ℕ => i)
    (fun i d => wr d i (rd temp i)) (fun i => temp.getD i 0) data (List.range data.length)
    (fun i d => by simp [wr])
    (by simpa using List.nodup_range _)
    (fun a _ l i hi => by
      simp only [wr]
      exact getD_set_ne _ _ _ _ (fun h => hi h.symm))
    (fun a _ l hl _ i hi hil => by
      subst hi
      simp only [wr, rd_natCast, toUint8Clamp_natCast _ (getD_le temp hv _)]
      exact getD_set_eq _ _ _ (by omega))
  unfold copyBack
  apply list_ext_getD
  · rw [key.1, hlen]
  · intro i hi
    exact (key.2 i (by omega)).1 (by simpa using (by omega : i < data.length))

/-- A buffer of 8-bit samples whose pixels are all equal is a fixed point of
`edgePreservingSmooth`. -/
theorem edgePreservingSmooth_uniform (M : JSMath) (hexp : ∀ x, 0 < M.exp x)
    (imageData : ImageData) (hwf : imageData.WF) (k : ℕ → ℕ)
    (hu : IsUniform imageData.data k) :
    edgePreservingSmooth M imageData = imageData := by
  obtain ⟨hlen, hv⟩ := hwf
  have key := gridLoop_spec imageData.width
    (loopFrom 1 (imageData.height - 1)) (loopFrom 1 (imageData.width - 1))
    (edgeStep M imageData.data imageData.width) (fun i => imageData.data.getD i 0)
    imageData.data (nodup_loopFrom _ _) (nodup_loopFrom _ _)
    (fun x hx => by rw [mem_loopFrom] at hx; omega)
    (fun y x l => edgeStep_length M imageData.data imageData.width y x l)
    (fun y _ x _ l i hi => by
      rw [edgeStep_getD, if_neg (by omega)])
    (fun y hy x hx l hl hag i hi hil => by
      rw [mem_loopFrom] at hy hx
      rw [edgeStep_getD]
      split_ifs with hcond
      · obtain ⟨e1, e2⟩ := edgeAcc_uniform M hexp imageData.data k imageData.width
          imageData.height hlen hu y x (i - (y * imageData.width + x) * 4)
          hy.1 (by omega) hx.1 (by omega) (by omega)
        have hki : k (i - (y * imageData.width + x) * 4) = imageData.data.getD i 0 := by
          rw [hu i hil]; congr 1; omega
        rw [storeDiv_mul_self _ (by rw [hki]; exact getD_le _ hv _) _ _ e1 e2, hki]
      · exact hag i hi)
  have htemp : gridLoop (loopFrom 1 (imageData.height - 1)) (loopFrom 1 (imageData.width - 1))
      (edgeStep M imageData.data imageData.width) imageData.data = imageData.data := by
    apply list_ext_getD _ _ key.1
    intro i hi
    by_cases hex : ∃ y ∈ loopFrom 1 (imageData.height - 1),
        ∃ x ∈ loopFrom 1 (imageData.width - 1), i / 4 = y * imageData.width + x
    · exact (key.2 i hi).1 hex
    · exact (key.2 i hi).2 hex
  simp only [edgePreservingSmooth, htemp, copyBack_eq _ _ rfl hv]

theorem bilateralAcc_uniform (M : JSMath) (hexp : ∀ x, 0 < M.exp x) (data : List ℕ)
    (k : ℕ → ℕ) (w h : ℕ) (hlen : data.length = w * h * 4) (hu : IsUniform data k)
    (y x c : ℕ) (hy1 : 2 ≤ y) (hy2 : y + 2 < h) (hx1 : 2 ≤ x) (hx2 : x + 2 < w) (hc : c < 4) :
    (bilateralAcc M data w y x c).1 = (k c : ℚ) * (bilateralAcc M data w y x c).2 ∧
    0 < (bilateralAcc M data w y x c).2 := by
  have R := rd_uniform data k w h hlen hu
  have key := weighted_fold (k c)
    (fun dy dx => rd data ((((y : ℤ) + dy) * w + ((x : ℤ) + dx)) * 4 + (c : ℤ)))
    (fun dy dx => M.exp (-((dx : ℚ) * dx + dy * dy) / (2 * 2 * 2)) *
      M.exp (-((rd data (((y : ℤ) * w + x) * 4 + (c : ℤ))
          - rd data ((((y : ℤ) + dy) * w + ((x : ℤ) + dx)) * 4 + (c : ℤ))) *
        (rd data (((y : ℤ) * w + x) * 4 + (c : ℤ))
          - rd data ((((y : ℤ) + dy) * w + ((x : ℤ) + dx)) * 4 + (c : ℤ)))) / (2 * 30 * 30)))
    [-2, -1, 0, 1, 2] [-2, -1, 0, 1, 2] (0, 0)
    (fun dy hdy dx hdx => by
      simp only [List.mem_cons, List.mem_singleton, List.not_mem_nil, or_false] at hdy hdx
      exact R _ _ (by omega) (by omega) (by omega) (by omega) c hc)
    (fun _ _ _ _ => mul_pos (hexp _) (hexp _))
  obtain ⟨k1, k2, _⟩ := key
  have k2' := k2 (by simp) (by simp)
  simp only [sub_zero] at k1 k2'
  exact ⟨k1, k2'⟩

theorem bilateralStep_length (M : JSMath) (data : List ℕ) (w y x : ℕ) (temp : List ℕ) :
    (bilateralStep M data w y x temp).length = temp.length :=
  (getD_foldl_set ((y * w + x) * 4)
    (fun c => storeDiv (bilateralAcc M data w y x c).1 (bilateralAcc M data w y x c).2)
    temp 0 3).1

theorem bilateralStep_getD (M : JSMath) (data : List ℕ) (w y x : ℕ) (temp : List ℕ) (i : ℕ) :
    (bilateralStep M data w y x temp).getD i 0 =
      if (y * w + x) * 4 ≤ i ∧ i < (y * w + x) * 4 + 3 ∧ i < temp.length then
        storeDiv (bilateralAcc M data w y x (i - (y * w + x) * 4)).1
          (bilateralAcc M data w y x (i - (y * w + x) * 4)).2
      else temp.getD i 0 :=
  (getD_foldl_set ((y * w + x) * 4)
    (fun c => storeDiv (bilateralAcc M data w y x c).1 (bilateralAcc M data w y x c).2)
    temp i 3).2

/-- A buffer of 8-bit samples whose pixels are all equal is a fixed point of
`bilateralFilter`. -/
theorem bilateralFilter_uniform (M : JSMath) (hexp : ∀ x, 0 < M.exp x)
    (imageData : ImageData) (hwf : imageData.WF) (k : ℕ → ℕ)
    (hu : IsUniform imageData.data k) :
    bilateralFilter M imageData = imageData := by
  obtain ⟨hlen, hv⟩ := hwf
  have key := gridLoop_spec imageData.width
    (loopFrom 2 (imageData.height - 2)) (loopFrom 2 (imageData.width - 2))
    (bilateralStep M imageData.data imageData.width) (fun i => imageData.data.getD i 0)
    imageData.data (nodup_loopFrom _ _) (nodup_loopFrom _ _)
    (fun x hx => by rw [mem_loopFrom] at hx; omega)
    (fun y x l => bilateralStep_length M imageData.data imageData.width y x l)
    (fun y _ x _ l i hi => by
      rw [bilateralStep_getD, if_neg (by omega)])
    (fun y hy x hx l hl hag i hi hil => by
      rw [mem_loopFrom] at hy hx
      rw [bilateralStep_getD]
      split_ifs with hcond
      · obtain ⟨e1, e2⟩ := bilateralAcc_uniform M hexp imageData.data k imageData.width
          imageData.height hlen hu y x (i - (y * imageData.width + x) * 4)
          hy.1 (by omega) hx.1 (by omega) (by omega)
        have hki : k (i - (y * imageData.width + x) * 4) = imageData.data.getD i 0 := by
          rw [hu i hil]; congr 1; omega
        rw [storeDiv_mul_self _ (by rw [hki]; exact getD_le _ hv _) _ _ e1 e2, hki]
      · exact hag i hi)
  have htemp : gridLoop (loopFrom 2 (imageData.height - 2)) (loopFrom 2 (imageData.width - 2))
      (bilateralStep M imageData.data imageData.width) imageData.data = imageData.data := by
    apply list_ext_getD _ _ key.1
    intro i hi
    by_cases hex : ∃ y ∈ loopFrom 2 (imageData.height - 2),
        ∃ x ∈ loopFrom 2 (imageData.width - 2), i / 4 = y * imageData.width + x
    · exact (key.2 i hi).1 hex
    · exact (key.2 i hi).2 hex
  simp only [bilateralFilter, htemp, copyBack_eq _ _ rfl hv]

theorem exampleMath_exp_pos : ∀ x, 0 < exampleMath.exp x := by
  intro x
  show 0 < 1 / (1 - x + x ^ 2 / 2)
  have : 0 < 1 - x + x ^ 2 / 2 := by nlinarith [sq_nonneg (x - 1)]
  positivity

/-! ## Colour and tone stages on a uniform gray buffer -/

theorem uniform_le (data : List ℕ) (k : ℕ → ℕ) (hu : IsUniform data k) (hk : ∀ c, k c ≤ 255) :
    ∀ v ∈ data, v ≤ 255 := by
  intro v hv
  obtain ⟨i, hi, rfl⟩ := List.getElem_of_mem hv
  have := hu i hi
  simp only [List.getD_eq_getElem?_getD, List.getElem?_eq_getElem hi, Option.getD_some] at this
  rw [this]
  exact hk _

/-- A well-formed buffer whose pixels are all the same gray is a fixed point of
`enhanceColors`. -/
theorem enhanceColors_uniform_gray (imageData : ImageData) (hwf : imageData.WF) (k : ℕ → ℕ)
    (hu : IsUniform imageData.data k) (h01 : k 0 = k 1) (h12 : k 1 = k 2) :
    enhanceColors imageData = imageData := by
  obtain ⟨hlen, _⟩ := hwf
  have hdata : (enhanceColors imageData).data = imageData.data := by
    apply list_ext_getD
    · simp only [enhanceColors]
      exact (pixelLoop_local imageData.data.length enhanceStep imageData.data (le_refl _)
        enhanceStep_length enhanceStep_other (enhanceStep_congr imageData.data)).1
    · intro i hi
      rw [enhanceColors_getD]
      have e0 : imageData.data.getD (4 * (i / 4)) 0 = k 0 := by
        rw [hu _ (by omega)]; congr 1; omega
      have e1 : imageData.data.getD (4 * (i / 4) + 1) 0 = k 1 := by
        rw [hu _ (by omega)]; congr 1; omega
      have e2 : imageData.data.getD (4 * (i / 4) + 2) 0 = k 2 := by
        rw [hu _ (by omega)]; congr 1; omega
      unfold enhanceStep
      dsimp only
      simp only [rd_natCast, e0, e1, e2, ← h12, ← h01, enhancePixel_gray]
  have : enhanceColors imageData = { imageData with data := (enhanceColors imageData).data } := rfl
  rw [this, hdata]

theorem bucketOf_uniform (data : List ℕ) (k : ℕ → ℕ) (hu : IsUniform data k) (n p : ℕ)
    (hlen : data.length = n * 4) (hp : p < n) :
    bucketOf data p = (grayOf (k 0) (k 1) (k 2)).toNat := by
  have e0 : data.getD (4 * p) 0 = k 0 := by
    rw [hu _ (by omega)]; congr 1; omega
  have e1 : data.getD (4 * p + 1) 0 = k 1 := by
    rw [hu _ (by omega)]; congr 1; omega
  have e2 : data.getD (4 * p + 2) 0 = k 2 := by
    rw [hu _ (by omega)]; congr 1; omega
  unfold bucketOf
  simp only [rd_natCast, e0, e1, e2]

/-- A well-formed buffer whose pixels are all equal is a fixed point of
`normalizeContrast`. -/
theorem normalizeContrast_uniform (imageData : ImageData) (hwf : imageData.WF) (k : ℕ → ℕ)
    (hu : IsUniform imageData.data k) :
    normalizeContrast imageData = imageData := by
  obtain ⟨hlen, hv⟩ := hwf
  rcases Nat.eq_zero_or_pos (imageData.width * imageData.height) with h0 | hpos
  · have hnil : imageData.data = [] := by
      apply List.eq_nil_of_length_eq_zero
      rw [hlen, h0]
    unfold normalizeContrast
    dsimp only
    split_ifs
    · have : pixelLoop imageData.data.length
          (stretchStep (contrastBounds imageData.data).1
            (((contrastBounds imageData.data).2 : ℤ) - (contrastBounds imageData.data).1))
          imageData.data = imageData.data := by
        rw [hnil]; rfl
      rw [this]
    · rfl
  · have hb := contrastBounds_flat imageData.data hv _ hlen hpos _
      (fun p hp => bucketOf_uniform imageData.data k hu _ p hlen hp)
    simp [normalizeContrast, hb]

/-- The resamplers write nothing when the destination has no columns. -/
theorem gridLoop_no_columns (ys : List ℕ) (body : ℕ → ℕ → List ℕ → List ℕ) (l : List ℕ) :
    gridLoop ys [] body l = l := by
  unfold gridLoop
  exact foldl_fixed_point _ _ (fun _ => rfl) _

theorem isUniform_nil (k : ℕ → ℕ) : IsUniform [] k := by
  intro i hi
  simp at hi

/-- On a well-formed source whose pixels are all `(k 0, k 1, k 2, k 3)` the
bilinear `upscale` returns a well-formed buffer of `srcW * scale` by
`srcH * scale` pixels, all equal to that pixel. -/
theorem upscale_bilinear_uniform (M : JSMath) (srcData : ImageData) (hwf : srcData.WF)
    (k : ℕ → ℕ) (hk : ∀ c, k c ≤ 255) (hu : IsUniform srcData.data k) (scale : ℕ) :
    ∃ out, upscale M "bilinear" scale srcData = Except.ok out ∧
      out.width = srcData.width * scale ∧ out.height = srcData.height * scale ∧
      out.WF ∧ IsUniform out.data k := by
  have hup : upscale M "bilinear" scale srcData = Except.ok
      (bilinearResample srcData
        (createImageData (srcData.width * scale) (srcData.height * scale))
        srcData.width srcData.height (srcData.width * scale) (srcData.height * scale)) := by
    simp [upscale]
  refine ⟨_, hup, rfl, rfl, ?_⟩
  have hdest : (createImageData (srcData.width * scale) (srcData.height * scale)).data.length
      = srcData.width * scale * (srcData.height * scale) * 4 := by
    simp [createImageData]
  rcases Nat.eq_zero_or_pos srcData.width with hw0 | hw
  · have hnil : (bilinearResample srcData
        (createImageData (srcData.width * scale) (srcData.height * scale))
        srcData.width srcData.height (srcData.width * scale) (srcData.height * scale)).data
        = [] := by
      simp only [bilinearResample, hw0, Nat.zero_mul, List.range_zero, gridLoop_no_columns,
        createImageData, List.replicate_zero]
    refine ⟨⟨?_, ?_⟩, ?_⟩
    · rw [hnil]
      show 0 = srcData.width * scale * (srcData.height * scale) * 4
      rw [hw0]; simp
    · rw [hnil]; intro v hv; simp at hv
    · rw [hnil]; exact isUniform_nil k
  · rcases Nat.eq_zero_or_pos srcData.height with hh0 | hh
    · have hnil : (bilinearResample srcData
          (createImageData (srcData.width * scale) (srcData.height * scale))
          srcData.width srcData.height (srcData.width * scale) (srcData.height * scale)).data
          = [] := by
        simp only [bilinearResample, hh0, Nat.zero_mul, Nat.mul_zero, List.range_zero,
          gridLoop, List.foldl_nil, createImageData, List.replicate_zero]
      refine ⟨⟨?_, ?_⟩, ?_⟩
      · rw [hnil]
        show 0 = srcData.width * scale * (srcData.height * scale) * 4
        rw [hh0]; simp
      · rw [hnil]; intro v hv; simp at hv
      · rw [hnil]; exact isUniform_nil k
    · obtain ⟨r1, r2⟩ := bilinearResample_uniform srcData
        (createImageData (srcData.width * scale) (srcData.height * scale)) k
        srcData.width srcData.height (srcData.width * scale) (srcData.height * scale)
        hwf.1 hu hk hw hh hdest
      exact ⟨⟨r1, uniform_le _ k r2 hk⟩, r2⟩

theorem processImage_ok (M : JSMath) (method : String) (scale : ℕ) (sharpening : ℚ)
    (srcData up : ImageData) (h : upscale M method scale srcData = Except.ok up) :
    processImage M method scale sharpening srcData =
      Except.ok (normalizeContrast (enhanceColors (bilateralFilter M
        (if sharpening > 0 then unsharpMask (edgePreservingSmooth M up) sharpening
         else edgePreservingSmooth M up)))) := by
  unfold processImage
  rw [h]
  rfl

/-- C5: for a well-formed source whose pixels are all the gray `(v, v, v, a)`,
every scale, the bilinear method and sharpening 0, `processImage` returns a buffer
of `srcW * scale` by `srcH * scale` pixels in which every pixel is
`(v, v, v, a)`. -/
theorem processImage_uniform_gray (M : JSMath) (hexp : ∀ x, 0 < M.exp x)
    (srcData : ImageData) (hwf : srcData.WF) (v a : ℕ) (hv : v ≤ 255) (ha : a ≤ 255)
    (hu : IsUniform srcData.data (grayPixel v a)) (scale : ℕ) :
    ∃ out, processImage M "bilinear" scale 0 srcData = Except.ok out ∧
      out.width = srcData.width * scale ∧ out.height = srcData.height * scale ∧
      out.data.length = srcData.width * scale * (srcData.height * scale) * 4 ∧
      IsUniform out.data (grayPixel v a) := by
  have hk : ∀ c, grayPixel v a c ≤ 255 := by
    intro c; unfold grayPixel; split_ifs <;> assumption
  obtain ⟨out, h1, h2, h3, h4, h5⟩ :=
    upscale_bilinear_uniform M srcData hwf (grayPixel v a) hk hu scale
  refine ⟨out, ?_, h2, h3, ?_, h5⟩
  · rw [processImage_ok M "bilinear" scale 0 srcData out h1]
    simp only [gt_iff_lt, lt_self_iff_false, if_false,
      edgePreservingSmooth_uniform M hexp out h4 _ h5,
      bilateralFilter_uniform M hexp out h4 _ h5,
      enhanceColors_uniform_gray out h4 _ h5 rfl rfl,
      normalizeContrast_uniform out h4 _ h5]
  · rw [h4.1, h2, h3]

/-- C5 (witness): the 2x2 image of (128, 128, 128, 255) at scale 2 comes out as a
4x4 image of (128, 128, 128, 255). -/
theorem processImage_uniform_gray_witness :
    exampleGray.WF ∧ IsUniform exampleGray.data (grayPixel 128 255) ∧
    ∃ out, processImage exampleMath "bilinear" 2 0 exampleGray = Except.ok out ∧
      out.width = 4 ∧ out.height = 4 ∧ out.data.length = 64 ∧
      IsUniform out.data (grayPixel 128 255) :=
  ⟨by decide, by decide,
    processImage_uniform_gray exampleMath exampleMath_exp_pos exampleGray (by decide) 128 255
      (by decide) (by decide) (by decide) 2⟩

/-! ## Unsharp mask on a uniform buffer -/

theorem blurSum_const (buf : List ℕ) (idxOf : ℤ → ℤ) (K : ℚ)
    (h : ∀ k : ℤ, -2 ≤ k → k ≤ 2 → rd buf (idxOf k) = K) :
    blurSum buf idxOf = 16 * K := by
  have e0 : ([1, 4, 6, 4, 1] : List ℚ).getD ((-2 : ℤ) + 2).toNat 0 = 1 := rfl
  have e1 : ([1, 4, 6, 4, 1] : List ℚ).getD ((-1 : ℤ) + 2).toNat 0 = 4 := rfl
  have e2 : ([1, 4, 6, 4, 1] : List ℚ).getD ((0 : ℤ) + 2).toNat 0 = 6 := rfl
  have e3 : ([1, 4, 6, 4, 1] : List ℚ).getD ((1 : ℤ) + 2).toNat 0 = 4 := rfl
  have e4 : ([1, 4, 6, 4, 1] : List ℚ).getD ((2 : ℤ) + 2).toNat 0 = 1 := rfl
  simp only [blurSum, List.foldl_cons, List.foldl_nil]
  rw [h (-2) (by norm_num) (by norm_num), h (-1) (by norm_num) (by norm_num),
    h 0 (by norm_num) (by norm_num), h 1 (by norm_num) (by norm_num),
    h 2 (by norm_num) (by norm_num), e0, e1, e2, e3, e4]
  ring

theorem sharpenStep_self (data : List ℕ) (amount : ℚ) (hv : ∀ v ∈ data, v ≤ 255) (p : ℕ) :
    sharpenStep data amount p data = data := by
  simp only [sharpenStep, range_three, List.foldl_cons, List.foldl_nil, sub_self, mul_zero,
    add_zero, rd_natCast, wr, clamp_natCast _ (getD_le data hv _),
    toUint8Clamp_natCast _ (getD_le data hv _), set_getD_self]

theorem blurHStep_length (data : List ℕ) (w y x : ℕ) (temp : List ℕ) :
    (blurHStep data w y x temp).length = temp.length :=
  (getD_foldl_set ((y * w + x) * 4)
    (fun c => toUint8Clamp (blurSum data (fun k =>
      ((y : ℤ) * w + max 0 (min ((w : ℤ) - 1) ((x : ℤ) + k))) * 4 + (c : ℤ)) / 16)) temp 0 3).1

theorem blurHStep_getD (data : List ℕ) (w y x : ℕ) (temp : List ℕ) (i : ℕ) :
    (blurHStep data w y x temp).getD i 0 =
      if (y * w + x) * 4 ≤ i ∧ i < (y * w + x) * 4 + 3 ∧ i < temp.length then
        toUint8Clamp (blurSum data (fun k =>
          ((y : ℤ) * w + max 0 (min ((w : ℤ) - 1) ((x : ℤ) + k))) * 4
            + ((i - (y * w + x) * 4 : ℕ) : ℤ)) / 16)
      else temp.getD i 0 :=
  (getD_foldl_set ((y * w + x) * 4)
    (fun c => toUint8Clamp (blurSum data (fun k =>
      ((y : ℤ) * w + max 0 (min ((w : ℤ) - 1) ((x : ℤ) + k))) * 4 + (c : ℤ)) / 16)) temp i 3).2

theorem blurVStep_length (temp : List ℕ) (w h y x : ℕ) (blurred : List ℕ) :
    (blurVStep temp w h y x blurred).length = blurred.length :=
  (getD_foldl_set ((y * w + x) * 4)
    (fun c => toUint8Clamp (blurSum temp (fun k =>
      (max 0 (min ((h : ℤ) - 1) ((y : ℤ) + k)) * w + x) * 4 + (c : ℤ)) / 16)) blurred 0 3).1

theorem blurVStep_getD (temp : List ℕ) (w h y x : ℕ) (blurred : List ℕ) (i : ℕ) :
    (blurVStep temp w h y x blurred).getD i 0 =
      if (y * w + x) * 4 ≤ i ∧ i < (y * w + x) * 4 + 3 ∧ i < blurred.length then
        toUint8Clamp (blurSum temp (fun k =>
          (max 0 (min ((h : ℤ) - 1) ((y : ℤ) + k)) * w + x) * 4
            + ((i - (y * w + x) * 4 : ℕ) : ℤ)) / 16)
      else blurred.getD i 0 :=
  (getD_foldl_set ((y * w + x) * 4)
    (fun c => toUint8Clamp (blurSum temp (fun k =>
      (max 0 (min ((h : ℤ) - 1) ((y : ℤ) + k)) * w + x) * 4 + (c : ℤ)) / 16)) blurred i 3).2

/-- A grid loop whose body stores, wherever it writes, the value already there
leaves the array as it is. -/
theorem gridLoop_unchanged (w : ℕ) (ys xs : List ℕ) (body : ℕ → ℕ → List ℕ → List ℕ)
    (l0 : List ℕ) (hys : ys.Nodup) (hxs : xs.Nodup) (hx : ∀ x ∈ xs, x < w)
    (hlen : ∀ y x l, (body y x l).length = l.length)
    (hother : ∀ y ∈ ys, ∀ x ∈ xs, ∀ l i, i / 4 ≠ y * w + x →
      (body y x l).getD i 0 = l.getD i 0)
    (hown : ∀ y ∈ ys, ∀ x ∈ xs, ∀ l, l.length = l0.length →
      (∀ i, i / 4 = y * w + x → l.getD i 0 = l0.getD i 0) →
      ∀ i, i / 4 = y * w + x → i < l0.length → (body y x l).getD i 0 = l0.getD i 0) :
    gridLoop ys xs body l0 = l0 := by
  have key := gridLoop_spec w ys xs body (fun i => l0.getD i 0) l0 hys hxs hx hlen hother hown
  apply list_ext_getD _ _ key.1
  intro i hi
  by_cases hex : ∃ y ∈ ys, ∃ x ∈ xs, i / 4 = y * w + x
  · exact (key.2 i hi).1 hex
  · exact (key.2 i hi).2 hex

/-- A buffer of 8-bit samples whose pixels are all equal is a fixed point of
`unsharpMask`, whatever the amount. -/
theorem unsharpMask_uniform (imageData : ImageData) (hwf : imageData.WF) (k : ℕ → ℕ)
    (hu : IsUniform imageData.data k) (amount : ℚ) :
    unsharpMask imageData amount = imageData := by
  obtain ⟨hlen, hv⟩ := hwf
  have R := rd_uniform imageData.data k imageData.width imageData.height hlen hu
  have hH : gridLoop (List.range imageData.height) (List.range imageData.width)
      (blurHStep imageData.data imageData.width) imageData.data = imageData.data := by
    apply gridLoop_unchanged imageData.width _ _ _ _ (List.nodup_range _) (List.nodup_range _)
      (fun x hx => List.mem_range.mp hx)
      (fun y x l => blurHStep_length imageData.data imageData.width y x l)
      (fun y _ x _ l i hi => by rw [blurHStep_getD, if_neg (by omega)])
    intro y hy x hx l hl hag i hi hil
    rw [List.mem_range] at hy hx
    rw [blurHStep_getD]
    split_ifs with hcond
    · rw [blurSum_const _ _ (k (i - (y * imageData.width + x) * 4))
        (fun kk _ _ => R _ _ (by omega) (by omega) (by omega) (by omega) _ (by omega))]
      have hki : k (i - (y * imageData.width + x) * 4) = imageData.data.getD i 0 := by
        rw [hu i hil]; congr 1; omega
      rw [hki, mul_div_assoc, mul_comm, div_mul_cancel₀ _ (by norm_num : (16 : ℚ) ≠ 0),
        toUint8Clamp_natCast _ (getD_le _ hv _)]
    · exact hag i hi
  have hV : gridLoop (List.range imageData.height) (List.range imageData.width)
      (blurVStep imageData.data imageData.width imageData.height) imageData.data
        = imageData.data := by
    apply gridLoop_unchanged imageData.width _ _ _ _ (List.nodup_range _) (List.nodup_range _)
      (fun x hx => List.mem_range.mp hx)
      (fun y x l => blurVStep_length imageData.data imageData.width imageData.height y x l)
      (fun y _ x _ l i hi => by rw [blurVStep_getD, if_neg (by omega)])
    intro y hy x hx l hl hag i hi hil
    rw [List.mem_range] at hy hx
    rw [blurVStep_getD]
    split_ifs with hcond
    · rw [blurSum_const _ _ (k (i - (y * imageData.width + x) * 4))
        (fun kk _ _ => R _ _ (by omega) (by omega) (by omega) (by omega) _ (by omega))]
      have hki : k (i - (y * imageData.width + x) * 4) = imageData.data.getD i 0 := by
        rw [hu i hil]; congr 1; omega
      rw [hki, mul_div_assoc, mul_comm, div_mul_cancel₀ _ (by norm_num : (16 : ℚ) ≠ 0),
        toUint8Clamp_natCast _ (getD_le _ hv _)]
    · exact hag i hi
  have hS : pixelLoop imageData.data.length (sharpenStep imageData.data amount)
      imageData.data = imageData.data := by
    unfold pixelLoop
    exact foldl_fixed_point _ _ (fun p => sharpenStep_self _ _ hv p) _
  simp only [unsharpMask, hH, hV, hS]

theorem foldl_fixed_point' {α β : Type} (f : β → α → β) :
    ∀ (ks : List α) (b : β), (∀ c a, a ∈ ks → f c a = c) → ks.foldl f b = b := by
  intro ks
  induction ks with
  | nil => intro b _; rfl
  | cons a ks ih =>
    intro b h
    rw [List.foldl_cons, h b a (List.mem_cons_self _ _)]
    exact ih b (fun c a' ha' => h c a' (List.mem_cons_of_mem _ ha'))

/-! ## Lanczos on a one-pixel source -/

theorem mem_loopIncl (lo hi i : ℤ) : i ∈ loopIncl lo hi ↔ lo ≤ i ∧ i ≤ hi := by
  unfold loopIncl
  simp only [List.mem_map, List.mem_range]
  constructor
  · rintro ⟨k, hk, rfl⟩
    omega
  · rintro ⟨h1, h2⟩
    exact ⟨(i - lo).toNat, by omega, by omega⟩

theorem nodup_loopIncl (lo hi : ℤ) : (loopIncl lo hi).Nodup := by
  unfold loopIncl
  apply List.Nodup.map _ (List.nodup_range _)
  intro a b h
  simp only at h
  omega

/-- A loop in which only the iteration `z` changes the accumulator. -/
theorem foldl_only {β : Type} (f : β → ℤ → β) (z : ℤ) :
    ∀ (is : List ℤ), is.Nodup → z ∈ is → (∀ b i, i ∈ is → i ≠ z → f b i = b) →
    ∀ b, is.foldl f b = f b z := by
  intro is
  induction is with
  | nil => intro _ hz; simp at hz
  | cons i is ih =>
    intro hnd hz hid b
    rw [List.nodup_cons] at hnd
    rw [List.foldl_cons]
    by_cases hiz : i = z
    · subst hiz
      have : ∀ b', is.foldl f b' = b' := by
        intro b'
        apply foldl_fixed_point'
        intro c j hj
        exact hid c j (List.mem_cons_of_mem _ hj) (fun h => hnd.1 (h ▸ hj))
      exact this _
    · rw [hid b i (List.mem_cons_self _ _) hiz]
      have hz' : z ∈ is := by
        rcases List.mem_cons.mp hz with h | h
        · exact absurd h.symm hiz
        · exact h
      exact ih hnd.2 hz' (fun c j hj hne => hid c j (List.mem_cons_of_mem _ hj) hne) b

/-- The accumulators of `lanczosResample` on a 1x1 source: only the source
sample `(0, 0)` is in bounds. -/
theorem lanczosAcc_single (M : JSMath) (src : ImageData) (dw dh dy dx : ℕ)
    (hx : dx < dw) (hy : dy < dh) :
    lanczosAcc M src 1 1 dw dh dy dx =
      (rd src.data 0 * (lanczosKernel M ((dx : ℚ) * (1 / dw)) 3 *
          lanczosKernel M ((dy : ℚ) * (1 / dh)) 3),
       rd src.data 1 * (lanczosKernel M ((dx : ℚ) * (1 / dw)) 3 *
          lanczosKernel M ((dy : ℚ) * (1 / dh)) 3),
       rd src.data 2 * (lanczosKernel M ((dx : ℚ) * (1 / dw)) 3 *
          lanczosKernel M ((dy : ℚ) * (1 / dh)) 3),
       rd src.data 3 * (lanczosKernel M ((dx : ℚ) * (1 / dw)) 3 *
          lanczosKernel M ((dy : ℚ) * (1 / dh)) 3),
       lanczosKernel M ((dx : ℚ) * (1 / dw)) 3 * lanczosKernel M ((dy : ℚ) * (1 / dh)) 3) := by
  have hdw : (0 : ℚ) < dw := by
    have : 0 < dw := by omega
    exact_mod_cast this
  have hdh : (0 : ℚ) < dh := by
    have : 0 < dh := by omega
    exact_mod_cast this
  have hsx0 : (0 : ℚ) ≤ (dx : ℚ) * (1 / dw) := by positivity
  have hsy0 : (0 : ℚ) ≤ (dy : ℚ) * (1 / dh) := by positivity
  have hsx1 : (dx : ℚ) * (1 / dw) < 1 := by
    rw [mul_one_div, div_lt_one hdw]; exact_mod_cast hx
  have hsy1 : (dy : ℚ) * (1 / dh) < 1 := by
    rw [mul_one_div, div_lt_one hdh]; exact_mod_cast hy
  have memx : (0 : ℤ) ∈ loopIncl ⌊(dx : ℚ) * (1 / dw) - 3⌋ ⌈(dx : ℚ) * (1 / dw) + 3⌉ := by
    rw [mem_loopIncl]
    constructor
    · have : ⌊(dx : ℚ) * (1 / dw) - 3⌋ < 1 := by
        rw [Int.floor_lt]; push_cast; linarith
      omega
    · apply Int.ceil_nonneg; linarith
  have memy : (0 : ℤ) ∈ loopIncl ⌊(dy : ℚ) * (1 / dh) - 3⌋ ⌈(dy : ℚ) * (1 / dh) + 3⌉ := by
    rw [mem_loopIncl]
    constructor
    · have : ⌊(dy : ℚ) * (1 / dh) - 3⌋ < 1 := by
        rw [Int.floor_lt]; push_cast; linarith
      omega
    · apply Int.ceil_nonneg; linarith
  simp only [lanczosAcc, Nat.cast_one]
  rw [foldl_only _ 0 _ (nodup_loopIncl _ _) memy]
  · rw [foldl_only _ 0 _ (nodup_loopIncl _ _) memx]
    · simp
    · intro b i _ hi
      rw [if_neg]
      omega
  · intro b i _ hi
    apply foldl_fixed_point'
    intro c j _
    rw [if_neg]
    omega

theorem storeClampDiv_zero_mul (d : ℚ) : storeClampDiv (0 * d) d = 0 := by
  unfold storeClampDiv
  split_ifs with h1 h2
  · simp at h2
  · rfl
  · simp [toUint8Clamp]

theorem storeClampDiv_mul_self (p : ℕ) (hp : p ≤ 255) (d : ℚ) (hd : d ≠ 0) :
    storeClampDiv ((p : ℚ) * d) d = p := by
  unfold storeClampDiv
  rw [if_neg hd, mul_div_assoc, div_self hd, mul_one, clamp_natCast p hp,
    toUint8Clamp_natCast p hp]

theorem lanczosKernel_ne_zero (M : JSMath) (x : ℚ) (hx : x ≠ 0) (hx3 : |x| < 3)
    (hpi : M.pi ≠ 0) (h1 : M.sin (M.pi * x) ≠ 0) (h2 : M.sin (M.pi * x / 3) ≠ 0) :
    lanczosKernel M x 3 ≠ 0 := by
  unfold lanczosKernel
  rw [if_neg hx, if_neg (not_le.mpr hx3)]
  have hpx : M.pi * x ≠ 0 := mul_ne_zero hpi hx
  exact div_ne_zero (mul_ne_zero (mul_ne_zero (by norm_num) h1) h2) (mul_ne_zero hpx hpx)

theorem lanczosPixel_length (M : JSMath) (src : ImageData) (sw sh dw dh dy dx : ℕ)
    (dest : List ℕ) : (lanczosPixel M src sw sh dw dh dy dx dest).length = dest.length := by
  simp [lanczosPixel]

theorem lanczosPixel_other (M : JSMath) (src : ImageData) (sw sh dw dh dy dx : ℕ)
    (dest : List ℕ) (i : ℕ) (h : i / 4 ≠ dy * dw + dx) :
    (lanczosPixel M src sw sh dw dh dy dx dest).getD i 0 = dest.getD i 0 := by
  simp only [lanczosPixel]
  rw [getD_set_ne _ _ _ _ (by omega), getD_set_ne _ _ _ _ (by omega),
    getD_set_ne _ _ _ _ (by omega), getD_set_ne _ _ _ _ (by omega)]

/-- The Lanczos weights used at scale 3 on a one-pixel source do not vanish. -/
theorem lanczosKernel_thirds (M : JSMath) (hpi : M.pi ≠ 0)
    (hs1 : M.sin (M.pi * (1 / 3)) ≠ 0) (hs1' : M.sin (M.pi * (1 / 3) / 3) ≠ 0)
    (hs2 : M.sin (M.pi * (2 / 3)) ≠ 0) (hs2' : M.sin (M.pi * (2 / 3) / 3) ≠ 0)
    (d : ℕ) (hd : d < 3) : lanczosKernel M ((d : ℚ) * (1 / (3 : ℕ))) 3 ≠ 0 := by
  have h3 : d = 0 ∨ d = 1 ∨ d = 2 := by omega
  rcases h3 with h | h | h <;> subst h
  · simp [lanczosKernel]
  · have e : ((1 : ℕ) : ℚ) * (1 / ((3 : ℕ) : ℚ)) = 1 / 3 := by norm_num
    rw [e]
    exact lanczosKernel_ne_zero M _ (by norm_num) (by rw [abs_of_pos] <;> norm_num) hpi hs1 hs1'
  · have e : ((2 : ℕ) : ℚ) * (1 / ((3 : ℕ) : ℚ)) = 2 / 3 := by norm_num
    rw [e]
    exact lanczosKernel_ne_zero M _ (by norm_num) (by rw [abs_of_pos] <;> norm_num) hpi hs2 hs2'

theorem blackImage3_getD (j : ℕ) (hj : j < 36) :
    blackImage3.data.getD j 0 = if j % 4 = 3 then 255 else 0 := by
  revert j
  decide

theorem lanczosPixel_black (M : JSMath) (hL : ∀ d : ℕ, d < 3 →
      lanczosKernel M ((d : ℚ) * (1 / (3 : ℕ))) 3 ≠ 0)
    (y x : ℕ) (hy : y < 3) (hx : x < 3) (l : List ℕ) (hlen : l.length = 36)
    (i : ℕ) (hi : i / 4 = y * 3 + x) (hi36 : i < 36) :
    (lanczosPixel M blackPixel 1 1 3 3 y x l).getD i 0 = if i % 4 = 3 then 255 else 0 := by
  have hW : lanczosKernel M ((x : ℚ) * (1 / (3 : ℕ))) 3 *
      lanczosKernel M ((y : ℚ) * (1 / (3 : ℕ))) 3 ≠ 0 :=
    mul_ne_zero (hL x hx) (hL y hy)
  have r0 : rd blackPixel.data 0 = 0 := by simp [rd, blackPixel]
  have r1 : rd blackPixel.data 1 = 0 := by simp [rd, blackPixel]
  have r2 : rd blackPixel.data 2 = 0 := by simp [rd, blackPixel]
  have r3 : rd blackPixel.data 3 = ((255 : ℕ) : ℚ) := by simp [rd, blackPixel]
  have hacc := lanczosAcc_single M blackPixel 3 3 y x hx hy
  rw [r0, r1, r2, r3] at hacc
  simp only [lanczosPixel, hacc, storeClampDiv_zero_mul,
    storeClampDiv_mul_self 255 (le_refl _) _ hW]
  have hc : i = (y * 3 + x) * 4 ∨ i = (y * 3 + x) * 4 + 1 ∨
      i = (y * 3 + x) * 4 + 2 ∨ i = (y * 3 + x) * 4 + 3 := by omega
  rcases hc with h | h | h | h <;> subst h
  · rw [getD_set_ne _ _ _ _ (by omega), getD_set_ne _ _ _ _ (by omega),
      getD_set_ne _ _ _ _ (by omega), getD_set_eq _ _ _ (by omega), if_neg (by omega)]
  · rw [getD_set_ne _ _ _ _ (by omega), getD_set_ne _ _ _ _ (by omega),
      getD_set_eq _ _ _ (by simp; omega), if_neg (by omega)]
  · rw [getD_set_ne _ _ _ _ (by omega), getD_set_eq _ _ _ (by simp; omega),
      if_neg (by omega)]
  · rw [getD_set_eq _ _ _ (by simp; omega), if_pos (by omega)]

theorem createImageData_length (w h : ℕ) : (createImageData w h).data.length = w * h * 4 := by
  simp [createImageData]

/-- The Lanczos resampling of the black pixel at scale 3. -/
theorem lanczosResample_blackPixel (M : JSMath) (hpi : M.pi ≠ 0)
    (hs1 : M.sin (M.pi * (1 / 3)) ≠ 0) (hs1' : M.sin (M.pi * (1 / 3) / 3) ≠ 0)
    (hs2 : M.sin (M.pi * (2 / 3)) ≠ 0) (hs2' : M.sin (M.pi * (2 / 3) / 3) ≠ 0) :
    lanczosResample M blackPixel (createImageData 3 3) 1 1 3 3 = blackImage3 := by
  have hL := lanczosKernel_thirds M hpi hs1 hs1' hs2 hs2'
  have hl0 : (createImageData 3 3).data.length = 36 := createImageData_length 3 3
  have key := gridLoop_spec 3 (List.range 3) (List.range 3)
    (lanczosPixel M blackPixel 1 1 3 3) (fun i => if i % 4 = 3 then 255 else 0)
    (createImageData 3 3).data
    (List.nodup_range _) (List.nodup_range _) (fun x hx => List.mem_range.mp hx)
    (fun y x l => lanczosPixel_length M blackPixel 1 1 3 3 y x l)
    (fun y _ x _ l i hi => lanczosPixel_other M blackPixel 1 1 3 3 y x l i hi)
    (fun y hy x hx l hl _ i hi hil =>
      lanczosPixel_black M hL y x (List.mem_range.mp hy) (List.mem_range.mp hx) l
        (by rw [hl, hl0]) i hi (by omega))
  have hdata : gridLoop (List.range 3) (List.range 3) (lanczosPixel M blackPixel 1 1 3 3)
      (createImageData 3 3).data = blackImage3.data := by
    apply list_ext_getD
    · rw [key.1, hl0]; rfl
    · intro i hi
      have hi' : i < 36 := hi
      rw [blackImage3_getD i hi']
      exact (key.2 i (by omega)).1 (exists_grid_coord 3 3 i (by omega))
  unfold lanczosResample
  rw [hdata]
  rfl

/-- C6: for each of the three methods and every sharpening, `processImage` on
the 1x1 source holding (0, 0, 0, 255) at scale 3 returns the 3x3 buffer whose
nine pixels are (0, 0, 0, 255).  What is asked of the `Math` object holds of the
real functions: `exp` is positive, `pi` is not 0 and `sin` does not vanish at
`pi/3`, `pi/9`, `2 pi/3`, `2 pi/9`. -/
theorem processImage_black_pixel (M : JSMath) (hexp : ∀ x, 0 < M.exp x) (hpi : M.pi ≠ 0)
    (hs1 : M.sin (M.pi * (1 / 3)) ≠ 0) (hs1' : M.sin (M.pi * (1 / 3) / 3) ≠ 0)
    (hs2 : M.sin (M.pi * (2 / 3)) ≠ 0) (hs2' : M.sin (M.pi * (2 / 3) / 3) ≠ 0)
    (method : String)
    (hm : method = "bilinear" ∨ method = "bicubic" ∨ method = "lanczos")
    (sharpening : ℚ) :
    processImage M method 3 sharpening blackPixel = Except.ok blackImage3 := by
  have hup : upscale M method 3 blackPixel = Except.ok blackImage3 := by
    rcases hm with h | h | h <;> subst h
    · have : bilinearResample blackPixel (createImageData 3 3) 1 1 3 3 = blackImage3 := by
        decide!
      simp only [upscale, blackPixel, Nat.one_mul]
      simp only [String.reduceEq, if_false, if_true]
      exact congrArg Except.ok this
    · have : bicubicResample blackPixel (createImageData 3 3) 1 1 3 3 = blackImage3 := by
        decide!
      simp only [upscale, blackPixel, Nat.one_mul]
      simp only [String.reduceEq, if_false, if_true]
      exact congrArg Except.ok this
    · have := lanczosResample_blackPixel M hpi hs1 hs1' hs2 hs2'
      simp only [upscale, blackPixel, Nat.one_mul]
      simp only [String.reduceEq, if_false, if_true]
      exact congrArg Except.ok this
  have hwf : blackImage3.WF := by decide
  have hu : IsUniform blackImage3.data (grayPixel 0 255) := by decide
  rw [processImage_ok M method 3 sharpening blackPixel blackImage3 hup]
  simp only [edgePreservingSmooth_uniform M hexp blackImage3 hwf _ hu,
    unsharpMask_uniform blackImage3 hwf _ hu, ite_self,
    bilateralFilter_uniform M hexp blackImage3 hwf _ hu,
    enhanceColors_uniform_gray blackImage3 hwf _ hu rfl rfl,
    normalizeContrast_uniform blackImage3 hwf _ hu]

/-- C6 (witness): the Lanczos method with sharpening 1/2 and the rational
stand-in for `Math`. -/
theorem processImage_black_pixel_witness :
    (∀ x, 0 < exampleMath.exp x) ∧ exampleMath.pi ≠ 0 ∧
    exampleMath.sin (exampleMath.pi * (1 / 3)) ≠ 0 ∧
    exampleMath.sin (exampleMath.pi * (1 / 3) / 3) ≠ 0 ∧
    exampleMath.sin (exampleMath.pi * (2 / 3)) ≠ 0 ∧
    exampleMath.sin (exampleMath.pi * (2 / 3) / 3) ≠ 0 ∧
    processImage exampleMath "lanczos" 3 (1 / 2) blackPixel = Except.ok blackImage3 :=
  ⟨exampleMath_exp_pos, by norm_num [exampleMath], by norm_num [exampleMath],
    by norm_num [exampleMath], by norm_num [exampleMath], by norm_num [exampleMath],
    processImage_black_pixel exampleMath exampleMath_exp_pos (by norm_num [exampleMath])
      (by norm_num [exampleMath]) (by norm_num [exampleMath]) (by norm_num [exampleMath])
      (by norm_num [exampleMath]) "lanczos" (Or.inr (Or.inr rfl)) (1 / 2)⟩

/-- C2 (as stated, refuted): on the three pixels red, blue, dark gray the first
pass of `normalizeContrast` has the bounds 29 and 76 and maps the gray level 60
to 168; the second pass has the bounds 29 and 168 and maps 168 to 255, a change
of 87 levels. -/
theorem normalizeContrast_not_idempotent :
    contrastBounds exampleContrast.data = (29, 76) ∧
    (normalizeContrast exampleContrast).data =
      [255, 0, 0, 255, 0, 0, 255, 255, 168, 168, 168, 255] ∧
    contrastBounds (normalizeContrast exampleContrast).data = (29, 168) ∧
    (normalizeContrast (normalizeContrast exampleContrast)).data =
      [255, 0, 0, 255, 0, 0, 255, 255, 255, 255, 255, 255] := by
  refine ⟨?_, ?_, ?_, ?_⟩ <;> decide!

/-! ## Contrast stretch -/

theorem toUint8Clamp_le (x : ℚ) : toUint8Clamp x ≤ 255 := by
  unfold toUint8Clamp
  by_cases h1 : x ≤ 0
  · rw [if_pos h1]; omega
  · rw [if_neg h1]
    by_cases h2 : 255 ≤ x
    · rw [if_pos h2]
    · rw [if_neg h2]
      have hf0 : 0 ≤ ⌊x⌋ := Int.floor_nonneg.mpr (le_of_lt (not_le.mp h1))
      have hf1 : ⌊x⌋ < 255 := by
        rw [Int.floor_lt]; push_cast; exact not_le.mp h2
      dsimp only
      split_ifs <;> omega

theorem stretchStep_getD (mn : ℕ) (rg : ℤ) (p : ℕ) (l : List ℕ) (i : ℕ) :
    (stretchStep mn rg p l).length = l.length ∧
    (stretchStep mn rg p l).getD i 0 =
      if 4 * p ≤ i ∧ i < 4 * p + 3 ∧ i < l.length then
        toUint8Clamp (stretchValue mn rg (l.getD i 0))
      else l.getD i 0 := by
  have key := getD_foldl_set_self (4 * p)
    (fun _ v => toUint8Clamp (stretchValue mn rg (v : ℚ))) l i 3
  simp only [stretchStep, wr, rd_natCast]
  exact key

/-- The last loop of `normalizeContrast`: every R, G, B sample is remapped,
every alpha sample is kept. -/
theorem stretch_getD (mn : ℕ) (rg : ℤ) (data : List ℕ) :
    (pixelLoop data.length (stretchStep mn rg) data).length = data.length ∧
    ∀ i, i < data.length →
      (pixelLoop data.length (stretchStep mn rg) data).getD i 0 =
        if i % 4 < 3 then toUint8Clamp (stretchValue mn rg (data.getD i 0))
        else data.getD i 0 := by
  have key := pixelLoop_local data.length (stretchStep mn rg) data (le_refl _)
    (fun p l => (stretchStep_getD mn rg p l 0).1)
    (fun p l i hi => by
      rw [(stretchStep_getD mn rg p l i).2, if_neg (by omega)])
    (fun p l hl hag i hi => by
      rw [(stretchStep_getD mn rg p l i).2, (stretchStep_getD mn rg p data i).2, hl,
        hag i hi])
  refine ⟨key.1, ?_⟩
  intro i hi
  rw [key.2 i hi, (stretchStep_getD mn rg (i / 4) data i).2]
  by_cases h3 : i % 4 < 3
  · rw [if_pos ⟨by omega, by omega, hi⟩, if_pos h3]
  · rw [if_neg (by omega), if_neg h3]

theorem stretchValue_low (mn : ℕ) (rg : ℤ) (hrg : 0 < rg) (v : ℕ) (hv : v ≤ mn) :
    toUint8Clamp (stretchValue mn rg v) = 0 := by
  have h1 : (v : ℚ) - mn ≤ 0 := by
    have : (v : ℚ) ≤ mn := by exact_mod_cast hv
    linarith
  have h2 : (0 : ℚ) < rg := by exact_mod_cast hrg
  have h3 : 255 * ((v : ℚ) - mn) / rg ≤ 0 :=
    div_nonpos_of_nonpos_of_nonneg (by linarith) h2.le
  have h4 : stretchValue mn rg v = 0 := by
    unfold stretchValue
    rw [min_eq_right (by linarith), max_eq_left h3]
  rw [h4]
  simp [toUint8Clamp]

theorem stretchValue_high (mn mx : ℕ) (hlt : mn < mx) (v : ℕ) (hv : mx ≤ v) :
    toUint8Clamp (stretchValue mn ((mx : ℤ) - mn) v) = 255 := by
  have h0 : (0 : ℚ) < (mx : ℚ) - mn := by
    have : (mn : ℚ) < mx := by exact_mod_cast hlt
    linarith
  have h1 : (mx : ℚ) - mn ≤ (v : ℚ) - mn := by
    have : (mx : ℚ) ≤ v := by exact_mod_cast hv
    linarith
  have h3 : (255 : ℚ) ≤ 255 * ((v : ℚ) - mn) / (((mx : ℤ) - (mn : ℤ) : ℤ) : ℚ) := by
    push_cast
    rw [le_div_iff₀ h0]
    nlinarith
  have h4 : stretchValue mn ((mx : ℤ) - mn) v = 255 := by
    unfold stretchValue
    rw [min_eq_left h3, max_eq_right (by norm_num)]
  rw [h4]
  simp [toUint8Clamp]

theorem stretchValue_full (v : ℕ) (hv : v ≤ 255) :
    toUint8Clamp (stretchValue 0 ((255 : ℕ) - (0 : ℕ)) v) = v := by
  have h : stretchValue 0 ((255 : ℕ) - (0 : ℕ)) (v : ℚ) = v := by
    unfold stretchValue
    have e : 255 * ((v : ℚ) - ((0 : ℕ) : ℚ)) / ((((255 : ℕ) : ℤ) - ((0 : ℕ) : ℤ) : ℤ) : ℚ) = v := by
      push_cast
      field_simp
    rw [e, clamp_natCast v hv]
  rw [h, toUint8Clamp_natCast v hv]

/-! ## Percentile scans -/

theorem percentileScan_first (histogram : List ℕ) (threshold : ℚ) (dflt i : ℕ)
    (is : List ℕ) (h : threshold < ((0 + histogram.getD i 0 : ℕ) : ℚ)) :
    percentileScan histogram threshold dflt (i :: is) 0 = i := by
  simp only [percentileScan]
  rw [if_pos (by simpa using h)]

/-- When the counts of the buckets scanned exceed the threshold, the scan stops
at a bucket `r` of the list: the counts before `r` do not exceed the threshold,
and with the count of `r` they do. -/
theorem percentileScan_found (histogram : List ℕ) (threshold : ℚ) (dflt : ℕ) :
    ∀ (is : List ℕ) (sum : ℕ), (sum : ℚ) ≤ threshold →
      threshold < ((sum + (is.map (fun j => histogram.getD j 0)).sum : ℕ) : ℚ) →
      ∃ pre post, is = pre ++ percentileScan histogram threshold dflt is sum :: post ∧
        ((sum + (pre.map (fun j => histogram.getD j 0)).sum : ℕ) : ℚ) ≤ threshold ∧
        threshold < ((sum + (pre.map (fun j => histogram.getD j 0)).sum +
          histogram.getD (percentileScan histogram threshold dflt is sum) 0 : ℕ) : ℚ) := by
  intro is
  induction is with
  | nil =>
    intro sum h1 h2
    simp only [List.map_nil, List.sum_nil, Nat.add_zero] at h2
    linarith
  | cons i is ih =>
    intro sum h1 h2
    by_cases hi : threshold < ((sum + histogram.getD i 0 : ℕ) : ℚ)
    · have e : percentileScan histogram threshold dflt (i :: is) sum = i := by
        simp only [percentileScan]
        rw [if_pos (by simpa using hi)]
      rw [e]
      exact ⟨[], is, rfl, by simpa using h1, by simpa using hi⟩
    · have e : percentileScan histogram threshold dflt (i :: is) sum =
          percentileScan histogram threshold dflt is (sum + histogram.getD i 0) := by
        simp only [percentileScan]
        rw [if_neg (by simpa using hi)]
      rw [e]
      have h2' : threshold < ((sum + histogram.getD i 0 +
          (is.map (fun j => histogram.getD j 0)).sum : ℕ) : ℚ) := by
        simp only [List.map_cons, List.sum_cons] at h2
        rw [Nat.add_assoc]; exact h2
      obtain ⟨pre, post, e1, e2, e3⟩ := ih (sum + histogram.getD i 0) (not_lt.mp hi) h2'
      refine ⟨i :: pre, post, ?_, ?_, ?_⟩
      · rw [List.cons_append, ← e1]
      · simp only [List.map_cons, List.sum_cons]
        rw [← Nat.add_assoc]; exact e2
      · simp only [List.map_cons, List.sum_cons]
        rw [← Nat.add_assoc]; exact e3

theorem countP_or_disjoint (P Q : ℕ → Bool) (hd : ∀ p, ¬ (P p = true ∧ Q p = true)) :
    ∀ l : List ℕ, l.countP P + l.countP Q = l.countP (fun p => P p || Q p) := by
  intro l
  induction l with
  | nil => rfl
  | cons a l ih =>
    have := hd a
    simp only [List.countP_cons, ← ih]
    cases hP : P a <;> cases hQ : Q a <;> simp_all <;> omega

/-- The counts of the buckets of a duplicate-free list add up to the number of
pixels whose bucket is in the list. -/
theorem sum_countP_buckets (f : ℕ → ℕ) (l : List ℕ) :
    ∀ js : List ℕ, js.Nodup →
      (js.map (fun j => l.countP (fun p => decide (f p = j)))).sum =
        l.countP (fun p => decide (f p ∈ js)) := by
  intro js
  induction js with
  | nil => intro _; simp
  | cons j js ih =>
    intro hnd
    rw [List.nodup_cons] at hnd
    rw [List.map_cons, List.sum_cons, ih hnd.2,
      countP_or_disjoint _ _ (fun p hp => by
        simp only [decide_eq_true_eq] at hp
        exact hnd.1 (hp.1 ▸ hp.2))]
    congr 1
    funext p
    simp [List.mem_cons]

theorem map_getD_range (h : List ℕ) :
    (List.range h.length).map (fun j => h.getD j 0) = h := by
  apply List.ext_getElem
  · simp
  · intro i h1 h2
    simp [List.getD_eq_getElem?_getD, List.getElem?_eq_getElem h2]

/-- The percentile scan of the histogram of a non-empty buffer over a
duplicate-free arrangement `is` of the 256 buckets stops at a bucket `r`, and
more than 1% of the pixels have their bucket among those scanned up to `r`. -/
theorem scan_count (data : List ℕ) (hv : ∀ v ∈ data, v ≤ 255) (n : ℕ)
    (hlen : data.length = n * 4) (hn : 0 < n) (is : List ℕ) (hnd : is.Nodup)
    (hsum : (is.map (fun j => (histogramOf data).getD j 0)).sum = n) (dflt : ℕ) :
    ∃ pre post,
      is = pre ++ percentileScan (histogramOf data) ((data.length : ℚ) / 4 * 0.01) dflt is 0
        :: post ∧
      (data.length : ℚ) / 4 * 0.01 <
        (((List.range n).countP (fun p => decide (bucketOf data p ∈
          pre ++ [percentileScan (histogramOf data) ((data.length : ℚ) / 4 * 0.01)
            dflt is 0])) : ℕ) : ℚ) := by
  obtain ⟨_, _, k3⟩ := histogramOf_spec data hv
  have hN : (data.length + 3) / 4 = n := by rw [hlen]; omega
  rw [hN] at k3
  have hthr : (data.length : ℚ) / 4 * 0.01 = (n : ℚ) / 100 := by
    rw [hlen]; push_cast; ring
  have hnq : (0 : ℚ) < n := by exact_mod_cast hn
  have h1 : ((0 : ℕ) : ℚ) ≤ (data.length : ℚ) / 4 * 0.01 := by
    rw [hthr]; simp only [Nat.cast_zero]; positivity
  have h2 : (data.length : ℚ) / 4 * 0.01 <
      ((0 + (is.map (fun j => (histogramOf data).getD j 0)).sum : ℕ) : ℚ) := by
    rw [hsum, hthr, Nat.zero_add]; linarith
  obtain ⟨pre, post, e1, _, e3⟩ :=
    percentileScan_found (histogramOf data) _ dflt is 0 h1 h2
  refine ⟨pre, post, e1, ?_⟩
  have hnd' : (pre ++ [percentileScan (histogramOf data) ((data.length : ℚ) / 4 * 0.01)
      dflt is 0]).Nodup := by
    have : is = (pre ++ [percentileScan (histogramOf data) ((data.length : ℚ) / 4 * 0.01)
        dflt is 0]) ++ post := by
      rw [List.append_assoc]; exact e1
    rw [this] at hnd
    exact List.Nodup.of_append_left hnd
  have hcount := sum_countP_buckets (bucketOf data) (List.range n) _ hnd'
  have hfun : (fun j => (histogramOf data).getD j 0) =
      (fun j => (List.range n).countP (fun p => decide (bucketOf data p = j))) := by
    funext j; exact k3 j
  rw [← hcount, List.map_append, List.sum_append, ← hfun]
  simp only [List.map_cons, List.map_nil, List.sum_cons, List.sum_nil, Nat.add_zero]
  rw [Nat.zero_add] at e3
  exact e3

theorem sum_map_range_hist (data : List ℕ) (hv : ∀ v ∈ data, v ≤ 255) (n : ℕ)
    (hlen : data.length = n * 4) :
    ((List.range 256).map (fun j => (histogramOf data).getD j 0)).sum = n := by
  obtain ⟨k1, k2, _⟩ := histogramOf_spec data hv
  have hN : (data.length + 3) / 4 = n := by rw [hlen]; omega
  rw [hN] at k2
  have := map_getD_range (histogramOf data)
  rw [k1] at this
  rw [this, k2]

theorem sum_map_range_reverse_hist (data : List ℕ) (hv : ∀ v ∈ data, v ≤ 255) (n : ℕ)
    (hlen : data.length = n * 4) :
    (((List.range 256).reverse).map (fun j => (histogramOf data).getD j 0)).sum = n := by
  rw [List.map_reverse, List.sum_reverse]
  exact sum_map_range_hist data hv n hlen

/-- On a non-empty buffer, more than 1% of the pixels have a luminance bucket at
most the lower percentile bound, and more than 1% have one at least the upper
bound. -/
theorem contrastBounds_mass (data : List ℕ) (hv : ∀ v ∈ data, v ≤ 255) (n : ℕ)
    (hlen : data.length = n * 4) (hn : 0 < n) :
    (data.length : ℚ) / 4 * 0.01 <
      (((List.range n).countP (fun p => decide (bucketOf data p ≤ (contrastBounds data).1))
        : ℕ) : ℚ) ∧
    (data.length : ℚ) / 4 * 0.01 <
      (((List.range n).countP (fun p => decide ((contrastBounds data).2 ≤ bucketOf data p))
        : ℕ) : ℚ) := by
  constructor
  · obtain ⟨pre, post, e1, e2⟩ := scan_count data hv n hlen hn (List.range 256)
      (List.nodup_range _) (sum_map_range_hist data hv n hlen) 0
    have hsorted := List.pairwise_lt_range 256
    rw [e1, List.pairwise_append] at hsorted
    refine lt_of_lt_of_le e2 ?_
    have : (List.range n).countP (fun p => decide (bucketOf data p ∈
          pre ++ [percentileScan (histogramOf data) ((data.length : ℚ) / 4 * 0.01)
            0 (List.range 256) 0])) ≤
        (List.range n).countP (fun p => decide (bucketOf data p ≤ (contrastBounds data).1)) := by
      apply List.countP_mono_left
      intro p _ hp
      simp only [decide_eq_true_eq, List.mem_append, List.mem_singleton] at hp ⊢
      show bucketOf data p ≤ percentileScan (histogramOf data)
        ((data.length : ℚ) / 4 * 0.01) 0 (List.range 256) 0
      rcases hp with h | h
      · exact le_of_lt (hsorted.2.2 _ h _ (List.mem_cons_self _ _))
      · exact le_of_eq h
    exact_mod_cast this
  · obtain ⟨pre, post, e1, e2⟩ := scan_count data hv n hlen hn (List.range 256).reverse
      (List.nodup_reverse.mpr (List.nodup_range _))
      (sum_map_range_reverse_hist data hv n hlen) 255
    have hsorted : List.Pairwise (fun a b => b < a) (List.range 256).reverse := by
      rw [List.pairwise_reverse]
      exact List.pairwise_lt_range 256
    rw [e1, List.pairwise_append] at hsorted
    refine lt_of_lt_of_le e2 ?_
    have : (List.range n).countP (fun p => decide (bucketOf data p ∈
          pre ++ [percentileScan (histogramOf data) ((data.length : ℚ) / 4 * 0.01)
            255 (List.range 256).reverse 0])) ≤
        (List.range n).countP (fun p => decide ((contrastBounds data).2 ≤ bucketOf data p)) := by
      apply List.countP_mono_left
      intro p _ hp
      simp only [decide_eq_true_eq, List.mem_append, List.mem_singleton] at hp ⊢
      show percentileScan (histogramOf data)
        ((data.length : ℚ) / 4 * 0.01) 255 (List.range 256).reverse 0 ≤ bucketOf data p
      rcases hp with h | h
      · exact le_of_lt (hsorted.2.2 _ h _ (List.mem_cons_self _ _))
      · exact le_of_eq h.symm
    exact_mod_cast this

/-! ## Contrast normalisation of a gray buffer -/

theorem contrastBounds_eq (data : List ℕ) :
    contrastBounds data =
      (percentileScan (histogramOf data) ((data.length : ℚ) / 4 * 0.01) 0 (List.range 256) 0,
       percentileScan (histogramOf data) ((data.length : ℚ) / 4 * 0.01) 255
        (List.range 256).reverse 0) := rfl

theorem range_256_head : List.range 256 = 0 :: (List.range 255).map Nat.succ :=
  List.range_succ_eq_map 255

theorem range_256_reverse_head : (List.range 256).reverse = 255 :: (List.range 255).reverse := by
  rw [show (256 : ℕ) = 255 + 1 from rfl, List.range_succ, List.reverse_append]
  rfl

/-! ## Value after colour enhancement -/

theorem sector_bound (hue c x m : ℚ) (hv : 1 ≤ c + m) :
    255 ≤ ((if hue < 60 then (c, x, (0 : ℚ))
        else if hue < 120 then (x, c, 0)
        else if hue < 180 then (0, c, x)
        else if hue < 240 then (0, x, c)
        else if hue < 300 then (x, 0, c)
        else (c, 0, x)).1 + m) * 255 ∨
    255 ≤ ((if hue < 60 then (c, x, (0 : ℚ))
        else if hue < 120 then (x, c, 0)
        else if hue < 180 then (0, c, x)
        else if hue < 240 then (0, x, c)
        else if hue < 300 then (x, 0, c)
        else (c, 0, x)).2.1 + m) * 255 ∨
    255 ≤ ((if hue < 60 then (c, x, (0 : ℚ))
        else if hue < 120 then (x, c, 0)
        else if hue < 180 then (0, c, x)
        else if hue < 240 then (0, x, c)
        else if hue < 300 then (x, 0, c)
        else (c, 0, x)).2.2 + m) * 255 := by
  split_ifs
  · left; dsimp only; linarith
  · right; left; dsimp only; linarith
  · right; left; dsimp only; linarith
  · right; right; dsimp only; linarith
  · right; right; dsimp only; linarith
  · left; dsimp only; linarith

/-- When the iteration of `enhanceColors` is not cut short, one of the three
numbers it stores is `255 * max(r, g, b)`, at least 255 for integer samples. -/
theorem enhancePixel_some_max (r g b : ℕ) (rgb : ℚ × ℚ × ℚ)
    (h : enhancePixel r g b = some rgb) :
    255 ≤ rgb.1 ∨ 255 ≤ rgb.2.1 ∨ 255 ≤ rgb.2.2 := by
  unfold enhancePixel at h
  dsimp only at h
  by_cases hmax : max (r : ℚ) (max (g : ℚ) (b : ℚ)) = 0
  · rw [if_pos hmax] at h
    simp at h
  · have hv : (1 : ℚ) ≤ max (r : ℚ) (max (g : ℚ) (b : ℚ)) := by
      have e : max (r : ℚ) (max (g : ℚ) (b : ℚ)) = ((max r (max g b) : ℕ) : ℚ) := by
        push_cast; rfl
      rw [e] at hmax ⊢
      have : max r (max g b) ≠ 0 := by
        intro h0; apply hmax; rw [h0]; rfl
      have : 1 ≤ max r (max g b) := Nat.one_le_iff_ne_zero.mpr this
      exact_mod_cast this
    rw [if_neg hmax] at h
    by_cases hs : (max (r : ℚ) (max (g : ℚ) (b : ℚ)) - min (r : ℚ) (min (g : ℚ) (b : ℚ))) /
        max (r : ℚ) (max (g : ℚ) (b : ℚ)) = 0
    · rw [if_pos hs] at h
      exact absurd h (by simp)
    · rw [if_neg hs] at h
      simp only [Option.some.injEq] at h
      rw [← h]
      exact sector_bound _ _ _ _ (by linarith)

theorem toUint8Clamp_of_ge (x : ℚ) (h : 255 ≤ x) : toUint8Clamp x = 255 := by
  unfold toUint8Clamp
  rw [if_neg (by linarith), if_pos h]

theorem enhanceStep_none (p : ℕ) (l : List ℕ)
    (h : enhancePixel (l.getD (4 * p) 0) (l.getD (4 * p + 1) 0) (l.getD (4 * p + 2) 0) = none) :
    enhanceStep p l = l := by
  unfold enhanceStep
  dsimp only
  simp only [rd_natCast, h]

theorem enhanceStep_some (p : ℕ) (l : List ℕ) (rgb : ℚ × ℚ × ℚ)
    (h : enhancePixel (l.getD (4 * p) 0) (l.getD (4 * p + 1) 0) (l.getD (4 * p + 2) 0)
      = some rgb) :
    enhanceStep p l =
      ((l.set (4 * p) (toUint8Clamp rgb.1)).set (4 * p + 1) (toUint8Clamp rgb.2.1)).set
        (4 * p + 2) (toUint8Clamp rgb.2.2) := by
  unfold enhanceStep
  dsimp only
  simp only [rd_natCast, h, wr]

/-- Every sample of the output of `enhanceColors` is an 8-bit value. -/
theorem enhanceColors_le (imageData : ImageData) (hv : ∀ v ∈ imageData.data, v ≤ 255)
    (i : ℕ) : (enhanceColors imageData).data.getD i 0 ≤ 255 := by
  rw [enhanceColors_getD]
  cases h : enhancePixel (imageData.data.getD (4 * (i / 4)) 0)
      (imageData.data.getD (4 * (i / 4) + 1) 0) (imageData.data.getD (4 * (i / 4) + 2) 0) with
  | none =>
    rw [enhanceStep_none _ _ h]
    exact getD_le _ hv i
  | some rgb =>
    rw [enhanceStep_some _ _ rgb h]
    simp only [getD_set]
    split_ifs
    · exact toUint8Clamp_le _
    · exact toUint8Clamp_le _
    · exact toUint8Clamp_le _
    · exact getD_le _ hv i

/-- C11: on a buffer of 8-bit samples `enhanceColors` never decreases the value
of a pixel: the maximum of the R, G, B samples of every pixel of the buffer is
at least as large after the call as before, and every sample of the output lies
in [0, 255]. -/
theorem enhanceColors_value_not_decreased (imageData : ImageData)
    (hv : ∀ v ∈ imageData.data, v ≤ 255) (p : ℕ) (hp : 4 * p + 2 < imageData.data.length) :
    max (imageData.data.getD (4 * p) 0)
        (max (imageData.data.getD (4 * p + 1) 0) (imageData.data.getD (4 * p + 2) 0)) ≤
      max ((enhanceColors imageData).data.getD (4 * p) 0)
        (max ((enhanceColors imageData).data.getD (4 * p + 1) 0)
          ((enhanceColors imageData).data.getD (4 * p + 2) 0)) ∧
    ∀ i, 0 ≤ (enhanceColors imageData).data.getD i 0 ∧
      (enhanceColors imageData).data.getD i 0 ≤ 255 := by
  refine ⟨?_, fun i => ⟨Nat.zero_le _, enhanceColors_le imageData hv i⟩⟩
  have h0 : (4 * p) / 4 = p := by omega
  have h1 : (4 * p + 1) / 4 = p := by omega
  have h2 : (4 * p + 2) / 4 = p := by omega
  rw [enhanceColors_getD, enhanceColors_getD, enhanceColors_getD, h0, h1, h2]
  cases h : enhancePixel (imageData.data.getD (4 * p) 0)
      (imageData.data.getD (4 * p + 1) 0) (imageData.data.getD (4 * p + 2) 0) with
  | none =>
    rw [enhanceStep_none _ _ h]
  | some rgb =>
    rw [enhanceStep_some _ _ rgb h]
    have b0 := getD_le _ hv (4 * p)
    have b1 := getD_le _ hv (4 * p + 1)
    have b2 := getD_le _ hv (4 * p + 2)
    have e0 : (((imageData.data.set (4 * p) (toUint8Clamp rgb.1)).set (4 * p + 1)
        (toUint8Clamp rgb.2.1)).set (4 * p + 2) (toUint8Clamp rgb.2.2)).getD (4 * p) 0
        = toUint8Clamp rgb.1 := by
      rw [getD_set_ne _ _ _ _ (by omega), getD_set_ne _ _ _ _ (by omega),
        getD_set_eq _ _ _ (by omega)]
    have e1 : (((imageData.data.set (4 * p) (toUint8Clamp rgb.1)).set (4 * p + 1)
        (toUint8Clamp rgb.2.1)).set (4 * p + 2) (toUint8Clamp rgb.2.2)).getD (4 * p + 1) 0
        = toUint8Clamp rgb.2.1 := by
      rw [getD_set_ne _ _ _ _ (by omega), getD_set_eq _ _ _ (by simp; omega)]
    have e2 : (((imageData.data.set (4 * p) (toUint8Clamp rgb.1)).set (4 * p + 1)
        (toUint8Clamp rgb.2.1)).set (4 * p + 2) (toUint8Clamp rgb.2.2)).getD (4 * p + 2) 0
        = toUint8Clamp rgb.2.2 := by
      rw [getD_set_eq _ _ _ (by simp; omega)]
    rw [e0, e1, e2]
    rcases enhancePixel_some_max _ _ _ rgb h with h255 | h255 | h255
    · rw [toUint8Clamp_of_ge _ h255]; omega
    · rw [toUint8Clamp_of_ge _ h255]; omega
    · rw [toUint8Clamp_of_ge _ h255]; omega

/-- C11 (witness): the two pixels of the gray-and-colour example. -/
theorem enhanceColors_value_not_decreased_witness :
    (∀ v ∈ exampleGrayColor.data, v ≤ 255) ∧ 4 * 1 + 2 < exampleGrayColor.data.length ∧
    max (exampleGrayColor.data.getD (4 * 1) 0)
        (max (exampleGrayColor.data.getD (4 * 1 + 1) 0)
          (exampleGrayColor.data.getD (4 * 1 + 2) 0)) ≤
      max ((enhanceColors exampleGrayColor).data.getD (4 * 1) 0)
        (max ((enhanceColors exampleGrayColor).data.getD (4 * 1 + 1) 0)
          ((enhanceColors exampleGrayColor).data.getD (4 * 1 + 2) 0)) :=
  ⟨by decide, by decide,
    (enhanceColors_value_not_decreased exampleGrayColor (by decide) 1 (by decide)).1⟩

/-! ## Frame of the smoothing filters -/

theorem getD_of_length_le (l : List ℕ) (i : ℕ) (h : l.length ≤ i) : l.getD i 0 = 0 := by
  simp [List.getD_eq_getElem?_getD, List.getElem?_eq_none h]

theorem mem_le_of_getD_le (l : List ℕ) (h : ∀ i, i < l.length → l.getD i 0 ≤ 255) :
    ∀ v ∈ l, v ≤ 255 := by
  intro v hv
  obtain ⟨i, hi, rfl⟩ := List.getElem_of_mem hv
  have e : l.getD i 0 = l[i] := by
    simp [List.getD_eq_getElem?_getD, List.getElem?_eq_getElem hi]
  rw [← e]
  exact h i hi

theorem grid_div_mod (w y x : ℕ) (hx : x < w) : (y * w + x) / w = y ∧ (y * w + x) % w = x := by
  have hw : 0 < w := by omega
  constructor
  · rw [Nat.add_comm, Nat.add_mul_div_right _ _ hw, Nat.div_eq_of_lt hx, Nat.zero_add]
  · rw [Nat.add_comm, Nat.add_mul_mod_self_right, Nat.mod_eq_of_lt hx]

theorem storeDiv_le (n d : ℚ) : storeDiv n d ≤ 255 := by
  unfold storeDiv
  split_ifs
  · omega
  · omega
  · exact toUint8Clamp_le _

/-- Specification of a smoothing filter: a grid loop over the pixels
`ys x xs` whose body stores `V y x c` in the channels `c < 3` of pixel `(x, y)`
of `temp`, followed by the copy of `temp` into `data`.  The R, G, B samples of
the pixels visited hold `V`; every other sample is the one of the input. -/
theorem smooth_spec (w : ℕ) (ys xs : List ℕ) (hys : ys.Nodup) (hxs : xs.Nodup)
    (hx : ∀ x ∈ xs, x < w) (step : ℕ → ℕ → List ℕ → List ℕ) (V : ℕ → ℕ → ℕ → ℕ)
    (hV : ∀ y x c, V y x c ≤ 255)
    (hlen : ∀ y x l, (step y x l).length = l.length)
    (hstep : ∀ y x l i, (step y x l).getD i 0 =
      if (y * w + x) * 4 ≤ i ∧ i < (y * w + x) * 4 + 3 ∧ i < l.length then
        V y x (i - (y * w + x) * 4)
      else l.getD i 0)
    (data : List ℕ) (hv : ∀ v ∈ data, v ≤ 255) :
    (copyBack (gridLoop ys xs step data) data).length = data.length ∧
    ∀ i,
      ((∃ y ∈ ys, ∃ x ∈ xs, i / 4 = y * w + x) → i % 4 < 3 → i < data.length →
        (copyBack (gridLoop ys xs step data) data).getD i 0 = V (i / 4 / w) (i / 4 % w) (i % 4)) ∧
      ((¬ ((∃ y ∈ ys, ∃ x ∈ xs, i / 4 = y * w + x) ∧ i % 4 < 3)) →
        (copyBack (gridLoop ys xs step data) data).getD i 0 = data.getD i 0) := by
  have key := gridLoop_spec w ys xs step
    (fun i => if i % 4 < 3 then V (i / 4 / w) (i / 4 % w) (i % 4) else data.getD i 0) data
    hys hxs hx hlen
    (fun y _ x _ l i hi => by rw [hstep, if_neg (by omega)])
    (fun y _ x hxm l hl hag i hi hil => by
      obtain ⟨d1, d2⟩ := grid_div_mod w y x (hx x hxm)
      rw [hstep]
      by_cases h3 : i % 4 < 3
      · rw [if_pos ⟨by omega, by omega, by omega⟩]
        simp only [if_pos h3, hi, d1, d2]
        congr 1
        omega
      · rw [if_neg (by omega)]
        simp only [if_neg h3]
        exact hag i hi)
  have hT : ∀ v ∈ gridLoop ys xs step data, v ≤ 255 := by
    apply mem_le_of_getD_le
    intro i hi
    rw [key.1] at hi
    by_cases hex : ∃ y ∈ ys, ∃ x ∈ xs, i / 4 = y * w + x
    · rw [(key.2 i hi).1 hex]
      dsimp only
      split_ifs
      · exact hV _ _ _
      · exact getD_le _ hv _
    · rw [(key.2 i hi).2 hex]
      exact getD_le _ hv _
  rw [copyBack_eq _ _ key.1 hT]
  refine ⟨key.1, ?_⟩
  intro i
  constructor
  · intro hex h3 hi
    rw [(key.2 i hi).1 hex]
    simp only [if_pos h3]
  · intro hn
    by_cases hi : i < data.length
    · by_cases hex : ∃ y ∈ ys, ∃ x ∈ xs, i / 4 = y * w + x
      · rw [(key.2 i hi).1 hex]
        have h3 : ¬ i % 4 < 3 := fun h => hn ⟨hex, h⟩
        simp only [if_neg h3]
      · exact (key.2 i hi).2 hex
    · rw [getD_of_length_le _ _ (by rw [key.1]; omega), getD_of_length_le _ _ (by omega)]

/-- The output of `edgePreservingSmooth` on a buffer of 8-bit samples: the R, G,
B samples of the interior pixels hold the weighted averages, every other sample
is the one of the input. -/
theorem edgePreservingSmooth_spec (M : JSMath) (imageData : ImageData)
    (hv : ∀ v ∈ imageData.data, v ≤ 255) :
    (edgePreservingSmooth M imageData).data.length = imageData.data.length ∧
    ∀ i,
      ((∃ y ∈ loopFrom 1 (imageData.height - 1), ∃ x ∈ loopFrom 1 (imageData.width - 1),
          i / 4 = y * imageData.width + x) → i % 4 < 3 → i < imageData.data.length →
        (edgePreservingSmooth M imageData).data.getD i 0 =
          storeDiv (edgeAcc M imageData.data imageData.width (i / 4 / imageData.width)
              (i / 4 % imageData.width) (i % 4)).1
            (edgeAcc M imageData.data imageData.width (i / 4 / imageData.width)
              (i / 4 % imageData.width) (i % 4)).2) ∧
      ((¬ ((∃ y ∈ loopFrom 1 (imageData.height - 1), ∃ x ∈ loopFrom 1 (imageData.width - 1),
          i / 4 = y * imageData.width + x) ∧ i % 4 < 3)) →
        (edgePreservingSmooth M imageData).data.getD i 0 = imageData.data.getD i 0) :=
  smooth_spec imageData.width _ _ (nodup_loopFrom _ _) (nodup_loopFrom _ _)
    (fun x hx => by rw [mem_loopFrom] at hx; omega)
    (edgeStep M imageData.data imageData.width)
    (fun y x c => storeDiv (edgeAcc M imageData.data imageData.width y x c).1
      (edgeAcc M imageData.data imageData.width y x c).2)
    (fun _ _ _ => storeDiv_le _ _)
    (fun y x l => edgeStep_length M imageData.data imageData.width y x l)
    (fun y x l i => edgeStep_getD M imageData.data imageData.width y x l i)
    imageData.data hv

/-- The output of `bilateralFilter` on a buffer of 8-bit samples: the R, G, B
samples of the pixels at distance at least 2 from the border hold the weighted
averages, every other sample is the one of the input. -/
theorem bilateralFilter_spec (M : JSMath) (imageData : ImageData)
    (hv : ∀ v ∈ imageData.data, v ≤ 255) :
    (bilateralFilter M imageData).data.length = imageData.data.length ∧
    ∀ i,
      ((∃ y ∈ loopFrom 2 (imageData.height - 2), ∃ x ∈ loopFrom 2 (imageData.width - 2),
          i / 4 = y * imageData.width + x) → i % 4 < 3 → i < imageData.data.length →
        (bilateralFilter M imageData).data.getD i 0 =
          storeDiv (bilateralAcc M imageData.data imageData.width (i / 4 / imageData.width)
              (i / 4 % imageData.width) (i % 4)).1
            (bilateralAcc M imageData.data imageData.width (i / 4 / imageData.width)
              (i / 4 % imageData.width) (i % 4)).2) ∧
      ((¬ ((∃ y ∈ loopFrom 2 (imageData.height - 2), ∃ x ∈ loopFrom 2 (imageData.width - 2),
          i / 4 = y * imageData.width + x) ∧ i % 4 < 3)) →
        (bilateralFilter M imageData).data.getD i 0 = imageData.data.getD i 0) :=
  smooth_spec imageData.width _ _ (nodup_loopFrom _ _) (nodup_loopFrom _ _)
    (fun x hx => by rw [mem_loopFrom] at hx; omega)
    (bilateralStep M imageData.data imageData.width)
    (fun y x c => storeDiv (bilateralAcc M imageData.data imageData.width y x c).1
      (bilateralAcc M imageData.data imageData.width y x c).2)
    (fun _ _ _ => storeDiv_le _ _)
    (fun y x l => bilateralStep_length M imageData.data imageData.width y x l)
    (fun y x l i => bilateralStep_getD M imageData.data imageData.width y x l i)
    imageData.data hv

theorem imageData_eq_of_data (a b : ImageData) (hw : a.width = b.width)
    (hh : a.height = b.height) (hd : a.data = b.data) : a = b := by
  cases a; cases b; simp_all

/-- C15: on a buffer of 8-bit samples `edgePreservingSmooth` leaves the 1-pixel
border unchanged: every sample of a pixel `(x, y)` with `x = 0`, `x = width - 1`,
`y = 0` or `y = height - 1` is the same after the call as before; and a buffer
with `width < 3` or `height < 3` is returned unchanged. -/
theorem edgePreservingSmooth_border (M : JSMath) (imageData : ImageData)
    (hv : ∀ v ∈ imageData.data, v ≤ 255) :
    (∀ y x c, y < imageData.height → x < imageData.width → c < 4 →
      (x = 0 ∨ x = imageData.width - 1 ∨ y = 0 ∨ y = imageData.height - 1) →
      (edgePreservingSmooth M imageData).data.getD ((y * imageData.width + x) * 4 + c) 0 =
        imageData.data.getD ((y * imageData.width + x) * 4 + c) 0) ∧
    ((imageData.width < 3 ∨ imageData.height < 3) →
      edgePreservingSmooth M imageData = imageData) := by
  obtain ⟨hlen, hspec⟩ := edgePreservingSmooth_spec M imageData hv
  constructor
  · intro y x c hy hx hc hb
    apply (hspec _).2
    rintro ⟨⟨y', hy', x', hx', e⟩, _⟩
    rw [mem_loopFrom] at hy' hx'
    have e' : y * imageData.width + x = y' * imageData.width + x' := by
      rw [← e]; omega
    obtain ⟨e1, e2⟩ := grid_pix_inj imageData.width y x y' x' hx (by omega) e'
    omega
  · intro hsmall
    refine imageData_eq_of_data (edgePreservingSmooth M imageData) imageData rfl rfl ?_
    apply list_ext_getD _ _ hlen
    intro i _
    apply (hspec i).2
    rintro ⟨⟨y', hy', x', hx', _⟩, _⟩
    rw [mem_loopFrom] at hy' hx'
    omega

/-- C15 (witness): the corner pixel of the 2x2 example image. -/
theorem edgePreservingSmooth_border_witness :
    (∀ v ∈ exampleSrc.data, v ≤ 255) ∧
    (edgePreservingSmooth exampleMath exampleSrc).data.getD
        ((1 * exampleSrc.width + 1) * 4 + 3) 0 =
      exampleSrc.data.getD ((1 * exampleSrc.width + 1) * 4 + 3) 0 ∧
    edgePreservingSmooth exampleMath exampleSrc = exampleSrc :=
  ⟨by decide,
    (edgePreservingSmooth_border exampleMath exampleSrc (by decide)).1 1 1 3 (by decide)
      (by decide) (by decide) (Or.inr (Or.inl (by decide))),
    (edgePreservingSmooth_border exampleMath exampleSrc (by decide)).2 (Or.inl (by decide))⟩

/-- C16: on a buffer of 8-bit samples `bilateralFilter` leaves the 2-pixel
margin unchanged: every sample of a pixel `(x, y)` with `x < 2`,
`x >= width - 2`, `y < 2` or `y >= height - 2` is the same after the call as
before; and a buffer with `width < 5` or `height < 5` is returned unchanged. -/
theorem bilateralFilter_margin (M : JSMath) (imageData : ImageData)
    (hv : ∀ v ∈ imageData.data, v ≤ 255) :
    (∀ y x c, y < imageData.height → x < imageData.width → c < 4 →
      (x < 2 ∨ imageData.width - 2 ≤ x ∨ y < 2 ∨ imageData.height - 2 ≤ y) →
      (bilateralFilter M imageData).data.getD ((y * imageData.width + x) * 4 + c) 0 =
        imageData.data.getD ((y * imageData.width + x) * 4 + c) 0) ∧
    ((imageData.width < 5 ∨ imageData.height < 5) →
      bilateralFilter M imageData = imageData) := by
  obtain ⟨hlen, hspec⟩ := bilateralFilter_spec M imageData hv
  constructor
  · intro y x c hy hx hc hb
    apply (hspec _).2
    rintro ⟨⟨y', hy', x', hx', e⟩, _⟩
    rw [mem_loopFrom] at hy' hx'
    have e' : y * imageData.width + x = y' * imageData.width + x' := by
      rw [← e]; omega
    obtain ⟨e1, e2⟩ := grid_pix_inj imageData.width y x y' x' hx (by omega) e'
    omega
  · intro hsmall
    refine imageData_eq_of_data (bilateralFilter M imageData) imageData rfl rfl ?_
    apply list_ext_getD _ _ hlen
    intro i _
    apply (hspec i).2
    rintro ⟨⟨y', hy', x', hx', _⟩, _⟩
    rw [mem_loopFrom] at hy' hx'
    omega

/-- C16 (witness): a pixel of the 2x2 example image. -/
theorem bilateralFilter_margin_witness :
    (∀ v ∈ exampleSrc.data, v ≤ 255) ∧
    (bilateralFilter exampleMath exampleSrc).data.getD
        ((1 * exampleSrc.width + 0) * 4 + 2) 0 =
      exampleSrc.data.getD ((1 * exampleSrc.width + 0) * 4 + 2) 0 ∧
    bilateralFilter exampleMath exampleSrc = exampleSrc :=
  ⟨by decide,
    (bilateralFilter_margin exampleMath exampleSrc (by decide)).1 1 0 2 (by decide)
      (by decide) (by decide) (Or.inl (by decide)),
    (bilateralFilter_margin exampleMath exampleSrc (by decide)).2 (Or.inl (by decide))⟩

/-! ## Dimensions -/

theorem foldl_length {α : Type} (f : List ℕ → α → List ℕ)
    (h : ∀ l a, (f l a).length = l.length) :
    ∀ (ks : List α) (l : List ℕ), (ks.foldl f l).length = l.length := by
  intro ks
  induction ks with
  | nil => intro l; rfl
  | cons a ks ih => intro l; rw [List.foldl_cons, ih, h]

theorem gridLoop_length (ys xs : List ℕ) (body : ℕ → ℕ → List ℕ → List ℕ)
    (h : ∀ y x l, (body y x l).length = l.length) (l : List ℕ) :
    (gridLoop ys xs body l).length = l.length := by
  unfold gridLoop
  apply foldl_length
  intro l y
  apply foldl_length
  intro l x
  exact h y x l

theorem pixelLoop_length (len : ℕ) (body : ℕ → List ℕ → List ℕ)
    (h : ∀ p l, (body p l).length = l.length) (l : List ℕ) :
    (pixelLoop len body l).length = l.length := by
  unfold pixelLoop
  apply foldl_length
  intro l p
  exact h p l

theorem copyBack_length (temp data : List ℕ) : (copyBack temp data).length = data.length := by
  unfold copyBack
  apply foldl_length
  intro l i
  simp [wr]

theorem sharpenStep_length (blurred : List ℕ) (amount : ℚ) (p : ℕ) (l : List ℕ) :
    (sharpenStep blurred amount p l).length = l.length := by
  simp [sharpenStep, range_three, wr]

theorem bilinearResample_dims (src dest : ImageData) (sw sh dw dh : ℕ) :
    (bilinearResample src dest sw sh dw dh).width = dest.width ∧
    (bilinearResample src dest sw sh dw dh).height = dest.height ∧
    (bilinearResample src dest sw sh dw dh).data.length = dest.data.length :=
  ⟨rfl, rfl, gridLoop_length _ _ _ (bilinearPixel_length src sw sh dw dh) _⟩

theorem bicubicResample_dims (src dest : ImageData) (sw sh dw dh : ℕ) :
    (bicubicResample src dest sw sh dw dh).width = dest.width ∧
    (bicubicResample src dest sw sh dw dh).height = dest.height ∧
    (bicubicResample src dest sw sh dw dh).data.length = dest.data.length :=
  ⟨rfl, rfl, gridLoop_length _ _ _ (bicubicPixel_length src sw sh dw dh) _⟩

theorem lanczosResample_dims (M : JSMath) (src dest : ImageData) (sw sh dw dh : ℕ) :
    (lanczosResample M src dest sw sh dw dh).width = dest.width ∧
    (lanczosResample M src dest sw sh dw dh).height = dest.height ∧
    (lanczosResample M src dest sw sh dw dh).data.length = dest.data.length :=
  ⟨rfl, rfl, gridLoop_length _ _ _ (lanczosPixel_length M src sw sh dw dh) _⟩

theorem edgePreservingSmooth_dims (M : JSMath) (img : ImageData) :
    (edgePreservingSmooth M img).width = img.width ∧
    (edgePreservingSmooth M img).height = img.height ∧
    (edgePreservingSmooth M img).data.length = img.data.length :=
  ⟨rfl, rfl, copyBack_length _ _⟩

theorem bilateralFilter_dims (M : JSMath) (img : ImageData) :
    (bilateralFilter M img).width = img.width ∧
    (bilateralFilter M img).height = img.height ∧
    (bilateralFilter M img).data.length = img.data.length :=
  ⟨rfl, rfl, copyBack_length _ _⟩

theorem unsharpMask_dims (img : ImageData) (amount : ℚ) :
    (unsharpMask img amount).width = img.width ∧
    (unsharpMask img amount).height = img.height ∧
    (unsharpMask img amount).data.length = img.data.length :=
  ⟨rfl, rfl, pixelLoop_length _ _ (sharpenStep_length _ amount) _⟩

theorem enhanceColors_dims (img : ImageData) :
    (enhanceColors img).width = img.width ∧
    (enhanceColors img).height = img.height ∧
    (enhanceColors img).data.length = img.data.length :=
  ⟨rfl, rfl, pixelLoop_length _ _ enhanceStep_length _⟩

theorem normalizeContrast_dims (img : ImageData) :
    (normalizeContrast img).width = img.width ∧
    (normalizeContrast img).height = img.height ∧
    (normalizeContrast img).data.length = img.data.length := by
  unfold normalizeContrast
  dsimp only
  split_ifs
  · exact ⟨rfl, rfl, pixelLoop_length _ _ (fun p l => (stretchStep_getD _ _ p l 0).1) _⟩
  · exact ⟨rfl, rfl, rfl⟩

theorem upscale_dims (M : JSMath) (method : String) (scale : ℕ) (srcData : ImageData) :
    ∃ out, upscale M method scale srcData = Except.ok out ∧
      out.width = srcData.width * scale ∧ out.height = srcData.height * scale ∧
      out.data.length = srcData.width * scale * (srcData.height * scale) * 4 := by
  refine ⟨_, rfl, ?_⟩
  have hc := createImageData_length (srcData.width * scale) (srcData.height * scale)
  split_ifs
  · obtain ⟨h1, h2, h3⟩ := lanczosResample_dims M srcData
      (createImageData (srcData.width * scale) (srcData.height * scale))
      srcData.width srcData.height (srcData.width * scale) (srcData.height * scale)
    exact ⟨h1, h2, h3.trans hc⟩
  · obtain ⟨h1, h2, h3⟩ := bicubicResample_dims srcData
      (createImageData (srcData.width * scale) (srcData.height * scale))
      srcData.width srcData.height (srcData.width * scale) (srcData.height * scale)
    exact ⟨h1, h2, h3.trans hc⟩
  · obtain ⟨h1, h2, h3⟩ := bilinearResample_dims srcData
      (createImageData (srcData.width * scale) (srcData.height * scale))
      srcData.width srcData.height (srcData.width * scale) (srcData.height * scale)
    exact ⟨h1, h2, h3.trans hc⟩
  · exact ⟨rfl, rfl, hc⟩

/-- C13: for every method (the three resamplers in particular), every source
and every scale, `upscale` returns a buffer of `srcW * scale` by `srcH * scale`
pixels holding `srcW * scale * srcH * scale * 4` samples; each of the five
in-place stages keeps the width, the height and the number of samples of the
buffer it is given, and so the buffer returned by `processImage` has these
dimensions too. -/
theorem upscale_dimensions (M : JSMath) (method : String) (scale : ℕ) (sharpening : ℚ)
    (srcData : ImageData) :
    (∃ out, upscale M method scale srcData = Except.ok out ∧
      out.width = srcData.width * scale ∧ out.height = srcData.height * scale ∧
      out.data.length = srcData.width * scale * (srcData.height * scale) * 4) ∧
    (∀ (img : ImageData) (amount : ℚ),
      ((edgePreservingSmooth M img).width = img.width ∧
        (edgePreservingSmooth M img).height = img.height ∧
        (edgePreservingSmooth M img).data.length = img.data.length) ∧
      ((unsharpMask img amount).width = img.width ∧
        (unsharpMask img amount).height = img.height ∧
        (unsharpMask img amount).data.length = img.data.length) ∧
      ((bilateralFilter M img).width = img.width ∧
        (bilateralFilter M img).height = img.height ∧
        (bilateralFilter M img).data.length = img.data.length) ∧
      ((enhanceColors img).width = img.width ∧
        (enhanceColors img).height = img.height ∧
        (enhanceColors img).data.length = img.data.length) ∧
      ((normalizeContrast img).width = img.width ∧
        (normalizeContrast img).height = img.height ∧
        (normalizeContrast img).data.length = img.data.length)) ∧
    (∃ final, processImage M method scale sharpening srcData = Except.ok final ∧
      final.width = srcData.width * scale ∧ final.height = srcData.height * scale ∧
      final.data.length = srcData.width * scale * (srcData.height * scale) * 4) := by
  refine ⟨upscale_dims M method scale srcData,
    fun img amount => ⟨edgePreservingSmooth_dims M img, unsharpMask_dims img amount,
      bilateralFilter_dims M img, enhanceColors_dims img, normalizeContrast_dims img⟩, ?_⟩
  obtain ⟨out, h0, h1, h2, h3⟩ := upscale_dims M method scale srcData
  refine ⟨_, processImage_ok M method scale sharpening srcData out h0, ?_⟩
  obtain ⟨n1, n2, n3⟩ := normalizeContrast_dims (enhanceColors (bilateralFilter M
    (if sharpening > 0 then unsharpMask (edgePreservingSmooth M out) sharpening
     else edgePreservingSmooth M out)))
  obtain ⟨c1, c2, c3⟩ := enhanceColors_dims (bilateralFilter M
    (if sharpening > 0 then unsharpMask (edgePreservingSmooth M out) sharpening
     else edgePreservingSmooth M out))
  obtain ⟨b1, b2, b3⟩ := bilateralFilter_dims M
    (if sharpening > 0 then unsharpMask (edgePreservingSmooth M out) sharpening
     else edgePreservingSmooth M out)
  obtain ⟨e1, e2, e3⟩ := edgePreservingSmooth_dims M out
  obtain ⟨u1, u2, u3⟩ := unsharpMask_dims (edgePreservingSmooth M out) sharpening
  rw [n1, n2, n3, c1, c2, c3, b1, b2, b3]
  split_ifs
  · rw [u1, u2, u3, e1, e2, e3]; exact ⟨h1, h2, h3⟩
  · rw [e1, e2, e3]; exact ⟨h1, h2, h3⟩

/-! ## Alpha channel -/

theorem sharpenStep_getD (blurred : List ℕ) (amount : ℚ) (p : ℕ) (l : List ℕ) (i : ℕ) :
    (sharpenStep blurred amount p l).getD i 0 =
      if 4 * p ≤ i ∧ i < 4 * p + 3 ∧ i < l.length then
        toUint8Clamp (max 0 (min 255 ((l.getD i 0 : ℚ)
          + amount * ((l.getD i 0 : ℚ) - (blurred.getD (4 * p + (i - 4 * p)) 0 : ℚ)))))
      else l.getD i 0 := by
  have key := getD_foldl_set_self (4 * p)
    (fun c v => toUint8Clamp (max 0 (min 255 ((v : ℚ)
      + amount * ((v : ℚ) - (blurred.getD (4 * p + c) 0 : ℚ)))))) l i 3
  simp only [sharpenStep, wr, rd_natCast]
  exact key.2

/-- The last loop of `unsharpMask`: every R, G, B sample is replaced by the
sharpened value, every alpha sample is kept. -/
theorem sharpen_getD (blurred : List ℕ) (amount : ℚ) (data : List ℕ) (i : ℕ)
    (hi : i < data.length) :
    (pixelLoop data.length (sharpenStep blurred amount) data).getD i 0 =
      if i % 4 < 3 then
        toUint8Clamp (max 0 (min 255 ((data.getD i 0 : ℚ)
          + amount * ((data.getD i 0 : ℚ) - (blurred.getD i 0 : ℚ)))))
      else data.getD i 0 := by
  have key := pixelLoop_local data.length (sharpenStep blurred amount) data (le_refl _)
    (sharpenStep_length blurred amount)
    (fun p l i hi => by rw [sharpenStep_getD, if_neg (by omega)])
    (fun p l hl hag i hi => by
      rw [sharpenStep_getD, sharpenStep_getD, hl, hag i hi])
  rw [key.2 i hi, sharpenStep_getD]
  by_cases h3 : i % 4 < 3
  · rw [if_pos ⟨by omega, by omega, hi⟩, if_pos h3]
    have : 4 * (i / 4) + (i - 4 * (i / 4)) = i := by omega
    rw [this]
  · rw [if_neg (by omega), if_neg h3]

theorem normalizeContrast_alpha (imageData : ImageData) (i : ℕ) (h3 : i % 4 = 3) :
    (normalizeContrast imageData).data.getD i 0 = imageData.data.getD i 0 := by
  unfold normalizeContrast
  dsimp only
  split_ifs
  · obtain ⟨dlen, dget⟩ := stretch_getD (contrastBounds imageData.data).1
      (((contrastBounds imageData.data).2 : ℤ) - (contrastBounds imageData.data).1)
      imageData.data
    by_cases hi : i < imageData.data.length
    · rw [dget i hi, if_neg (by omega)]
    · rw [getD_of_length_le _ _ (by rw [dlen]; omega), getD_of_length_le _ _ (by omega)]
  · rfl

theorem enhanceColors_alpha (imageData : ImageData) (i : ℕ) (h3 : i % 4 = 3) :
    (enhanceColors imageData).data.getD i 0 = imageData.data.getD i 0 := by
  rw [enhanceColors_getD]
  cases h : enhancePixel (imageData.data.getD (4 * (i / 4)) 0)
      (imageData.data.getD (4 * (i / 4) + 1) 0) (imageData.data.getD (4 * (i / 4) + 2) 0) with
  | none => rw [enhanceStep_none _ _ h]
  | some rgb =>
    rw [enhanceStep_some _ _ rgb h, getD_set_ne _ _ _ _ (by omega),
      getD_set_ne _ _ _ _ (by omega), getD_set_ne _ _ _ _ (by omega)]

theorem unsharpMask_alpha (imageData : ImageData) (amount : ℚ) (i : ℕ) (h3 : i % 4 = 3) :
    (unsharpMask imageData amount).data.getD i 0 = imageData.data.getD i 0 := by
  by_cases hi : i < imageData.data.length
  · simp only [unsharpMask]
    rw [sharpen_getD _ _ _ i hi, if_neg (by omega)]
  · rw [getD_of_length_le _ _ (by rw [(unsharpMask_dims imageData amount).2.2]; omega),
      getD_of_length_le _ _ (by omega)]

/-- C14: on a buffer of 8-bit samples every in-place stage leaves alpha
untouched: the sample of channel 3 of every pixel is the same after
`edgePreservingSmooth`, `unsharpMask` (any amount), `bilateralFilter`,
`enhanceColors` and `normalizeContrast` as before the call. -/
theorem stages_keep_alpha (M : JSMath) (imageData : ImageData)
    (hv : ∀ v ∈ imageData.data, v ≤ 255) (amount : ℚ) (p : ℕ) :
    (edgePreservingSmooth M imageData).data.getD (4 * p + 3) 0
      = imageData.data.getD (4 * p + 3) 0 ∧
    (unsharpMask imageData amount).data.getD (4 * p + 3) 0
      = imageData.data.getD (4 * p + 3) 0 ∧
    (bilateralFilter M imageData).data.getD (4 * p + 3) 0
      = imageData.data.getD (4 * p + 3) 0 ∧
    (enhanceColors imageData).data.getD (4 * p + 3) 0
      = imageData.data.getD (4 * p + 3) 0 ∧
    (normalizeContrast imageData).data.getD (4 * p + 3) 0
      = imageData.data.getD (4 * p + 3) 0 := by
  have h3 : (4 * p + 3) % 4 = 3 := by omega
  refine ⟨?_, unsharpMask_alpha imageData amount _ h3, ?_, enhanceColors_alpha imageData _ h3,
    normalizeContrast_alpha imageData _ h3⟩
  · exact ((edgePreservingSmooth_spec M imageData hv).2 _).2 (fun h => by omega)
  · exact ((bilateralFilter_spec M imageData hv).2 _).2 (fun h => by omega)

/-- C14 (witness): the alpha sample 7 of the second pixel of the
gray-and-colour example. -/
theorem stages_keep_alpha_witness :
    (∀ v ∈ exampleGrayColor.data, v ≤ 255) ∧
    (enhanceColors exampleGrayColor).data.getD (4 * 1 + 3) 0 = 7 ∧
    (normalizeContrast exampleGrayColor).data.getD (4 * 1 + 3) 0 = 7 :=
  ⟨by decide,
    (stages_keep_alpha exampleMath exampleGrayColor (by decide) 1 1).2.2.2.1,
    (stages_keep_alpha exampleMath exampleGrayColor (by decide) 1 1).2.2.2.2⟩

/-! ## Reads of the bilinear resampler -/

/-- The sample computed by `bilinearResample` reads the source exactly at the
four indices of `bilinearReads`. -/
theorem bilinearSample_reads (src : ImageData) (sw sh dw dh dy dx c : ℕ) :
    bilinearSample src sw sh dw dh dy dx c =
      ((rd src.data ((bilinearReads sw sh dw dh dy dx c).getD 0 0)
            * (1 - ((dx : ℚ) * ((sw : ℚ) / dw) - (bilinearNeighbours sw sh dw dh dy dx).1))
          + rd src.data ((bilinearReads sw sh dw dh dy dx c).getD 1 0)
            * ((dx : ℚ) * ((sw : ℚ) / dw) - (bilinearNeighbours sw sh dw dh dy dx).1))
        * (1 - ((dy : ℚ) * ((sh : ℚ) / dh) - (bilinearNeighbours sw sh dw dh dy dx).2.2.1))
      + (rd src.data ((bilinearReads sw sh dw dh dy dx c).getD 2 0)
            * (1 - ((dx : ℚ) * ((sw : ℚ) / dw) - (bilinearNeighbours sw sh dw dh dy dx).1))
          + rd src.data ((bilinearReads sw sh dw dh dy dx c).getD 3 0)
            * ((dx : ℚ) * ((sw : ℚ) / dw) - (bilinearNeighbours sw sh dw dh dy dx).1))
        * ((dy : ℚ) * ((sh : ℚ) / dh) - (bilinearNeighbours sw sh dw dh dy dx).2.2.1)) := rfl

theorem index_in_bounds (sw sh : ℕ) (Y X : ℤ) (hY0 : 0 ≤ Y) (hY : Y < sh) (hX0 : 0 ≤ X)
    (hX : X < sw) (c : ℕ) (hc : c < 4) :
    0 ≤ (Y * sw + X) * 4 + (c : ℤ) ∧ (Y * sw + X) * 4 + (c : ℤ) < ((sw * sh * 4 : ℕ) : ℤ) := by
  obtain ⟨y, rfl⟩ := Int.eq_ofNat_of_zero_le hY0
  obtain ⟨x, rfl⟩ := Int.eq_ofNat_of_zero_le hX0
  have hy : y < sh := by exact_mod_cast hY
  have hx : x < sw := by exact_mod_cast hX
  have e : (((y : ℤ) * sw + x) * 4 + (c : ℤ)) = (((y * sw + x) * 4 + c : ℕ) : ℤ) := by
    push_cast; ring
  rw [e]
  constructor
  · exact Int.ofNat_nonneg _
  · exact_mod_cast sample_lt sw sh y x c hy hx hc

/-- C17: `bilinearResample` never reads outside the source buffer.  For a
source of `sw * sh` pixels (`sw, sh >= 1`) and every destination pixel
`(dx, dy)` with `dx < dw`, `dy < dh` (in particular `dw = sw * scale`,
`dh = sh * scale`), the neighbour coordinates `x1, x2` lie in `[0, sw - 1]`,
`y1, y2` in `[0, sh - 1]`, and each of the four indices read, for every channel,
is a valid index of the source data. -/
theorem bilinear_reads_in_bounds (src : ImageData) (sw sh dw dh dy dx : ℕ)
    (hsw : 1 ≤ sw) (hsh : 1 ≤ sh) (hx : dx < dw) (hy : dy < dh)
    (hlen : src.data.length = sw * sh * 4) :
    (0 ≤ (bilinearNeighbours sw sh dw dh dy dx).1 ∧
      (bilinearNeighbours sw sh dw dh dy dx).1 ≤ (sw : ℤ) - 1) ∧
    (0 ≤ (bilinearNeighbours sw sh dw dh dy dx).2.1 ∧
      (bilinearNeighbours sw sh dw dh dy dx).2.1 ≤ (sw : ℤ) - 1) ∧
    (0 ≤ (bilinearNeighbours sw sh dw dh dy dx).2.2.1 ∧
      (bilinearNeighbours sw sh dw dh dy dx).2.2.1 ≤ (sh : ℤ) - 1) ∧
    (0 ≤ (bilinearNeighbours sw sh dw dh dy dx).2.2.2 ∧
      (bilinearNeighbours sw sh dw dh dy dx).2.2.2 ≤ (sh : ℤ) - 1) ∧
    ∀ c, c < 4 → ∀ idx ∈ bilinearReads sw sh dw dh dy dx c,
      0 ≤ idx ∧ idx < (src.data.length : ℤ) := by
  obtain ⟨hx0, hx1⟩ := floor_coord_bounds dx sw dw hx hsw
  obtain ⟨hy0, hy1⟩ := floor_coord_bounds dy sh dh hy hsh
  simp only [bilinearNeighbours]
  refine ⟨⟨hx0, by omega⟩, ⟨by omega, by omega⟩, ⟨hy0, by omega⟩, ⟨by omega, by omega⟩, ?_⟩
  intro c hc idx hidx
  rw [hlen]
  simp only [bilinearReads, bilinearNeighbours, List.mem_cons, List.mem_singleton,
    List.not_mem_nil, or_false] at hidx
  rcases hidx with h | h | h | h <;> subst h
  · exact index_in_bounds sw sh _ _ hy0 hy1 hx0 hx1 c hc
  · exact index_in_bounds sw sh _ _ hy0 hy1 (by omega) (by omega) c hc
  · exact index_in_bounds sw sh _ _ (by omega) (by omega) hx0 hx1 c hc
  · exact index_in_bounds sw sh _ _ (by omega) (by omega) (by omega) (by omega) c hc

/-- C17 (witness): destination pixel (3, 2) of the 2x2 example image upscaled
to 4x4. -/
theorem bilinear_reads_in_bounds_witness :
    1 ≤ 2 ∧ 3 < 2 * 2 ∧ 2 < 2 * 2 ∧ exampleSrc.data.length = 2 * 2 * 4 ∧
    ∀ c, c < 4 → ∀ idx ∈ bilinearReads 2 2 (2 * 2) (2 * 2) 2 3 c,
      0 ≤ idx ∧ idx < (exampleSrc.data.length : ℤ) :=
  ⟨by decide, by decide, by decide, by decide,
    (bilinear_reads_in_bounds exampleSrc 2 2 (2 * 2) (2 * 2) 2 3 (by decide) (by decide)
      (by decide) (by decide) (by decide)).2.2.2.2⟩

/-! ## Resampling on the source grid -/

/-- A grid loop whose body for `(y, x)` writes only the samples of pixel
`y * w + x`, with values that do not depend on the array written: every sample
of a pixel visited is the one the body stores in the initial array. -/
theorem gridLoop_body_spec (w : ℕ) (ys xs : List ℕ) (body : ℕ → ℕ → List ℕ → List ℕ)
    (l0 : List ℕ) (hys : ys.Nodup) (hxs : xs.Nodup) (hx : ∀ x ∈ xs, x < w)
    (hlen : ∀ y x l, (body y x l).length = l.length)
    (hother : ∀ y ∈ ys, ∀ x ∈ xs, ∀ l i, i / 4 ≠ y * w + x →
      (body y x l).getD i 0 = l.getD i 0)
    (hindep : ∀ y ∈ ys, ∀ x ∈ xs, ∀ l, l.length = l0.length → ∀ i, i / 4 = y * w + x →
      i < l0.length → (body y x l).getD i 0 = (body y x l0).getD i 0) :
    ∀ y ∈ ys, ∀ x ∈ xs, ∀ i, i / 4 = y * w + x → i < l0.length →
      (gridLoop ys xs body l0).getD i 0 = (body y x l0).getD i 0 := by
  have key := gridLoop_spec w ys xs body
    (fun i => (body (i / 4 / w) (i / 4 % w) l0).getD i 0) l0 hys hxs hx hlen hother
    (fun y hy x hxm l hl _ i hi hil => by
      obtain ⟨d1, d2⟩ := grid_div_mod w y x (hx x hxm)
      simp only [hi, d1, d2]
      exact hindep y hy x hxm l hl i hi hil)
  intro y hy x hxm i hi hil
  obtain ⟨d1, d2⟩ := grid_div_mod w y x (hx x hxm)
  rw [(key.2 i hil).1 ⟨y, hy, x, hxm, hi⟩]
  simp only [hi, d1, d2]

theorem bilinearPixel_indep (src : ImageData) (sw sh dw dh y x : ℕ) (l l0 : List ℕ)
    (hl : l.length = l0.length) (i : ℕ) :
    i / 4 = y * dw + x → i < l0.length →
    (bilinearPixel src sw sh dw dh y x l).getD i 0 =
      (bilinearPixel src sw sh dw dh y x l0).getD i 0 := by
  intro hi hil
  rw [bilinearPixel_getD, bilinearPixel_getD, hl, if_pos ⟨by omega, by omega, hil⟩,
    if_pos ⟨by omega, by omega, hil⟩]

theorem bicubicPixel_indep (src : ImageData) (sw sh dw dh y x : ℕ) (l l0 : List ℕ)
    (hl : l.length = l0.length) (i : ℕ) :
    i / 4 = y * dw + x → i < l0.length →
    (bicubicPixel src sw sh dw dh y x l).getD i 0 =
      (bicubicPixel src sw sh dw dh y x l0).getD i 0 := by
  intro hi hil
  simp only [bicubicPixel, wr]
  have hc : i = (y * dw + x) * 4 ∨ i = (y * dw + x) * 4 + 1 ∨
      i = (y * dw + x) * 4 + 2 ∨ i = (y * dw + x) * 4 + 3 := by omega
  rcases hc with h | h | h | h <;> subst h
  · rw [getD_set_ne _ _ _ _ (by omega), getD_set_ne _ _ _ _ (by omega),
      getD_set_ne _ _ _ _ (by omega), getD_set_eq _ _ _ (by omega),
      getD_set_ne _ _ _ _ (by omega), getD_set_ne _ _ _ _ (by omega),
      getD_set_ne _ _ _ _ (by omega), getD_set_eq _ _ _ (by omega)]
  · rw [getD_set_ne _ _ _ _ (by omega), getD_set_ne _ _ _ _ (by omega),
      getD_set_eq _ _ _ (by simp; omega),
      getD_set_ne _ _ _ _ (by omega), getD_set_ne _ _ _ _ (by omega),
      getD_set_eq _ _ _ (by simp; omega)]
  · rw [getD_set_ne _ _ _ _ (by omega), getD_set_eq _ _ _ (by simp; omega),
      getD_set_ne _ _ _ _ (by omega), getD_set_eq _ _ _ (by simp; omega)]
  · rw [getD_set_eq _ _ _ (by simp; omega), getD_set_eq _ _ _ (by simp; omega)]

/-- The samples of destination pixel `(x, y)` after `bilinearResample` are the
ones its loop body stores. -/
theorem bilinearResample_getD (src dest : ImageData) (sw sh dw dh y x i : ℕ)
    (hy : y < dh) (hx : x < dw) (hi : i / 4 = y * dw + x) (hil : i < dest.data.length) :
    (bilinearResample src dest sw sh dw dh).data.getD i 0 =
      (bilinearPixel src sw sh dw dh y x dest.data).getD i 0 :=
  gridLoop_body_spec dw (List.range dh) (List.range dw) (bilinearPixel src sw sh dw dh)
    dest.data (List.nodup_range _) (List.nodup_range _) (fun _ ha => List.mem_range.mp ha)
    (fun y x l => bilinearPixel_length src sw sh dw dh y x l)
    (fun y _ x _ l i hi => bilinearPixel_other src sw sh dw dh y x l i hi)
    (fun y _ x _ l hl i hi hil => bilinearPixel_indep src sw sh dw dh y x l dest.data hl i hi hil)
    y (List.mem_range.mpr hy) x (List.mem_range.mpr hx) i hi hil

/-- The samples of destination pixel `(x, y)` after `bicubicResample` are the
ones its loop body stores. -/
theorem bicubicResample_getD (src dest : ImageData) (sw sh dw dh y x i : ℕ)
    (hy : y < dh) (hx : x < dw) (hi : i / 4 = y * dw + x) (hil : i < dest.data.length) :
    (bicubicResample src dest sw sh dw dh).data.getD i 0 =
      (bicubicPixel src sw sh dw dh y x dest.data).getD i 0 :=
  gridLoop_body_spec dw (List.range dh) (List.range dw) (bicubicPixel src sw sh dw dh)
    dest.data (List.nodup_range _) (List.nodup_range _) (fun _ ha => List.mem_range.mp ha)
    (fun y x l => bicubicPixel_length src sw sh dw dh y x l)
    (fun y _ x _ l i hi => bicubicPixel_other src sw sh dw dh y x l i hi)
    (fun y _ x _ l hl i hi hil => bicubicPixel_indep src sw sh dw dh y x l dest.data hl i hi hil)
    y (List.mem_range.mpr hy) x (List.mem_range.mpr hx) i hi hil

theorem integer_scale_coord (x s scale : ℕ) (hs : 0 < s) (hscale : 1 ≤ scale) :
    ((x * scale : ℕ) : ℚ) * ((s : ℚ) / ((s * scale : ℕ) : ℚ)) = x := by
  have h1 : (s : ℚ) ≠ 0 := by exact_mod_cast hs.ne'
  have h2 : (scale : ℚ) ≠ 0 := by
    have : 0 < scale := by omega
    exact_mod_cast this.ne'
  push_cast
  field_simp
  ring

/-- C18: at every integer scale the bilinear and the bicubic resampler
interpolate the source grid: for a source of 8-bit samples read as `sw * sh`
pixels and `dw = sw * scale`, `dh = sh * scale`, the destination pixel
`(x * scale, y * scale)` has the four samples of source pixel `(x, y)`. -/
theorem resample_interpolates_grid (src dest : ImageData) (sw sh scale : ℕ)
    (hscale : 1 ≤ scale) (hv : ∀ v ∈ src.data, v ≤ 255)
    (hdest : dest.data.length = sw * scale * (sh * scale) * 4)
    (y x c : ℕ) (hy : y < sh) (hx : x < sw) (hc : c < 4) :
    (bilinearResample src dest sw sh (sw * scale) (sh * scale)).data.getD
        ((y * scale * (sw * scale) + x * scale) * 4 + c) 0 =
      src.data.getD ((y * sw + x) * 4 + c) 0 ∧
    (bicubicResample src dest sw sh (sw * scale) (sh * scale)).data.getD
        ((y * scale * (sw * scale) + x * scale) * 4 + c) 0 =
      src.data.getD ((y * sw + x) * 4 + c) 0 := by
  have hX := integer_scale_coord x sw scale (by omega) hscale
  have hY := integer_scale_coord y sh scale (by omega) hscale
  have hys : y * scale < sh * scale := Nat.mul_lt_mul_of_pos_right hy (by omega)
  have hxs : x * scale < sw * scale := Nat.mul_lt_mul_of_pos_right hx (by omega)
  have hi : ((y * scale * (sw * scale) + x * scale) * 4 + c) / 4
      = y * scale * (sw * scale) + x * scale := by omega
  have hil : (y * scale * (sw * scale) + x * scale) * 4 + c < dest.data.length := by
    rw [hdest]
    exact sample_lt (sw * scale) (sh * scale) (y * scale) (x * scale) c hys hxs hc
  have hmod : ((y * scale * (sw * scale) + x * scale) * 4 + c) % 4 = c := by omega
  constructor
  · rw [bilinearResample_getD src dest sw sh (sw * scale) (sh * scale) (y * scale) (x * scale)
        _ hys hxs hi hil,
      bilinearPixel_exact_src src hv sw sh (sw * scale) (sh * scale) (y * scale) (x * scale)
        x y hX hY dest.data _ hi hil, hmod]
  · rw [bicubicResample_getD src dest sw sh (sw * scale) (sh * scale) (y * scale) (x * scale)
        _ hys hxs hi hil,
      bicubicPixel_exact_src src hv sw sh (sw * scale) (sh * scale) (y * scale) (x * scale)
        x y hX hY hx hy dest.data _ hi hil, hmod]

/-- C18 (witness): source pixel (1, 1) of the 2x2 example image at scale 3 is
destination pixel (3, 3). -/
theorem resample_interpolates_grid_witness :
    1 ≤ 3 ∧ (∀ v ∈ exampleSrc.data, v ≤ 255) ∧
    (createImageData (2 * 3) (2 * 3)).data.length = 2 * 3 * (2 * 3) * 4 ∧
    (bilinearResample exampleSrc (createImageData (2 * 3) (2 * 3)) 2 2 (2 * 3)
        (2 * 3)).data.getD ((1 * 3 * (2 * 3) + 1 * 3) * 4 + 3) 0 =
      exampleSrc.data.getD ((1 * 2 + 1) * 4 + 3) 0 :=
  ⟨by decide, by decide, createImageData_length _ _,
    (resample_interpolates_grid exampleSrc (createImageData (2 * 3) (2 * 3)) 2 2 3
      (by decide) (by decide) (createImageData_length _ _) 1 1 3 (by decide) (by decide)
      (by decide)).1⟩

/-! ## Order of the percentile bounds -/

/-- The percentile scan of the histogram of a non-empty buffer stops at a bucket
`r` of the list, and at most 1% of the pixels have their bucket among those
scanned before `r`. -/
theorem scan_count_before (data : List ℕ) (hv : ∀ v ∈ data, v ≤ 255) (n : ℕ)
    (hlen : data.length = n * 4) (hn : 0 < n) (is : List ℕ) (hnd : is.Nodup)
    (hsum : (is.map (fun j => (histogramOf data).getD j 0)).sum = n) (dflt : ℕ) :
    ∃ pre post,
      is = pre ++ percentileScan (histogramOf data) ((data.length : ℚ) / 4 * 0.01) dflt is 0
        :: post ∧
      (((List.range n).countP (fun p => decide (bucketOf data p ∈ pre)) : ℕ) : ℚ) ≤
        (n : ℚ) / 100 := by
  obtain ⟨_, _, k3⟩ := histogramOf_spec data hv
  have hN : (data.length + 3) / 4 = n := by rw [hlen]; omega
  rw [hN] at k3
  have hthr : (data.length : ℚ) / 4 * 0.01 = (n : ℚ) / 100 := by
    rw [hlen]; push_cast; ring
  have hnq : (0 : ℚ) < n := by exact_mod_cast hn
  have h1 : ((0 : ℕ) : ℚ) ≤ (data.length : ℚ) / 4 * 0.01 := by
    rw [hthr]; simp only [Nat.cast_zero]; positivity
  have h2 : (data.length : ℚ) / 4 * 0.01 <
      ((0 + (is.map (fun j => (histogramOf data).getD j 0)).sum : ℕ) : ℚ) := by
    rw [hsum, hthr, Nat.zero_add]; linarith
  obtain ⟨pre, post, e1, e2, _⟩ :=
    percentileScan_found (histogramOf data) _ dflt is 0 h1 h2
  refine ⟨pre, post, e1, ?_⟩
  have hnd' : pre.Nodup := by
    rw [e1] at hnd
    exact List.Nodup.of_append_left hnd
  have hcount := sum_countP_buckets (bucketOf data) (List.range n) _ hnd'
  have hfun : (fun j => (histogramOf data).getD j 0) =
      (fun j => (List.range n).countP (fun p => decide (bucketOf data p = j))) := by
    funext j; exact k3 j
  rw [← hcount, ← hfun, ← hthr]
  rw [Nat.zero_add] at e2
  exact e2

theorem countP_or_le (P Q : ℕ → Bool) :
    ∀ l : List ℕ, l.countP (fun p => P p || Q p) ≤ l.countP P + l.countP Q := by
  intro l
  induction l with
  | nil => simp
  | cons a l ih =>
    simp only [List.countP_cons]
    cases hP : P a <;> cases hQ : Q a <;> simp <;> omega

/-- On a non-empty buffer of 8-bit samples the lower percentile bound is at most
the upper one. -/
theorem contrastBounds_le (data : List ℕ) (hv : ∀ v ∈ data, v ≤ 255) (n : ℕ)
    (hlen : data.length = n * 4) (hn : 0 < n) :
    (contrastBounds data).1 ≤ (contrastBounds data).2 := by
  by_contra hlt
  rw [not_le] at hlt
  obtain ⟨pre, post, e1, c1⟩ := scan_count_before data hv n hlen hn (List.range 256)
    (List.nodup_range _) (sum_map_range_hist data hv n hlen) 0
  obtain ⟨pre', post', e2, c2⟩ := scan_count_before data hv n hlen hn (List.range 256).reverse
    (List.nodup_reverse.mpr (List.nodup_range _))
    (sum_map_range_reverse_hist data hv n hlen) 255
  have hmn : (contrastBounds data).1 =
      percentileScan (histogramOf data) ((data.length : ℚ) / 4 * 0.01) 0 (List.range 256) 0 :=
    rfl
  have hmx : (contrastBounds data).2 =
      percentileScan (histogramOf data) ((data.length : ℚ) / 4 * 0.01) 255
        (List.range 256).reverse 0 := rfl
  rw [← hmn] at e1
  rw [← hmx] at e2
  have s1 := List.pairwise_lt_range 256
  rw [e1, List.pairwise_append] at s1
  have s2 : List.Pairwise (fun a b => b < a) (List.range 256).reverse := by
    rw [List.pairwise_reverse]
    exact List.pairwise_lt_range 256
  rw [e2, List.pairwise_append] at s2
  -- every pixel has its bucket before `min` or, scanning downwards, before `max`
  have hall : ∀ p ∈ List.range n,
      (decide (bucketOf data p ∈ pre) || decide (bucketOf data p ∈ pre')) = true := by
    intro p _
    have hb : bucketOf data p ∈ List.range 256 := List.mem_range.mpr (bucketOf_lt data hv p)
    have hb' : bucketOf data p ∈ (List.range 256).reverse := List.mem_reverse.mpr hb
    rw [e1] at hb
    rw [e2] at hb'
    simp only [List.mem_append, List.mem_cons] at hb hb'
    simp only [Bool.or_eq_true, decide_eq_true_eq]
    by_cases hpre : bucketOf data p ∈ pre
    · exact Or.inl hpre
    · right
      have hge : (contrastBounds data).1 ≤ bucketOf data p := by
        rcases hb with h | h | h
        · exact absurd h hpre
        · exact le_of_eq h.symm
        · exact le_of_lt ((List.pairwise_cons.mp s1.2.1).1 _ h)
      rcases hb' with h | h | h
      · exact h
      · omega
      · have := (List.pairwise_cons.mp s2.2.1).1 _ h
        omega
  have hcount : (List.range n).countP
      (fun p => decide (bucketOf data p ∈ pre) || decide (bucketOf data p ∈ pre')) = n := by
    rw [List.countP_eq_length.mpr hall, List.length_range]
  have hle := countP_or_le (fun p => decide (bucketOf data p ∈ pre))
    (fun p => decide (bucketOf data p ∈ pre')) (List.range n)
  rw [hcount] at hle
  have hleq : (n : ℚ) ≤
      (((List.range n).countP (fun p => decide (bucketOf data p ∈ pre)) : ℕ) : ℚ) +
      (((List.range n).countP (fun p => decide (bucketOf data p ∈ pre')) : ℕ) : ℚ) := by
    exact_mod_cast hle
  have hnq : (0 : ℚ) < n := by exact_mod_cast hn
  linarith

/-- C19: on a well-formed buffer with at least one pixel the percentile bounds
computed by `normalizeContrast` are ordered, `min <= max`; so `range = max - min`
is not negative, and the test `range > 0` holds exactly when `max > min` and
fails exactly when `max = min`. -/
theorem contrastBounds_ordered (imageData : ImageData) (hwf : imageData.WF)
    (hne : 0 < imageData.width * imageData.height) :
    (contrastBounds imageData.data).1 ≤ (contrastBounds imageData.data).2 ∧
    0 ≤ ((contrastBounds imageData.data).2 : ℤ) - (contrastBounds imageData.data).1 ∧
    (((contrastBounds imageData.data).2 : ℤ) - (contrastBounds imageData.data).1 > 0 ↔
      (contrastBounds imageData.data).1 < (contrastBounds imageData.data).2) ∧
    (¬ (((contrastBounds imageData.data).2 : ℤ) - (contrastBounds imageData.data).1 > 0) ↔
      (contrastBounds imageData.data).2 = (contrastBounds imageData.data).1) := by
  have h := contrastBounds_le imageData.data hwf.2 _ hwf.1 hne
  refine ⟨h, by omega, by omega, by omega⟩

/-- C19 (witness): the three-pixel example, whose bounds are 29 and 76. -/
theorem contrastBounds_ordered_witness :
    exampleContrast.WF ∧ 0 < exampleContrast.width * exampleContrast.height ∧
    (contrastBounds exampleContrast.data).1 ≤ (contrastBounds exampleContrast.data).2 :=
  ⟨by decide, by decide, (contrastBounds_ordered exampleContrast (by decide) (by decide)).1⟩

/-! ## The cubic kernel -/

theorem cubicWeight_inner (x : ℚ) (h : |x| ≤ 1) :
    cubicWeight x = 1.5 * |x| * |x| * |x| - 2.5 * |x| * |x| + 1 := by
  unfold cubicWeight
  dsimp only
  rw [if_pos h]

theorem cubicWeight_outer (x : ℚ) (h1 : 1 < |x|) (h2 : |x| < 2) :
    cubicWeight x = -0.5 * |x| * |x| * |x| + 2.5 * |x| * |x| - 4 * |x| + 2 := by
  unfold cubicWeight
  dsimp only
  rw [if_neg (not_le.mpr h1), if_pos h2]

/-- The four cubic weights used at a fractional offset `t` add up to 1. -/
theorem cubicWeight_sum (t : ℚ) (h0 : 0 ≤ t) (h1 : t < 1) :
    cubicWeight (-1 - t) + cubicWeight (0 - t) + cubicWeight (1 - t) + cubicWeight (2 - t)
      = 1 := by
  rcases eq_or_lt_of_le h0 with h | hpos
  · subst h
    norm_num [cubicWeight_neg_one, cubicWeight_zero, cubicWeight_one, cubicWeight_two]
  · have a1 : |(-1 : ℚ) - t| = 1 + t := by
      rw [abs_of_neg (by linarith)]; ring
    have a2 : |(0 : ℚ) - t| = t := by
      rw [abs_of_neg (by linarith)]; ring
    have a3 : |(1 : ℚ) - t| = 1 - t := abs_of_pos (by linarith)
    have a4 : |(2 : ℚ) - t| = 2 - t := abs_of_pos (by linarith)
    rw [cubicWeight_outer _ (by rw [a1]; linarith) (by rw [a1]; linarith),
      cubicWeight_inner _ (by rw [a2]; linarith),
      cubicWeight_inner _ (by rw [a3]; linarith),
      cubicWeight_outer _ (by rw [a4]; linarith) (by rw [a4]; linarith), a1, a2, a3, a4]
    norm_num
    ring

theorem weights16 (k a0 a1 a2 a3 b0 b1 b2 b3 : ℚ) (ha : a0 + a1 + a2 + a3 = 1)
    (hb : b0 + b1 + b2 + b3 = 1) :
    0 + k * (a0 * b0) + k * (a1 * b0) + k * (a2 * b0) + k * (a3 * b0)
      + k * (a0 * b1) + k * (a1 * b1) + k * (a2 * b1) + k * (a3 * b1)
      + k * (a0 * b2) + k * (a1 * b2) + k * (a2 * b2) + k * (a3 * b2)
      + k * (a0 * b3) + k * (a1 * b3) + k * (a2 * b3) + k * (a3 * b3) = k := by
  linear_combination (k * (b0 + b1 + b2 + b3)) * ha + k * hb

theorem fract_bounds (x : ℚ) : 0 ≤ x - (⌊x⌋ : ℚ) ∧ x - (⌊x⌋ : ℚ) < 1 := by
  constructor
  · linarith [Int.floor_le x]
  · linarith [Int.lt_floor_add_one x]

/-- On a source whose pixels are all `(k 0, k 1, k 2, k 3)` the accumulators of
`bicubicResample` hold that pixel. -/
theorem bicubicAcc_uniform (src : ImageData) (k : ℕ → ℕ) (sw sh dw dh dy dx : ℕ)
    (hlen : src.data.length = sw * sh * 4) (hu : IsUniform src.data k)
    (hsw : 0 < sw) (hsh : 0 < sh) :
    bicubicAcc src sw sh dw dh dy dx = ((k 0 : ℚ), (k 1 : ℚ), (k 2 : ℚ), (k 3 : ℚ)) := by
  have R := rd_uniform src.data k sw sh hlen hu
  have R0 : ∀ m n : ℤ, rd src.data
      ((max 0 (min ((sh : ℤ) - 1) (⌊(dy : ℚ) * ((sh : ℚ) / dh)⌋ + m)) * sw
        + max 0 (min ((sw : ℤ) - 1) (⌊(dx : ℚ) * ((sw : ℚ) / dw)⌋ + n))) * 4) = k 0 := by
    intro m n
    have := R (max 0 (min ((sh : ℤ) - 1) (⌊(dy : ℚ) * ((sh : ℚ) / dh)⌋ + m)))
      (max 0 (min ((sw : ℤ) - 1) (⌊(dx : ℚ) * ((sw : ℚ) / dw)⌋ + n)))
      (by omega) (by omega) (by omega) (by omega) 0 (by omega)
    simpa using this
  have R1 : ∀ m n : ℤ, rd src.data
      ((max 0 (min ((sh : ℤ) - 1) (⌊(dy : ℚ) * ((sh : ℚ) / dh)⌋ + m)) * sw
        + max 0 (min ((sw : ℤ) - 1) (⌊(dx : ℚ) * ((sw : ℚ) / dw)⌋ + n))) * 4 + 1) = k 1 := by
    intro m n
    have := R (max 0 (min ((sh : ℤ) - 1) (⌊(dy : ℚ) * ((sh : ℚ) / dh)⌋ + m)))
      (max 0 (min ((sw : ℤ) - 1) (⌊(dx : ℚ) * ((sw : ℚ) / dw)⌋ + n)))
      (by omega) (by omega) (by omega) (by omega) 1 (by omega)
    simpa using this
  have R2 : ∀ m n : ℤ, rd src.data
      ((max 0 (min ((sh : ℤ) - 1) (⌊(dy : ℚ) * ((sh : ℚ) / dh)⌋ + m)) * sw
        + max 0 (min ((sw : ℤ) - 1) (⌊(dx : ℚ) * ((sw : ℚ) / dw)⌋ + n))) * 4 + 2) = k 2 := by
    intro m n
    have := R (max 0 (min ((sh : ℤ) - 1) (⌊(dy : ℚ) * ((sh : ℚ) / dh)⌋ + m)))
      (max 0 (min ((sw : ℤ) - 1) (⌊(dx : ℚ) * ((sw : ℚ) / dw)⌋ + n)))
      (by omega) (by omega) (by omega) (by omega) 2 (by omega)
    simpa using this
  have R3 : ∀ m n : ℤ, rd src.data
      ((max 0 (min ((sh : ℤ) - 1) (⌊(dy : ℚ) * ((sh : ℚ) / dh)⌋ + m)) * sw
        + max 0 (min ((sw : ℤ) - 1) (⌊(dx : ℚ) * ((sw : ℚ) / dw)⌋ + n))) * 4 + 3) = k 3 := by
    intro m n
    have := R (max 0 (min ((sh : ℤ) - 1) (⌊(dy : ℚ) * ((sh : ℚ) / dh)⌋ + m)))
      (max 0 (min ((sw : ℤ) - 1) (⌊(dx : ℚ) * ((sw : ℚ) / dw)⌋ + n)))
      (by omega) (by omega) (by omega) (by omega) 3 (by omega)
    simpa using this
  obtain ⟨fx0, fx1⟩ := fract_bounds ((dx : ℚ) * ((sw : ℚ) / dw))
  obtain ⟨fy0, fy1⟩ := fract_bounds ((dy : ℚ) * ((sh : ℚ) / dh))
  have P1 := cubicWeight_sum _ fx0 fx1
  have P2 := cubicWeight_sum _ fy0 fy1
  simp only [bicubicAcc, List.foldl_cons, List.foldl_nil, R0, R1, R2, R3, Int.cast_neg,
    Int.cast_one, Int.cast_zero, Int.cast_ofNat]
  refine Prod.ext ?_ (Prod.ext ?_ (Prod.ext ?_ ?_))
  · exact weights16 _ _ _ _ _ _ _ _ _ P1 P2
  · exact weights16 _ _ _ _ _ _ _ _ _ P1 P2
  · exact weights16 _ _ _ _ _ _ _ _ _ P1 P2
  · exact weights16 _ _ _ _ _ _ _ _ _ P1 P2

theorem bicubicPixel_uniform (src : ImageData) (k : ℕ → ℕ) (sw sh dw dh dy dx : ℕ)
    (hlen : src.data.length = sw * sh * 4) (hu : IsUniform src.data k)
    (hk : ∀ c, c < 4 → k c ≤ 255) (hsw : 0 < sw) (hsh : 0 < sh)
    (dest : List ℕ) (i : ℕ) (hi : i / 4 = dy * dw + dx) (hil : i < dest.length) :
    (bicubicPixel src sw sh dw dh dy dx dest).getD i 0 = k (i % 4) := by
  simp only [bicubicPixel, wr, bicubicAcc_uniform src k sw sh dw dh dy dx hlen hu hsw hsh,
    clamp_natCast _ (hk 0 (by omega)), clamp_natCast _ (hk 1 (by omega)),
    clamp_natCast _ (hk 2 (by omega)), clamp_natCast _ (hk 3 (by omega)),
    toUint8Clamp_natCast _ (hk 0 (by omega)), toUint8Clamp_natCast _ (hk 1 (by omega)),
    toUint8Clamp_natCast _ (hk 2 (by omega)), toUint8Clamp_natCast _ (hk 3 (by omega))]
  have hc : i = (dy * dw + dx) * 4 ∨ i = (dy * dw + dx) * 4 + 1 ∨
      i = (dy * dw + dx) * 4 + 2 ∨ i = (dy * dw + dx) * 4 + 3 := by omega
  rcases hc with h | h | h | h <;> subst h
  · rw [getD_set_ne _ _ _ _ (by omega), getD_set_ne _ _ _ _ (by omega),
      getD_set_ne _ _ _ _ (by omega), getD_set_eq _ _ _ hil]
    congr 1; omega
  · rw [getD_set_ne _ _ _ _ (by omega), getD_set_ne _ _ _ _ (by omega),
      getD_set_eq _ _ _ (by simpa using hil)]
    congr 1; omega
  · rw [getD_set_ne _ _ _ _ (by omega), getD_set_eq _ _ _ (by simpa using hil)]
    congr 1; omega
  · rw [getD_set_eq _ _ _ (by simpa using hil)]
    congr 1; omega

/-- C20: the cubic kernel is a partition of unity, and `bicubicResample`
preserves constants. For every offset `t` with `0 <= t < 1` the four weights
`cubicWeight (-1 - t)`, `cubicWeight (-t)`, `cubicWeight (1 - t)` and
`cubicWeight (2 - t)` add up to 1; and for a source of `sw * sh` pixels
(`sw, sh >= 1`) of 8-bit samples that are all the pixel `(k 0, k 1, k 2, k 3)`,
and a destination of any size `dw * dh`, every pixel `bicubicResample` leaves in
the destination is that pixel. -/
theorem bicubic_preserves_constants (t : ℚ) (ht0 : 0 ≤ t) (ht1 : t < 1)
    (src dest : ImageData) (k : ℕ → ℕ) (sw sh dw dh : ℕ)
    (hlen : src.data.length = sw * sh * 4) (hv : ∀ v ∈ src.data, v ≤ 255)
    (hu : IsUniform src.data k) (hsw : 0 < sw) (hsh : 0 < sh)
    (hdest : dest.data.length = dw * dh * 4) :
    cubicWeight (-1 - t) + cubicWeight (-t) + cubicWeight (1 - t) + cubicWeight (2 - t) = 1 ∧
    (bicubicResample src dest sw sh dw dh).data.length = dw * dh * 4 ∧
    IsUniform (bicubicResample src dest sw sh dw dh).data k := by
  have hpos : 0 < sw * sh := Nat.mul_pos hsw hsh
  have hk : ∀ c, c < 4 → k c ≤ 255 := by
    intro c hc
    have h1 := hu c (by omega)
    rw [Nat.mod_eq_of_lt hc] at h1
    rw [← h1]
    exact getD_le _ hv _
  have hl : (bicubicResample src dest sw sh dw dh).data.length = dw * dh * 4 := by
    rw [(bicubicResample_dims src dest sw sh dw dh).2.2, hdest]
  refine ⟨?_, hl, ?_⟩
  · have h := cubicWeight_sum t ht0 ht1
    rwa [zero_sub] at h
  · intro i hi
    rw [hl] at hi
    obtain ⟨y, hy, x, hx, hyx⟩ := exists_grid_coord dw dh i hi
    rw [bicubicResample_getD src dest sw sh dw dh y x i (List.mem_range.mp hy)
      (List.mem_range.mp hx) hyx (by omega)]
    exact bicubicPixel_uniform src k sw sh dw dh y x hlen hu hk hsw hsh dest.data i hyx
      (by omega)

/-- C20 (witness): at `t = 1/3` the four weights add up to 1, and the 2x2 image
of (128, 128, 128, 255) resampled to 3x5 is uniform with the same pixel. -/
theorem bicubic_preserves_constants_witness :
    ((0 : ℚ) ≤ 1 / 3 ∧ (1 / 3 : ℚ) < 1) ∧
    (exampleGray.data.length = 2 * 2 * 4 ∧ (∀ v ∈ exampleGray.data, v ≤ 255) ∧
      IsUniform exampleGray.data (grayPixel 128 255) ∧
      (createImageData 3 5).data.length = 3 * 5 * 4) ∧
    (cubicWeight (-1 - 1 / 3) + cubicWeight (-(1 / 3)) + cubicWeight (1 - 1 / 3)
        + cubicWeight (2 - 1 / 3) = 1 ∧
      (bicubicResample exampleGray (createImageData 3 5) 2 2 3 5).data.length = 3 * 5 * 4 ∧
      IsUniform (bicubicResample exampleGray (createImageData 3 5) 2 2 3 5).data
        (grayPixel 128 255)) :=
  ⟨⟨by norm_num, by norm_num⟩,
    ⟨by decide, by decide, by decide, createImageData_length _ _⟩,
    bicubic_preserves_constants (1 / 3) (by norm_num) (by norm_num) exampleGray
      (createImageData 3 5) (grayPixel 128 255) 2 2 3 5 (by decide) (by decide) (by decide)
      (by decide) (by decide) (createImageData_length _ _)⟩

/-! ## Lanczos at scale 1 -/

theorem lanczosKernel_zero (M : JSMath) : lanczosKernel M 0 3 = 1 := by
  simp [lanczosKernel]

/-- When `sin` vanishes at the integer multiples of `pi`, the Lanczos kernel
vanishes at every non-zero integer. -/
theorem lanczosKernel_int (M : JSMath) (hsin : ∀ k : ℤ, M.sin (M.pi * (k : ℚ)) = 0)
    (k : ℤ) (hk : k ≠ 0) : lanczosKernel M (k : ℚ) 3 = 0 := by
  unfold lanczosKernel
  rw [if_neg (by exact_mod_cast hk)]
  split_ifs with h
  · rfl
  · simp only [hsin k, mul_zero, zero_mul, zero_div]

theorem mem_window (d : ℕ) : (d : ℤ) ∈ loopIncl ⌊(d : ℚ) - 3⌋ ⌈(d : ℚ) + 3⌉ := by
  rw [mem_loopIncl]
  constructor
  · have h1 : ((⌊(d : ℚ) - 3⌋ : ℤ) : ℚ) ≤ (d : ℚ) - 3 := Int.floor_le _
    have h2 : ((⌊(d : ℚ) - 3⌋ : ℤ) : ℚ) ≤ (((d : ℤ) : ℤ) : ℚ) := by
      push_cast; linarith
    exact_mod_cast h2
  · have h1 : (d : ℚ) + 3 ≤ ((⌈(d : ℚ) + 3⌉ : ℤ) : ℚ) := Int.le_ceil _
    have h2 : (((d : ℤ) : ℤ) : ℚ) ≤ ((⌈(d : ℚ) + 3⌉ : ℤ) : ℚ) := by
      push_cast; linarith
    exact_mod_cast h2

theorem exampleMathPeriodic_sin (k : ℤ) :
    exampleMathPeriodic.sin (exampleMathPeriodic.pi * (k : ℚ)) = 0 := by
  have e : (355 / 113 : ℚ) * (k : ℚ) / (355 / 113) = (k : ℚ) := by
    field_simp
  simp only [exampleMathPeriodic, e, Int.floor_intCast, sub_self, mul_zero, zero_mul]

/-! ## The Lanczos weight sum -/

theorem lanczosKernel_eq (M : JSMath) (x : ℚ) (hx0 : x ≠ 0) (hx3 : |x| < 3) :
    lanczosKernel M x 3 =
      3 * M.sin (M.pi * x) * M.sin (M.pi * x / 3) / (M.pi * x * (M.pi * x)) := by
  unfold lanczosKernel
  rw [if_neg hx0, if_neg (not_le.mpr hx3)]

theorem lanczosKernel_outside (M : JSMath) (x : ℚ) (hx3 : 3 ≤ |x|) :
    lanczosKernel M x 3 = 0 := by
  have hx0 : x ≠ 0 := by
    intro h
    rw [h, abs_zero] at hx3
    linarith
  unfold lanczosKernel
  rw [if_neg hx0, if_pos hx3]

/-- When `sin` is odd the Lanczos kernel is even. -/
theorem lanczosKernel_neg (M : JSMath) (hodd : ∀ x, M.sin (-x) = -M.sin x) (x : ℚ) :
    lanczosKernel M (-x) 3 = lanczosKernel M x 3 := by
  unfold lanczosKernel
  have e1 : M.pi * -x = -(M.pi * x) := by ring
  have e2 : -(M.pi * x) / 3 = -(M.pi * x / 3) := by ring
  simp only [neg_eq_zero, abs_neg, e1, e2, hodd]
  split_ifs
  · rfl
  · rfl
  · ring

theorem sin_int_mul_pi (M : JSMath) (hodd : ∀ x, M.sin (-x) = -M.sin x)
    (hper : ∀ x, M.sin (x + M.pi) = -M.sin x) (k : ℤ) : M.sin (M.pi * (k : ℚ)) = 0 := by
  have h0 : M.sin 0 = 0 := by
    have h := hodd 0
    rw [neg_zero] at h
    linarith
  have hnat : ∀ n : ℕ, M.sin (M.pi * (n : ℚ)) = 0 := by
    intro n
    induction n with
    | zero => simpa using h0
    | succ n ih =>
      have e : M.pi * ((n + 1 : ℕ) : ℚ) = M.pi * (n : ℚ) + M.pi := by push_cast; ring
      rw [e, hper, ih, neg_zero]
  rcases Int.eq_nat_or_neg k with ⟨n, rfl | rfl⟩
  · exact_mod_cast hnat n
  · have e : M.pi * ((-(n : ℤ) : ℤ) : ℚ) = -(M.pi * (n : ℚ)) := by push_cast; ring
    rw [e, hodd, hnat n, neg_zero]

/-- The central lobe: the kernel is positive on `(0, 1)`. -/
theorem lanczosKernel_lobe0 (M : JSMath) (hpi : 0 < M.pi)
    (hpos : ∀ x, 0 < x → x < M.pi → 0 < M.sin x) (f : ℚ) (hf0 : 0 < f) (hf1 : f < 1) :
    0 < lanczosKernel M f 3 := by
  rw [lanczosKernel_eq M f hf0.ne' (by rw [abs_of_pos hf0]; linarith)]
  have hs : 0 < M.sin (M.pi * f) := hpos _ (mul_pos hpi hf0) (by nlinarith)
  have hA : 0 < M.sin (M.pi * f / 3) := hpos _ (by positivity) (by nlinarith)
  have hd : 0 < M.pi * f := mul_pos hpi hf0
  positivity

/-- The third lobe: the kernel is positive on `(2, 3)`. -/
theorem lanczosKernel_lobe2 (M : JSMath) (hpi : 0 < M.pi)
    (hper : ∀ x, M.sin (x + M.pi) = -M.sin x)
    (hpos : ∀ x, 0 < x → x < M.pi → 0 < M.sin x) (f : ℚ) (hf0 : 0 < f) (hf1 : f < 1) :
    0 < lanczosKernel M (f + 2) 3 := by
  rw [lanczosKernel_eq M (f + 2) (by linarith) (by rw [abs_of_pos (by linarith)]; linarith)]
  have e : M.pi * (f + 2) = M.pi * f + M.pi + M.pi := by ring
  have hs : 0 < M.sin (M.pi * (f + 2)) := by
    rw [e, hper, hper, neg_neg]
    exact hpos _ (mul_pos hpi hf0) (by nlinarith)
  have hA : 0 < M.sin (M.pi * (f + 2) / 3) := hpos _ (by positivity) (by nlinarith)
  have hd : 0 < M.pi * (f + 2) := by positivity
  positivity

/-- The central lobe outweighs the negative lobe next to it: for `0 < f < 1`
the kernel values at `f` and `f + 1` have a positive sum. -/
theorem lanczosKernel_pair (M : JSMath) (hpi : 0 < M.pi)
    (hper : ∀ x, M.sin (x + M.pi) = -M.sin x)
    (hpos : ∀ x, 0 < x → x < M.pi → 0 < M.sin x)
    (hsinc : ∀ x y, 0 < x → x ≤ y → y < M.pi → M.sin y / y ≤ M.sin x / x)
    (f : ℚ) (hf0 : 0 < f) (hf1 : f < 1) :
    0 < lanczosKernel M f 3 + lanczosKernel M (f + 1) 3 := by
  rw [lanczosKernel_eq M f hf0.ne' (by rw [abs_of_pos hf0]; linarith),
    lanczosKernel_eq M (f + 1) (by linarith) (by rw [abs_of_pos (by linarith)]; linarith)]
  have e : M.pi * (f + 1) = M.pi * f + M.pi := by ring
  have hs : 0 < M.sin (M.pi * f) := hpos _ (mul_pos hpi hf0) (by nlinarith)
  have hs1 : M.sin (M.pi * (f + 1)) = -M.sin (M.pi * f) := by rw [e, hper]
  have hA : 0 < M.sin (M.pi * f / 3) := hpos _ (by positivity) (by nlinarith)
  have hB : 0 < M.sin (M.pi * (f + 1) / 3) := hpos _ (by positivity) (by nlinarith)
  have hc := hsinc (M.pi * f / 3) (M.pi * (f + 1) / 3) (by positivity) (by nlinarith)
    (by nlinarith)
  rw [div_le_div_iff₀ (by positivity) (by positivity)] at hc
  rw [hs1]
  generalize M.sin (M.pi * f) = s at hs
  generalize M.sin (M.pi * f / 3) = A at hA hc
  generalize M.sin (M.pi * (f + 1) / 3) = B at hB hc
  have hBf : B * f ≤ A * (f + 1) := by
    have h3 : 0 < M.pi / 3 := by positivity
    have : (M.pi / 3) * (B * f) ≤ (M.pi / 3) * (A * (f + 1)) := by nlinarith
    exact le_of_mul_le_mul_left this h3
  have hkey : 0 < A * (f + 1) ^ 2 - B * f ^ 2 := by nlinarith
  have hform : 3 * s * A / (M.pi * f * (M.pi * f))
      + 3 * -s * B / (M.pi * (f + 1) * (M.pi * (f + 1)))
      = 3 * s * (A * (f + 1) ^ 2 - B * f ^ 2) / (M.pi ^ 2 * f ^ 2 * (f + 1) ^ 2) := by
    have h1 : M.pi ≠ 0 := hpi.ne'
    have h2 : f ≠ 0 := hf0.ne'
    have h3 : f + 1 ≠ 0 := by linarith
    field_simp
    ring
  rw [hform]
  have hf1' : 0 < f + 1 := by linarith
  positivity

theorem loopIncl_window8 (n : ℤ) :
    loopIncl (n - 3) (n + 4) = [n - 3, n - 2, n - 1, n, n + 1, n + 2, n + 3, n + 4] := by
  have h : (n + 4 + 1 - (n - 3)).toNat = 8 := by omega
  have h8 : List.range 8 = [0, 1, 2, 3, 4, 5, 6, 7] := rfl
  unfold loopIncl
  rw [h, h8]
  simp only [List.map_cons, List.map_nil, List.cons.injEq, and_true]
  omega

theorem loopIncl_window7 (n : ℤ) :
    loopIncl (n - 3) (n + 3) = [n - 3, n - 2, n - 1, n, n + 1, n + 2, n + 3] := by
  have h : (n + 3 + 1 - (n - 3)).toNat = 7 := by omega
  have h7 : List.range 7 = [0, 1, 2, 3, 4, 5, 6] := rfl
  unfold loopIncl
  rw [h, h7]
  simp only [List.map_cons, List.map_nil, List.cons.injEq, and_true]
  omega

/-- The sum of the kernel values of the in-bounds source columns (or rows) in
the Lanczos window around the coordinate `n + f`, with `0 <= n < s` the integer
part and `0 <= f < 1` the fractional part, is positive. -/
theorem axis_sum_pos (M : JSMath) (hpi : 0 < M.pi)
    (hodd : ∀ x, M.sin (-x) = -M.sin x)
    (hper : ∀ x, M.sin (x + M.pi) = -M.sin x)
    (hpos : ∀ x, 0 < x → x < M.pi → 0 < M.sin x)
    (hsinc : ∀ x y, 0 < x → x ≤ y → y < M.pi → M.sin y / y ≤ M.sin x / x)
    (n s : ℤ) (f : ℚ) (hn0 : 0 ≤ n) (hns : n < s) (hf0 : 0 ≤ f) (hf1 : f < 1) :
    0 < ((loopIncl ⌊(n : ℚ) + f - 3⌋ ⌈(n : ℚ) + f + 3⌉).map (fun (sx : ℤ) =>
      if sx ≥ 0 ∧ sx < s then lanczosKernel M ((n : ℚ) + f - (sx : ℚ)) 3 else 0)).sum := by
  have hfloor : ⌊(n : ℚ) + f - 3⌋ = n - 3 := by
    rw [Int.floor_eq_iff]
    push_cast
    constructor <;> linarith
  rw [hfloor]
  rcases eq_or_lt_of_le hf0 with h0 | hfpos
  · -- the coordinate is the integer `n`
    subst h0
    have hceil : ⌈(n : ℚ) + 0 + 3⌉ = n + 3 := by
      rw [Int.ceil_eq_iff]
      push_cast
      constructor <;> linarith
    have hsin := sin_int_mul_pi M hodd hper
    have hK : ∀ j : ℤ, j ≠ 0 → lanczosKernel M ((n : ℚ) + 0 - ((n + j : ℤ) : ℚ)) 3 = 0 := by
      intro j hj
      have h := lanczosKernel_int M hsin (-j) (by omega)
      have e : (n : ℚ) + 0 - ((n + j : ℤ) : ℚ) = ((-j : ℤ) : ℚ) := by push_cast; ring
      rw [e]
      exact h
    have e3 : n - 3 = n + (-3) := by ring
    have e2 : n - 2 = n + (-2) := by ring
    have e1 : n - 1 = n + (-1) := by ring
    have hK0 : lanczosKernel M ((n : ℚ) + 0 - (n : ℚ)) 3 = 1 := by
      have e : (n : ℚ) + 0 - (n : ℚ) = 0 := by ring
      rw [e, lanczosKernel_zero]
    rw [hceil, loopIncl_window7]
    simp only [List.map_cons, List.map_nil, List.sum_cons, List.sum_nil]
    rw [e3, e2, e1, hK (-3) (by omega), hK (-2) (by omega), hK (-1) (by omega),
      hK 1 (by omega), hK 2 (by omega), hK 3 (by omega), hK0]
    have hin : n ≥ 0 ∧ n < s := ⟨hn0, hns⟩
    simp only [ite_self, if_pos hin]
    norm_num
  · -- the coordinate lies strictly between `n` and `n + 1`
    have hceil : ⌈(n : ℚ) + f + 3⌉ = n + 4 := by
      rw [Int.ceil_eq_iff]
      push_cast
      constructor <;> linarith
    have g0 : 0 < 1 - f := by linarith
    have g1 : 1 - f < 1 := by linarith
    have o3 : (n : ℚ) + f - ((n - 3 : ℤ) : ℚ) = f + 3 := by push_cast; ring
    have o2 : (n : ℚ) + f - ((n - 2 : ℤ) : ℚ) = f + 2 := by push_cast; ring
    have o1 : (n : ℚ) + f - ((n - 1 : ℤ) : ℚ) = f + 1 := by push_cast; ring
    have o0 : (n : ℚ) + f - (n : ℚ) = f := by ring
    have p1 : (n : ℚ) + f - ((n + 1 : ℤ) : ℚ) = -(1 - f) := by push_cast; ring
    have p2 : (n : ℚ) + f - ((n + 2 : ℤ) : ℚ) = -(1 - f + 1) := by push_cast; ring
    have p3 : (n : ℚ) + f - ((n + 3 : ℤ) : ℚ) = -(1 - f + 2) := by push_cast; ring
    have p4 : (n : ℚ) + f - ((n + 4 : ℤ) : ℚ) = f - 4 := by push_cast; ring
    have z3 : lanczosKernel M (f + 3) 3 = 0 :=
      lanczosKernel_outside M _ (by rw [abs_of_pos (by linarith)]; linarith)
    have z4 : lanczosKernel M (f - 4) 3 = 0 :=
      lanczosKernel_outside M _ (by rw [abs_of_neg (by linarith)]; linarith)
    have k0 := lanczosKernel_lobe0 M hpi hpos f hfpos hf1
    have k01 := lanczosKernel_pair M hpi hper hpos hsinc f hfpos hf1
    have k2 := lanczosKernel_lobe2 M hpi hper hpos f hfpos hf1
    have m0 := lanczosKernel_lobe0 M hpi hpos (1 - f) g0 g1
    have m01 := lanczosKernel_pair M hpi hper hpos hsinc (1 - f) g0 g1
    have m2 := lanczosKernel_lobe2 M hpi hper hpos (1 - f) g0 g1
    rw [hceil, loopIncl_window8]
    simp only [List.map_cons, List.map_nil, List.sum_cons, List.sum_nil, o3, o2, o1, o0, p1,
      p2, p3, p4, z3, z4, ite_self, lanczosKernel_neg M hodd, zero_add, add_zero]
    have hin : n ≥ 0 ∧ n < s := ⟨hn0, hns⟩
    simp only [if_pos hin]
    have hA : 0 ≤ (if n - 2 ≥ 0 ∧ n - 2 < s then lanczosKernel M (f + 2) 3 else 0) := by
      split_ifs
      · exact k2.le
      · exact le_refl _
    have hB : 0 < (if n - 1 ≥ 0 ∧ n - 1 < s then lanczosKernel M (f + 1) 3 else 0)
        + lanczosKernel M f 3 := by
      split_ifs
      · linarith
      · linarith
    have hC : 0 ≤ (if n + 1 ≥ 0 ∧ n + 1 < s then lanczosKernel M (1 - f) 3 else 0)
        + (if n + 2 ≥ 0 ∧ n + 2 < s then lanczosKernel M (1 - f + 1) 3 else 0) := by
      split_ifs with h1 h2 h2
      · linarith
      · linarith
      · exfalso; omega
      · linarith
    have hD : 0 ≤ (if n + 3 ≥ 0 ∧ n + 3 < s then lanczosKernel M (1 - f + 2) 3 else 0) := by
      split_ifs
      · exact m2.le
      · exact le_refl _
    linarith

/-- The weight sum kept by two nested loops whose body adds `w sy sx` to the
fifth accumulator is the initial value plus the sum of all `w sy sx`. -/
theorem foldl_weight_sum (Xs : List ℤ) (step : ℚ × ℚ × ℚ × ℚ × ℚ → ℤ → ℤ → ℚ × ℚ × ℚ × ℚ × ℚ)
    (w : ℤ → ℤ → ℚ)
    (hstep : ∀ acc sy sx, (step acc sy sx).2.2.2.2 = acc.2.2.2.2 + w sy sx) :
    ∀ (Ys : List ℤ) (acc : ℚ × ℚ × ℚ × ℚ × ℚ),
    (Ys.foldl (fun acc sy => Xs.foldl (fun acc sx => step acc sy sx) acc) acc).2.2.2.2 =
      acc.2.2.2.2 + (Ys.map (fun sy => (Xs.map (fun sx => w sy sx)).sum)).sum := by
  have inner : ∀ (sy : ℤ) (xs : List ℤ) (acc : ℚ × ℚ × ℚ × ℚ × ℚ),
      (xs.foldl (fun acc sx => step acc sy sx) acc).2.2.2.2 =
        acc.2.2.2.2 + (xs.map (fun sx => w sy sx)).sum := by
    intro sy xs
    induction xs with
    | nil => intro acc; simp
    | cons x xs ih =>
      intro acc
      rw [List.foldl_cons, ih, hstep, List.map_cons, List.sum_cons]
      ring
  intro Ys
  induction Ys with
  | nil => intro acc; simp
  | cons y ys ih =>
    intro acc
    rw [List.foldl_cons, ih, inner, List.map_cons, List.sum_cons]
    ring

/-- A double sum of products of a factor in `sx` and a factor in `sy` is the
product of the two sums. -/
theorem sum_product (Xs Ys : List ℤ) (A B : ℤ → ℚ) :
    (Ys.map (fun sy => (Xs.map (fun sx => A sx * B sy)).sum)).sum =
      (Xs.map A).sum * (Ys.map B).sum := by
  have h : ∀ sy, (Xs.map (fun sx => A sx * B sy)).sum = (Xs.map A).sum * B sy := by
    intro sy
    rw [List.sum_map_mul_right]
  simp only [h]
  rw [List.sum_map_mul_left]

/-- The weight sum of `lanczosResample` for destination pixel `(dx, dy)` is the
product of the sum of the kernel values of the in-bounds columns of the window
and the sum of the kernel values of its in-bounds rows. -/
theorem lanczos_weight_sum_eq (M : JSMath) (src : ImageData) (sw sh dw dh dy dx : ℕ) :
    (lanczosAcc M src sw sh dw dh dy dx).2.2.2.2 =
      ((loopIncl ⌊(dx : ℚ) * ((sw : ℚ) / dw) - 3⌋ ⌈(dx : ℚ) * ((sw : ℚ) / dw) + 3⌉).map
        (fun (sx : ℤ) => if sx ≥ 0 ∧ sx < (sw : ℤ) then
          lanczosKernel M ((dx : ℚ) * ((sw : ℚ) / dw) - (sx : ℚ)) 3 else 0)).sum *
      ((loopIncl ⌊(dy : ℚ) * ((sh : ℚ) / dh) - 3⌋ ⌈(dy : ℚ) * ((sh : ℚ) / dh) + 3⌉).map
        (fun (sy : ℤ) => if sy ≥ 0 ∧ sy < (sh : ℤ) then
          lanczosKernel M ((dy : ℚ) * ((sh : ℚ) / dh) - (sy : ℚ)) 3 else 0)).sum := by
  rw [← sum_product]
  have key := foldl_weight_sum
    (loopIncl ⌊(dx : ℚ) * ((sw : ℚ) / dw) - 3⌋ ⌈(dx : ℚ) * ((sw : ℚ) / dw) + 3⌉)
    (fun acc sy sx =>
      if sx ≥ 0 ∧ sx < (sw : ℤ) ∧ sy ≥ 0 ∧ sy < (sh : ℤ) then
        (acc.1 + rd src.data ((sy * sw + sx) * 4) *
            (lanczosKernel M ((dx : ℚ) * ((sw : ℚ) / dw) - (sx : ℚ)) 3 *
              lanczosKernel M ((dy : ℚ) * ((sh : ℚ) / dh) - (sy : ℚ)) 3),
         acc.2.1 + rd src.data ((sy * sw + sx) * 4 + 1) *
            (lanczosKernel M ((dx : ℚ) * ((sw : ℚ) / dw) - (sx : ℚ)) 3 *
              lanczosKernel M ((dy : ℚ) * ((sh : ℚ) / dh) - (sy : ℚ)) 3),
         acc.2.2.1 + rd src.data ((sy * sw + sx) * 4 + 2) *
            (lanczosKernel M ((dx : ℚ) * ((sw : ℚ) / dw) - (sx : ℚ)) 3 *
              lanczosKernel M ((dy : ℚ) * ((sh : ℚ) / dh) - (sy : ℚ)) 3),
         acc.2.2.2.1 + rd src.data ((sy * sw + sx) * 4 + 3) *
            (lanczosKernel M ((dx : ℚ) * ((sw : ℚ) / dw) - (sx : ℚ)) 3 *
              lanczosKernel M ((dy : ℚ) * ((sh : ℚ) / dh) - (sy : ℚ)) 3),
         acc.2.2.2.2 + lanczosKernel M ((dx : ℚ) * ((sw : ℚ) / dw) - (sx : ℚ)) 3 *
              lanczosKernel M ((dy : ℚ) * ((sh : ℚ) / dh) - (sy : ℚ)) 3)
      else acc)
    (fun sy sx =>
      (if sx ≥ 0 ∧ sx < (sw : ℤ) then
          lanczosKernel M ((dx : ℚ) * ((sw : ℚ) / dw) - (sx : ℚ)) 3 else 0) *
        (if sy ≥ 0 ∧ sy < (sh : ℤ) then
          lanczosKernel M ((dy : ℚ) * ((sh : ℚ) / dh) - (sy : ℚ)) 3 else 0))
    (by
      intro acc sy sx
      dsimp only
      by_cases hx : sx ≥ 0 ∧ sx < (sw : ℤ)
      · by_cases hy : sy ≥ 0 ∧ sy < (sh : ℤ)
        · rw [if_pos ⟨hx.1, hx.2, hy.1, hy.2⟩, if_pos hx, if_pos hy]
        · rw [if_neg (fun h => hy ⟨h.2.2.1, h.2.2.2⟩), if_neg hy, mul_zero, add_zero]
      · rw [if_neg (fun h => hx ⟨h.1, h.2.1⟩), if_neg hx, zero_mul, add_zero])
    (loopIncl ⌊(dy : ℚ) * ((sh : ℚ) / dh) - 3⌋ ⌈(dy : ℚ) * ((sh : ℚ) / dh) + 3⌉)
    (0, 0, 0, 0, 0)
  rw [zero_add] at key
  exact key

theorem integer_scale_split (d s scale : ℕ) (hs : 0 < s) (hscale : 0 < scale) :
    (d : ℚ) * ((s : ℚ) / ((s * scale : ℕ) : ℚ)) =
      (((d / scale : ℕ) : ℤ) : ℚ) + ((d % scale : ℕ) : ℚ) / scale := by
  have h1 : (s : ℚ) ≠ 0 := by exact_mod_cast hs.ne'
  have h2 : (scale : ℚ) ≠ 0 := by exact_mod_cast hscale.ne'
  have hd : (d : ℚ) = (scale : ℚ) * ((d / scale : ℕ) : ℚ) + ((d % scale : ℕ) : ℚ) := by
    exact_mod_cast (Nat.div_add_mod d scale).symm
  rw [Int.cast_natCast]
  generalize ((d / scale : ℕ) : ℚ) = n at hd
  generalize ((d % scale : ℕ) : ℚ) = r at hd
  rw [hd]
  push_cast
  field_simp
  ring

/-- The sum of the kernel values of the in-bounds source columns in the window
of destination column `d`, at integer scale. -/
theorem axis_sum_pos_scaled (M : JSMath) (hpi : 0 < M.pi)
    (hodd : ∀ x, M.sin (-x) = -M.sin x)
    (hper : ∀ x, M.sin (x + M.pi) = -M.sin x)
    (hpos : ∀ x, 0 < x → x < M.pi → 0 < M.sin x)
    (hsinc : ∀ x y, 0 < x → x ≤ y → y < M.pi → M.sin y / y ≤ M.sin x / x)
    (s scale d : ℕ) (hd : d < s * scale) :
    0 < ((loopIncl ⌊(d : ℚ) * ((s : ℚ) / ((s * scale : ℕ) : ℚ)) - 3⌋
        ⌈(d : ℚ) * ((s : ℚ) / ((s * scale : ℕ) : ℚ)) + 3⌉).map
      (fun (sx : ℤ) => if sx ≥ 0 ∧ sx < (s : ℤ) then
        lanczosKernel M ((d : ℚ) * ((s : ℚ) / ((s * scale : ℕ) : ℚ)) - (sx : ℚ)) 3
        else 0)).sum := by
  have hs : 0 < s := by
    rcases Nat.eq_zero_or_pos s with h | h
    · subst h; simp at hd
    · exact h
  have hscale : 0 < scale := by
    rcases Nat.eq_zero_or_pos scale with h | h
    · subst h; simp at hd
    · exact h
  have hq : (0 : ℚ) < scale := by exact_mod_cast hscale
  have hn : d / scale < s := Nat.div_lt_of_lt_mul (by rw [Nat.mul_comm]; exact hd)
  have hr : d % scale < scale := Nat.mod_lt _ hscale
  have hf0 : (0 : ℚ) ≤ ((d % scale : ℕ) : ℚ) / scale := by positivity
  have hf1 : ((d % scale : ℕ) : ℚ) / scale < 1 := by
    rw [div_lt_one hq]
    exact_mod_cast hr
  rw [integer_scale_split d s scale hs hscale]
  exact axis_sum_pos M hpi hodd hper hpos hsinc ((d / scale : ℕ) : ℤ) (s : ℤ) _
    (by positivity) (by exact_mod_cast hn) hf0 hf1

theorem storeClampDiv_of_ne (n d : ℚ) (hd : d ≠ 0) :
    storeClampDiv n d = toUint8Clamp (max 0 (min 255 (n / d))) := by
  unfold storeClampDiv
  rw [if_neg hd]

/-! ### The periodic rational sine satisfies what is asked of `Math.sin` -/

theorem periodic_sin_eq (x : ℚ) :
    exampleMathPeriodic.sin x =
      (if ⌊x / (355 / 113)⌋ % 2 = 0 then 1 else -1) *
        (4 * (x / (355 / 113) - ⌊x / (355 / 113)⌋) *
          (1 - (x / (355 / 113) - ⌊x / (355 / 113)⌋))) := rfl

theorem periodic_pi : exampleMathPeriodic.pi = 355 / 113 := rfl

theorem periodic_sin_odd (x : ℚ) : exampleMathPeriodic.sin (-x) = -exampleMathPeriodic.sin x := by
  rw [periodic_sin_eq, periodic_sin_eq]
  have e : -x / (355 / 113) = -(x / (355 / 113)) := by ring
  rw [e]
  generalize x / (355 / 113) = q
  have h1 : ((⌊q⌋ : ℤ) : ℚ) ≤ q := Int.floor_le q
  have h2 : q < ((⌊q⌋ : ℤ) : ℚ) + 1 := Int.lt_floor_add_one q
  rcases eq_or_lt_of_le h1 with h | h
  · have hf : ⌊-q⌋ = -⌊q⌋ := by
      rw [Int.floor_eq_iff]
      push_cast
      constructor <;> linarith
    have e1 : -q - ((-⌊q⌋ : ℤ) : ℚ) = 0 := by push_cast; linarith
    have e2 : q - ((⌊q⌋ : ℤ) : ℚ) = 0 := by linarith
    rw [hf, e1, e2]
    simp only [mul_zero, zero_mul, neg_zero]
  · have hf : ⌊-q⌋ = -⌊q⌋ - 1 := by
      rw [Int.floor_eq_iff]
      push_cast
      constructor <;> linarith
    rw [hf]
    by_cases hp : ⌊q⌋ % 2 = 0
    · rw [if_pos hp, if_neg (by omega)]
      push_cast
      ring
    · rw [if_neg hp, if_pos (by omega)]
      push_cast
      ring

theorem periodic_sin_shift (x : ℚ) :
    exampleMathPeriodic.sin (x + exampleMathPeriodic.pi) = -exampleMathPeriodic.sin x := by
  rw [periodic_pi, periodic_sin_eq, periodic_sin_eq]
  have e : (x + 355 / 113) / (355 / 113) = x / (355 / 113) + 1 := by
    field_simp
  rw [e, Int.floor_add_one]
  generalize x / (355 / 113) = q
  by_cases hp : ⌊q⌋ % 2 = 0
  · rw [if_pos hp, if_neg (by omega)]
    push_cast
    ring
  · rw [if_neg hp, if_pos (by omega)]
    push_cast
    ring

theorem periodic_sin_lobe (x : ℚ) (h0 : 0 < x) (h1 : x < exampleMathPeriodic.pi) :
    exampleMathPeriodic.sin x = 4 * (x / (355 / 113)) * (1 - x / (355 / 113)) := by
  rw [periodic_pi] at h1
  have hf : ⌊x / (355 / 113)⌋ = 0 := by
    rw [Int.floor_eq_iff]
    constructor
    · have : 0 ≤ x / (355 / 113) := by positivity
      simpa using this
    · rw [Int.cast_zero, zero_add, div_lt_one (by norm_num)]
      exact h1
  rw [periodic_sin_eq, hf]
  norm_num

theorem periodic_sin_pos (x : ℚ) (h0 : 0 < x) (h1 : x < exampleMathPeriodic.pi) :
    0 < exampleMathPeriodic.sin x := by
  rw [periodic_sin_lobe x h0 h1]
  rw [periodic_pi] at h1
  have h2 : x / (355 / 113) < 1 := by
    rw [div_lt_one (by norm_num)]
    exact h1
  have h3 : 0 < x / (355 / 113) := by positivity
  have h4 : 0 < 1 - x / (355 / 113) := by linarith
  positivity

theorem periodic_sinc (x y : ℚ) (hx : 0 < x) (hxy : x ≤ y) (hy : y < exampleMathPeriodic.pi) :
    exampleMathPeriodic.sin y / y ≤ exampleMathPeriodic.sin x / x := by
  have hy0 : 0 < y := lt_of_lt_of_le hx hxy
  rw [periodic_sin_lobe x hx (lt_of_le_of_lt hxy hy), periodic_sin_lobe y hy0 hy]
  have ex : 4 * (x / (355 / 113)) * (1 - x / (355 / 113)) / x
      = 4 / (355 / 113) * (1 - x / (355 / 113)) := by
    field_simp
    ring
  have ey : 4 * (y / (355 / 113)) * (1 - y / (355 / 113)) / y
      = 4 / (355 / 113) * (1 - y / (355 / 113)) := by
    field_simp
    ring
  rw [ex, ey]
  have h : y / (355 / 113) ≥ x / (355 / 113) := by
    apply div_le_div_of_nonneg_right hxy
    norm_num
  have hc : (0 : ℚ) < 4 / (355 / 113) := by norm_num
  nlinarith

/-- C21: `lanczosResample` never divides by a zero weight sum.  At every
integer scale, `dw = sw * scale` and `dh = sh * scale`, and for every destination
pixel `(dx, dy)` with `dx < dw` and `dy < dh` (so `sw, sh, scale >= 1`), the sum
`weight_sum` of the Lanczos weights of the in-bounds source samples is strictly
positive, so the four quotients by `weight_sum` that are stored are ordinary
quotients.  Arithmetic is exact; what is asked of the `Math` object holds of the
real sine and of the real `pi`: `pi` is positive, `sin` is odd, changes sign
under a shift by `pi`, is positive on `(0, pi)`, and `sin x / x` does not
increase on `(0, pi)`. -/
theorem lanczos_weight_sum_pos (M : JSMath) (hpi : 0 < M.pi)
    (hodd : ∀ x, M.sin (-x) = -M.sin x)
    (hper : ∀ x, M.sin (x + M.pi) = -M.sin x)
    (hpos : ∀ x, 0 < x → x < M.pi → 0 < M.sin x)
    (hsinc : ∀ x y, 0 < x → x ≤ y → y < M.pi → M.sin y / y ≤ M.sin x / x)
    (src : ImageData) (sw sh scale dy dx : ℕ)
    (hx : dx < sw * scale) (hy : dy < sh * scale) :
    0 < (lanczosAcc M src sw sh (sw * scale) (sh * scale) dy dx).2.2.2.2 ∧
    ∀ n : ℚ, storeClampDiv n (lanczosAcc M src sw sh (sw * scale) (sh * scale) dy dx).2.2.2.2 =
      toUint8Clamp (max 0 (min 255
        (n / (lanczosAcc M src sw sh (sw * scale) (sh * scale) dy dx).2.2.2.2))) := by
  have h : 0 < (lanczosAcc M src sw sh (sw * scale) (sh * scale) dy dx).2.2.2.2 := by
    rw [lanczos_weight_sum_eq]
    exact mul_pos (axis_sum_pos_scaled M hpi hodd hper hpos hsinc sw scale dx hx)
      (axis_sum_pos_scaled M hpi hodd hper hpos hsinc sh scale dy hy)
  exact ⟨h, fun n => storeClampDiv_of_ne n _ h.ne'⟩

/-- C21 (witness): with the periodic rational sine, the weight sum of
destination pixel (5, 4) of the 2x2 example image at scale 3 is positive. -/
theorem lanczos_weight_sum_pos_witness :
    (0 < exampleMathPeriodic.pi ∧
      (∀ x, exampleMathPeriodic.sin (-x) = -exampleMathPeriodic.sin x) ∧
      (∀ x, exampleMathPeriodic.sin (x + exampleMathPeriodic.pi) = -exampleMathPeriodic.sin x) ∧
      (∀ x, 0 < x → x < exampleMathPeriodic.pi → 0 < exampleMathPeriodic.sin x) ∧
      (∀ x y, 0 < x → x ≤ y → y < exampleMathPeriodic.pi →
        exampleMathPeriodic.sin y / y ≤ exampleMathPeriodic.sin x / x)) ∧
    (5 < 2 * 3 ∧ 4 < 2 * 3) ∧
    0 < (lanczosAcc exampleMathPeriodic exampleSrc 2 2 (2 * 3) (2 * 3) 4 5).2.2.2.2 :=
  ⟨⟨by rw [periodic_pi]; norm_num, periodic_sin_odd, periodic_sin_shift, periodic_sin_pos,
      periodic_sinc⟩,
    ⟨by decide, by decide⟩,
    (lanczos_weight_sum_pos exampleMathPeriodic (by rw [periodic_pi]; norm_num)
      periodic_sin_odd periodic_sin_shift periodic_sin_pos periodic_sinc exampleSrc 2 2 3 4 5
      (by decide) (by decide)).1⟩

/-! ## A second pass of the contrast normalisation -/

theorem bucketOf_eq (data : List ℕ) (p : ℕ) :
    bucketOf data p =
      (grayOf (data.getD (4 * p) 0) (data.getD (4 * p + 1) 0) (data.getD (4 * p + 2) 0)).toNat := by
  unfold bucketOf
  simp only [rd_natCast]

theorem grayOf_black : grayOf ((0 : ℕ) : ℚ) ((0 : ℕ) : ℚ) ((0 : ℕ) : ℚ) = 0 := by
  decide!

theorem grayOf_white : grayOf ((255 : ℕ) : ℚ) ((255 : ℕ) : ℚ) ((255 : ℕ) : ℚ) = 255 := by
  decide!

/-- After a stretching pass on a non-empty gray buffer each of whose gray levels
is its own luminance bucket, the output is a buffer of 8-bit samples whose
percentile bounds are 0 and 255. -/
theorem stretched_gray_bounds (data : List ℕ) (hv : ∀ v ∈ data, v ≤ 255) (n : ℕ)
    (hlen : data.length = n * 4) (hn : 0 < n) (hg : IsGray data)
    (hexact : ∀ p, p < n → bucketOf data p = data.getD (4 * p) 0)
    (hlt : (contrastBounds data).1 < (contrastBounds data).2) :
    (∀ v ∈ pixelLoop data.length (stretchStep (contrastBounds data).1
        (((contrastBounds data).2 : ℤ) - (contrastBounds data).1)) data, v ≤ 255) ∧
    contrastBounds (pixelLoop data.length (stretchStep (contrastBounds data).1
        (((contrastBounds data).2 : ℤ) - (contrastBounds data).1)) data) = (0, 255) := by
  obtain ⟨dlen, dget⟩ := stretch_getD (contrastBounds data).1
    (((contrastBounds data).2 : ℤ) - (contrastBounds data).1) data
  have hrg : (0 : ℤ) < ((contrastBounds data).2 : ℤ) - (contrastBounds data).1 := by omega
  have hv' : ∀ v ∈ pixelLoop data.length (stretchStep (contrastBounds data).1
      (((contrastBounds data).2 : ℤ) - (contrastBounds data).1)) data, v ≤ 255 := by
    intro v hvm
    obtain ⟨i, hi, rfl⟩ := List.getElem_of_mem hvm
    have e := dget i (by omega)
    have hD : (pixelLoop data.length (stretchStep (contrastBounds data).1
        (((contrastBounds data).2 : ℤ) - (contrastBounds data).1)) data).getD i 0 =
        (pixelLoop data.length (stretchStep (contrastBounds data).1
        (((contrastBounds data).2 : ℤ) - (contrastBounds data).1)) data)[i] := by
      simp [List.getD_eq_getElem?_getD, List.getElem?_eq_getElem hi]
    rw [← hD, e]
    split_ifs
    · exact toUint8Clamp_le _
    · exact getD_le data hv i
  refine ⟨hv', ?_⟩
  -- the bucket of a pixel after the pass, when its three samples are stored as `s`
  have hb' : ∀ p, p < n → ∀ s : ℕ,
      toUint8Clamp (stretchValue (contrastBounds data).1
        (((contrastBounds data).2 : ℤ) - (contrastBounds data).1) (data.getD (4 * p) 0)) = s →
      bucketOf (pixelLoop data.length (stretchStep (contrastBounds data).1
        (((contrastBounds data).2 : ℤ) - (contrastBounds data).1)) data) p =
      (grayOf (s : ℚ) (s : ℚ) (s : ℚ)).toNat := by
    intro p hp s hs
    obtain ⟨h01, h12⟩ := hg p (by omega)
    have e0 := dget (4 * p) (by omega)
    have e1 := dget (4 * p + 1) (by omega)
    have e2 := dget (4 * p + 2) (by omega)
    rw [if_pos (by omega)] at e0 e1 e2
    rw [bucketOf_eq, e0, e1, e2, ← h12, ← h01, hs]
  obtain ⟨m1, m2⟩ := contrastBounds_mass data hv n hlen hn
  obtain ⟨_, _, k3⟩ := histogramOf_spec _ hv'
  have hN : ((pixelLoop data.length (stretchStep (contrastBounds data).1
      (((contrastBounds data).2 : ℤ) - (contrastBounds data).1)) data).length + 3) / 4 = n := by
    rw [dlen, hlen]; omega
  rw [hN] at k3
  have low : (data.length : ℚ) / 4 * 0.01 <
      ((0 + (histogramOf (pixelLoop data.length (stretchStep (contrastBounds data).1
        (((contrastBounds data).2 : ℤ) - (contrastBounds data).1)) data)).getD 0 0 : ℕ) : ℚ) := by
    rw [Nat.zero_add, k3 0]
    refine lt_of_lt_of_le m1 ?_
    have : (List.range n).countP (fun p => decide (bucketOf data p ≤ (contrastBounds data).1)) ≤
        (List.range n).countP (fun p => decide (bucketOf (pixelLoop data.length
          (stretchStep (contrastBounds data).1
            (((contrastBounds data).2 : ℤ) - (contrastBounds data).1)) data) p = 0)) := by
      apply List.countP_mono_left
      intro p hp hle
      simp only [decide_eq_true_eq] at hle ⊢
      rw [hexact p (List.mem_range.mp hp)] at hle
      rw [hb' p (List.mem_range.mp hp) 0 (stretchValue_low _ _ hrg _ hle), grayOf_black]
      rfl
    exact_mod_cast this
  have high : (data.length : ℚ) / 4 * 0.01 <
      ((0 + (histogramOf (pixelLoop data.length (stretchStep (contrastBounds data).1
        (((contrastBounds data).2 : ℤ) - (contrastBounds data).1)) data)).getD 255 0 : ℕ) : ℚ) := by
    rw [Nat.zero_add, k3 255]
    refine lt_of_lt_of_le m2 ?_
    have : (List.range n).countP (fun p => decide ((contrastBounds data).2 ≤ bucketOf data p)) ≤
        (List.range n).countP (fun p => decide (bucketOf (pixelLoop data.length
          (stretchStep (contrastBounds data).1
            (((contrastBounds data).2 : ℤ) - (contrastBounds data).1)) data) p = 255)) := by
      apply List.countP_mono_left
      intro p hp hle
      simp only [decide_eq_true_eq] at hle ⊢
      rw [hexact p (List.mem_range.mp hp)] at hle
      rw [hb' p (List.mem_range.mp hp) 255 (stretchValue_high _ _ hlt _ hle), grayOf_white]
      rfl
    exact_mod_cast this
  rw [contrastBounds_eq (pixelLoop data.length (stretchStep (contrastBounds data).1
    (((contrastBounds data).2 : ℤ) - (contrastBounds data).1)) data), dlen,
    range_256_reverse_head, percentileScan_first _ _ 255 255 _ high,
    range_256_head, percentileScan_first _ _ 0 0 _ low]

/-- The first pass of `normalizeContrast` when the bounds differ. -/
theorem normalizeContrast_stretch (imageData : ImageData)
    (hlt : (contrastBounds imageData.data).1 < (contrastBounds imageData.data).2) :
    normalizeContrast imageData =
      ImageData.mk imageData.width imageData.height (pixelLoop imageData.data.length
        (stretchStep (contrastBounds imageData.data).1
          (((contrastBounds imageData.data).2 : ℤ) - (contrastBounds imageData.data).1))
        imageData.data) := by
  unfold normalizeContrast
  dsimp only
  rw [if_pos (by omega)]

/-- A buffer of 8-bit samples whose percentile bounds are 0 and 255, or do not
differ, is returned unchanged by `normalizeContrast`. -/
theorem normalizeContrast_fixed (imageData : ImageData) (hv : ∀ v ∈ imageData.data, v ≤ 255)
    (h : contrastBounds imageData.data = (0, 255) ∨
      (contrastBounds imageData.data).2 ≤ (contrastBounds imageData.data).1) :
    normalizeContrast imageData = imageData := by
  rcases h with h | h
  · rw [normalizeContrast_stretch imageData (by rw [h]; norm_num), h]
    obtain ⟨slen, sget⟩ := stretch_getD 0 (((255 : ℕ) : ℤ) - ((0 : ℕ) : ℤ)) imageData.data
    have hd : pixelLoop imageData.data.length
        (stretchStep 0 (((255 : ℕ) : ℤ) - ((0 : ℕ) : ℤ))) imageData.data = imageData.data := by
      apply list_ext_getD _ _ slen
      intro i hi
      rw [sget i (by omega)]
      split_ifs
      · exact stretchValue_full _ (getD_le _ hv i)
      · rfl
    dsimp only
    rw [hd]
  · unfold normalizeContrast
    dsimp only
    rw [if_neg (by omega)]

/-- The 65 gray levels `v` whose luminance `0.299 v + 0.587 v + 0.114 v`,
computed in doubles, falls below `v`: their bucket is `v - 1`. -/
theorem gray_levels_drift :
    (List.range 256).filter (fun (v : ℕ) => decide (grayOf (v : ℚ) (v : ℚ) (v : ℚ) ≠ (v : ℤ))) =
      [1, 2, 4, 8, 11, 13, 16, 22, 26, 27, 32, 39, 44, 51, 52, 54, 57, 59, 61, 64, 78, 81, 88,
       91, 95, 101, 102, 104, 108, 114, 115, 118, 122, 127, 128, 143, 149, 156, 157, 162, 169,
       175, 176, 182, 183, 190, 195, 202, 203, 204, 208, 209, 216, 223, 225, 228, 230, 235, 236,
       239, 241, 244, 249, 251, 254] := by
  decide!

/-- C2 (amended): a second pass of `normalizeContrast` changes no sample of the
output of the first whenever the percentile bounds of that output are 0 and 255
or do not differ.  This is the case for every well-formed achromatic buffer
(R = G = B) each of whose gray levels `v` is its own luminance bucket, that is
`floor(0.299 v + 0.587 v + 0.114 v) = v` in double arithmetic.  It is not the
case for every achromatic buffer: the gray level 2 has the bucket 1, and on the
two gray pixels of levels 2 and 3 the first pass stores 128 and 255 and the
second pass 2 and 255. -/
theorem normalizeContrast_second_pass (imageData : ImageData) (hwf : imageData.WF) :
    ((contrastBounds (normalizeContrast imageData).data = (0, 255) ∨
        (contrastBounds (normalizeContrast imageData).data).2 ≤
          (contrastBounds (normalizeContrast imageData).data).1) →
      normalizeContrast (normalizeContrast imageData) = normalizeContrast imageData) ∧
    ((IsGray imageData.data ∧
        ∀ p, p < imageData.width * imageData.height →
          bucketOf imageData.data p = imageData.data.getD (4 * p) 0) →
      normalizeContrast (normalizeContrast imageData) = normalizeContrast imageData) ∧
    (grayOf 2 2 2 = 1 ∧
      (normalizeContrast exampleGrayDrift).data = [128, 128, 128, 255, 255, 255, 255, 255] ∧
      (normalizeContrast (normalizeContrast exampleGrayDrift)).data =
        [2, 2, 2, 255, 255, 255, 255, 255]) := by
  obtain ⟨hlen, hv⟩ := hwf
  have hvout : ∀ v ∈ (normalizeContrast imageData).data, v ≤ 255 := by
    by_cases hlt : (contrastBounds imageData.data).1 < (contrastBounds imageData.data).2
    · rw [normalizeContrast_stretch imageData hlt]
      intro v hvm
      obtain ⟨dlen, dget⟩ := stretch_getD (contrastBounds imageData.data).1
        (((contrastBounds imageData.data).2 : ℤ) - (contrastBounds imageData.data).1)
        imageData.data
      refine mem_le_of_getD_le _ ?_ v hvm
      intro i hi
      rw [dlen] at hi
      rw [dget i hi]
      split_ifs
      · exact toUint8Clamp_le _
      · exact getD_le _ hv i
    · rw [normalizeContrast_fixed imageData hv (Or.inr (by omega))]
      exact hv
  refine ⟨fun h => normalizeContrast_fixed _ hvout h, ?_, ?_⟩
  · rintro ⟨hg, hexact⟩
    rcases Nat.eq_zero_or_pos (imageData.width * imageData.height) with h0 | hpos
    · have hnil : imageData.data = [] := by
        apply List.eq_nil_of_length_eq_zero
        rw [hlen, h0]
      have hfix : normalizeContrast imageData = imageData :=
        normalizeContrast_uniform imageData ⟨hlen, hv⟩ (fun _ => 0)
          (by rw [hnil]; exact isUniform_nil _)
      rw [hfix, hfix]
    · by_cases hlt : (contrastBounds imageData.data).1 < (contrastBounds imageData.data).2
      · obtain ⟨_, hb'⟩ := stretched_gray_bounds imageData.data hv _ hlen hpos hg hexact hlt
        apply normalizeContrast_fixed _ hvout
        left
        rw [normalizeContrast_stretch imageData hlt]
        exact hb'
      · have hfix := normalizeContrast_fixed imageData hv (Or.inr (by omega))
        rw [hfix, hfix]
  · refine ⟨?_, ?_, ?_⟩ <;> decide!

/-- C2 (witness): a 2x2 gray image of the levels 10, 50, 90, 200, each its own
luminance bucket, is stretched by the first pass and left as it is by the
second. -/
theorem normalizeContrast_second_pass_witness :
    exampleGrayLevels.WF ∧ IsGray exampleGrayLevels.data ∧
    (∀ p, p < exampleGrayLevels.width * exampleGrayLevels.height →
      bucketOf exampleGrayLevels.data p = exampleGrayLevels.data.getD (4 * p) 0) ∧
    normalizeContrast exampleGrayLevels ≠ exampleGrayLevels ∧
    normalizeContrast (normalizeContrast exampleGrayLevels) =
      normalizeContrast exampleGrayLevels :=
  ⟨by decide, by decide, by decide!, by decide!,
    (normalizeContrast_second_pass exampleGrayLevels (by decide)).2.1 ⟨by decide, by decide!⟩⟩

/-! ## An unsupported method -/

theorem createImageData_wf (w h : ℕ) : (createImageData w h).WF := by
  refine ⟨createImageData_length w h, ?_⟩
  intro v hv
  simp only [createImageData] at hv
  rw [(List.mem_replicate.mp hv).2]
  omega

theorem createImageData_uniform (w h : ℕ) :
    IsUniform (createImageData w h).data (fun _ => 0) := by
  intro i _
  simp only [createImageData]
  exact getD_replicate_zero _ _

/-- C4 (amended): when the method is none of `bilinear`, `bicubic`, `lanczos`,
`upscale` raises no error and resamples nothing.  For a source of at least one
pixel and a scale of at least 1 it returns the buffer created by
`createImageData`, of `srcW * scale` by `srcH * scale` pixels, at least one,
with every sample 0; `processImage` then runs the five enhancement stages on
that buffer and returns what they leave, which is the same transparent black
buffer when `Math.exp` is positive. -/
theorem upscale_unsupported_blank (M : JSMath) (method : String) (scale : ℕ)
    (sharpening : ℚ) (srcData : ImageData)
    (hscale : 1 ≤ scale) (hw : 1 ≤ srcData.width) (hh : 1 ≤ srcData.height)
    (h1 : method ≠ "lanczos") (h2 : method ≠ "bicubic") (h3 : method ≠ "bilinear") :
    upscale M method scale srcData =
      Except.ok (createImageData (srcData.width * scale) (srcData.height * scale)) ∧
    (0 < (createImageData (srcData.width * scale) (srcData.height * scale)).data.length ∧
      ∀ v ∈ (createImageData (srcData.width * scale) (srcData.height * scale)).data, v = 0) ∧
    processImage M method scale sharpening srcData =
      Except.ok (normalizeContrast (enhanceColors (bilateralFilter M
        (if sharpening > 0 then
          unsharpMask (edgePreservingSmooth M
            (createImageData (srcData.width * scale) (srcData.height * scale))) sharpening
         else edgePreservingSmooth M
            (createImageData (srcData.width * scale) (srcData.height * scale)))))) ∧
    ((∀ x, 0 < M.exp x) →
      processImage M method scale sharpening srcData =
        Except.ok (createImageData (srcData.width * scale) (srcData.height * scale))) := by
  have hup := upscale_no_method M method scale srcData h1 h2 h3
  have hproc := processImage_ok M method scale sharpening srcData _ hup
  refine ⟨hup, ⟨?_, ?_⟩, hproc, ?_⟩
  · rw [createImageData_length]
    have h1 : 0 < srcData.width * scale := Nat.mul_pos (by omega) (by omega)
    have h2 : 0 < srcData.height * scale := Nat.mul_pos (by omega) (by omega)
    have h3 := Nat.mul_pos h1 h2
    omega
  · intro v hv
    simp only [createImageData] at hv
    exact (List.mem_replicate.mp hv).2
  · intro hexp
    have hwf := createImageData_wf (srcData.width * scale) (srcData.height * scale)
    have hu := createImageData_uniform (srcData.width * scale) (srcData.height * scale)
    rw [hproc]
    simp only [edgePreservingSmooth_uniform M hexp _ hwf _ hu,
      unsharpMask_uniform _ hwf _ hu, ite_self,
      bilateralFilter_uniform M hexp _ hwf _ hu,
      enhanceColors_uniform_gray _ hwf _ hu rfl rfl,
      normalizeContrast_uniform _ hwf _ hu]

/-- C4 (witness): the method `nearest` on the 2x2 example image at scale 3 with
sharpening 1/2: `processImage` returns the 6x6 transparent black buffer. -/
theorem upscale_unsupported_blank_witness :
    (1 ≤ 3 ∧ 1 ≤ exampleSrc.width ∧ 1 ≤ exampleSrc.height) ∧
    ("nearest" ≠ "lanczos" ∧ "nearest" ≠ "bicubic" ∧ "nearest" ≠ "bilinear") ∧
    (∀ x, 0 < exampleMath.exp x) ∧
    upscale exampleMath "nearest" 3 exampleSrc =
      Except.ok (createImageData (exampleSrc.width * 3) (exampleSrc.height * 3)) ∧
    processImage exampleMath "nearest" 3 (1 / 2) exampleSrc =
      Except.ok (createImageData (exampleSrc.width * 3) (exampleSrc.height * 3)) :=
  ⟨⟨by decide, by decide, by decide⟩, ⟨by decide, by decide, by decide⟩, exampleMath_exp_pos,
    (upscale_unsupported_blank exampleMath "nearest" 3 (1 / 2) exampleSrc (by decide)
      (by decide) (by decide) (by decide) (by decide) (by decide)).1,
    (upscale_unsupported_blank exampleMath "nearest" 3 (1 / 2) exampleSrc (by decide)
      (by decide) (by decide) (by decide) (by decide) (by decide)).2.2.2 exampleMath_exp_pos⟩

/-! ## Lanczos at scale 1 with an inexact sine -/

theorem abs_sum_le_length (L : List ℤ) (g : ℤ → ℚ) (c : ℚ)
    (hg : ∀ x ∈ L, |g x| ≤ c) : |(L.map g).sum| ≤ L.length * c := by
  induction L with
  | nil => simp
  | cons x xs ih =>
    rw [List.map_cons, List.sum_cons, List.length_cons]
    have h1 := hg x (List.mem_cons_self _ _)
    have h2 := ih (fun y hy => hg y (List.mem_cons_of_mem _ hy))
    have h3 := abs_add (g x) ((xs.map g).sum)
    push_cast
    linarith

/-- A sum in which every term but the one of `z` is at most `c` in absolute
value differs from the term of `z` by at most `c` per element. -/
theorem sum_near_center (g : ℤ → ℚ) (z : ℤ) (c : ℚ) (hc : 0 ≤ c) :
    ∀ (L : List ℤ), L.Nodup → z ∈ L → (∀ x ∈ L, x ≠ z → |g x| ≤ c) →
    |(L.map g).sum - g z| ≤ L.length * c := by
  intro L
  induction L with
  | nil => intro _ hz; simp at hz
  | cons x xs ih =>
    intro hnd hz hg
    rw [List.nodup_cons] at hnd
    rw [List.map_cons, List.sum_cons, List.length_cons]
    push_cast
    by_cases hxz : x = z
    · subst hxz
      have h := abs_sum_le_length xs g c (fun y hy =>
        hg y (List.mem_cons_of_mem _ hy) (fun e => hnd.1 (e ▸ hy)))
      have e : g x + (xs.map g).sum - g x = (xs.map g).sum := by ring
      rw [e]
      linarith
    · have hz' : z ∈ xs := by
        rcases List.mem_cons.mp hz with h | h
        · exact absurd h.symm hxz
        · exact h
      have h1 := hg x (List.mem_cons_self _ _) hxz
      have h2 := ih hnd.2 hz' (fun y hy hne => hg y (List.mem_cons_of_mem _ hy) hne)
      have e : g x + (xs.map g).sum - g z = g x + ((xs.map g).sum - g z) := by ring
      rw [e]
      have h3 := abs_add (g x) ((xs.map g).sum - g z)
      linarith

/-- A weighted double sum whose weights are products `a sx * b sy`, with
`a x0 = b y0 = 1` and all other factors at most `δ` in absolute value, stays
close to the value at `(y0, x0)`. -/
theorem weighted_sum_near (Xs Ys : List ℤ) (x0 y0 : ℤ) (hXn : Xs.Nodup) (hYn : Ys.Nodup)
    (hx0 : x0 ∈ Xs) (hy0 : y0 ∈ Ys) (a b : ℤ → ℚ) (δ : ℚ) (hδ : 0 ≤ δ)
    (ha0 : a x0 = 1) (hb0 : b y0 = 1)
    (ha : ∀ x ∈ Xs, x ≠ x0 → |a x| ≤ δ) (hb : ∀ y ∈ Ys, y ≠ y0 → |b y| ≤ δ)
    (v : ℤ → ℤ → ℚ) (P : ℚ) (hP : 0 ≤ P) (hv : ∀ y x, |v y x| ≤ P) :
    |(Ys.map (fun sy => (Xs.map (fun sx => v sy sx * (a sx * b sy))).sum)).sum - v y0 x0| ≤
      P * (Xs.length * δ + Ys.length * δ * (1 + Xs.length * δ)) := by
  have hn : (0 : ℚ) ≤ Xs.length := by positivity
  have hinner : ∀ sy, (Xs.map (fun sx => v sy sx * (a sx * b sy))).sum =
      (Xs.map (fun sx => v sy sx * a sx)).sum * b sy := by
    intro sy
    rw [← List.sum_map_mul_right]
    congr 1
    apply List.map_congr_left
    intro sx _
    ring
  simp only [hinner]
  have hJ : ∀ sy, |(Xs.map (fun sx => v sy sx * a sx)).sum - v sy x0| ≤ Xs.length * (P * δ) := by
    intro sy
    have h := sum_near_center (fun sx => v sy sx * a sx) x0 (P * δ) (by positivity) Xs hXn hx0
      (fun x hx hne => by
        show |v sy x * a x| ≤ P * δ
        rw [abs_mul]
        exact mul_le_mul (hv sy x) (ha x hx hne) (abs_nonneg _) hP)
    simpa [ha0] using h
  have hJabs : ∀ sy, |(Xs.map (fun sx => v sy sx * a sx)).sum| ≤ P + Xs.length * (P * δ) := by
    intro sy
    have h1 := hJ sy
    have h2 := hv sy x0
    have h3 := abs_sub_abs_le_abs_sub ((Xs.map (fun sx => v sy sx * a sx)).sum) (v sy x0)
    linarith
  have hB : (0 : ℚ) ≤ P + Xs.length * (P * δ) := by positivity
  have hout := sum_near_center (fun sy => (Xs.map (fun sx => v sy sx * a sx)).sum * b sy) y0
    ((P + Xs.length * (P * δ)) * δ) (by positivity) Ys hYn hy0
    (fun y hy hne => by
      show |(Xs.map (fun sx => v y sx * a sx)).sum * b y| ≤ (P + Xs.length * (P * δ)) * δ
      rw [abs_mul]
      exact mul_le_mul (hJabs y) (hb y hy hne) (abs_nonneg _) hB)
  simp only [hb0, mul_one] at hout
  have h0 := hJ y0
  have htri := abs_sub_le ((Ys.map (fun sy =>
    (Xs.map (fun sx => v sy sx * a sx)).sum * b sy)).sum)
    ((Xs.map (fun sx => v y0 sx * a sx)).sum) (v y0 x0)
  have e : P * (Xs.length * δ + Ys.length * δ * (1 + Xs.length * δ)) =
      Ys.length * ((P + Xs.length * (P * δ)) * δ) + Xs.length * (P * δ) := by ring
  rw [e]
  linarith

/-- A quotient of a numerator close to `p` by a denominator close to 1 is
close to `p`. -/
theorem quotient_near (R S p E : ℚ) (hp0 : 0 ≤ p) (hp : p ≤ 255) (hE : E ≤ 1 / 2)
    (hR : |R - p| ≤ 255 * E) (hS : |S - 1| ≤ E) : 0 < S ∧ |R / S - p| ≤ 1020 * E := by
  have hE0 : 0 ≤ E := le_trans (abs_nonneg _) hS
  obtain ⟨s1, s2⟩ := abs_le.mp hS
  obtain ⟨r1, r2⟩ := abs_le.mp hR
  have hSpos : 0 < S := by linarith
  refine ⟨hSpos, ?_⟩
  have e : R / S - p = (R - p * S) / S := by
    field_simp
    ring
  rw [e, abs_div, abs_of_pos hSpos, div_le_iff₀ hSpos]
  have h1 : |R - p * S| ≤ 510 * E := by
    rw [abs_le]
    constructor <;> nlinarith
  have h2 : 510 * E ≤ 1020 * E * S := by nlinarith
  linarith

theorem toUint8Clamp_near (p : ℕ) (hp : p ≤ 255) (x : ℚ) (hx : |x - p| < 1 / 2) :
    toUint8Clamp (max 0 (min 255 x)) = p := by
  obtain ⟨h1, h2⟩ := abs_lt.mp hx
  have hp' : (p : ℚ) ≤ 255 := by exact_mod_cast hp
  have hp0 : (0 : ℚ) ≤ p := by positivity
  have hy : |max 0 (min 255 x) - p| < 1 / 2 := by
    rw [abs_lt]
    constructor
    · have : (p : ℚ) - 1 / 2 < max 0 (min 255 x) := by
        rw [lt_max_iff, lt_min_iff]
        by_cases h : (p : ℚ) - 1 / 2 < 0
        · left; exact h
        · right; constructor <;> linarith
      linarith
    · have : max 0 (min 255 x) < (p : ℚ) + 1 / 2 := by
        rw [max_lt_iff, min_lt_iff]
        constructor
        · linarith
        · right; linarith
      linarith
  generalize max 0 (min 255 x) = y at hy
  obtain ⟨y1, y2⟩ := abs_lt.mp hy
  unfold toUint8Clamp
  by_cases c1 : y ≤ 0
  · rw [if_pos c1]
    have : (p : ℚ) < 1 := by linarith
    have : p < 1 := by exact_mod_cast this
    omega
  · rw [if_neg c1]
    by_cases c2 : 255 ≤ y
    · rw [if_pos c2]
      have : (254 : ℚ) < p := by linarith
      have : 254 < p := by exact_mod_cast this
      omega
    · rw [if_neg c2]
      dsimp only
      by_cases c3 : (p : ℚ) ≤ y
      · have hf : ⌊y⌋ = (p : ℤ) := by
          rw [Int.floor_eq_iff]
          push_cast
          constructor <;> linarith
        rw [hf]
        push_cast
        rw [if_neg (by linarith), if_pos (by linarith)]
        simp
      · have hp1 : 1 ≤ p := by
          rcases Nat.eq_zero_or_pos p with h | h
          · subst h
            exfalso
            apply c1
            push_neg at c3
            simpa using c3.le
          · exact h
        have hf : ⌊y⌋ = (p : ℤ) - 1 := by
          rw [Int.floor_eq_iff]
          push_cast
          constructor <;> linarith
        rw [hf]
        push_cast
        rw [if_pos (by linarith)]
        simp

theorem foldl_proj_sum (proj : ℚ × ℚ × ℚ × ℚ × ℚ → ℚ) (Xs : List ℤ)
    (step : ℚ × ℚ × ℚ × ℚ × ℚ → ℤ → ℤ → ℚ × ℚ × ℚ × ℚ × ℚ) (w : ℤ → ℤ → ℚ)
    (hstep : ∀ acc sy sx, proj (step acc sy sx) = proj acc + w sy sx) :
    ∀ (Ys : List ℤ) (acc : ℚ × ℚ × ℚ × ℚ × ℚ),
    proj (Ys.foldl (fun acc sy => Xs.foldl (fun acc sx => step acc sy sx) acc) acc) =
      proj acc + (Ys.map (fun sy => (Xs.map (fun sx => w sy sx)).sum)).sum := by
  have inner : ∀ (sy : ℤ) (xs : List ℤ) (acc : ℚ × ℚ × ℚ × ℚ × ℚ),
      proj (xs.foldl (fun acc sx => step acc sy sx) acc) =
        proj acc + (xs.map (fun sx => w sy sx)).sum := by
    intro sy xs
    induction xs with
    | nil => intro acc; simp
    | cons x xs ih =>
      intro acc
      rw [List.foldl_cons, ih, hstep, List.map_cons, List.sum_cons]
      ring
  intro Ys
  induction Ys with
  | nil => intro acc; simp
  | cons y ys ih =>
    intro acc
    rw [List.foldl_cons, ih, inner, List.map_cons, List.sum_cons]
    ring

theorem ite_and4_mul (a b c d : Prop) [Decidable a] [Decidable b] [Decidable c] [Decidable d]
    (v p q : ℚ) :
    (if a ∧ b ∧ c ∧ d then v * (p * q) else 0) =
      v * ((if a ∧ b then p else 0) * (if c ∧ d then q else 0)) := by
  by_cases ha : a <;> by_cases hb : b <;> by_cases hc : c <;> by_cases hd : d <;>
    simp [ha, hb, hc, hd]

/-- The four colour accumulators of `lanczosResample` for destination pixel
`(dx, dy)` as double sums over the window, the kernel values of the columns and
rows outside the source being replaced by 0. -/
theorem lanczosAcc_sums (M : JSMath) (src : ImageData) (sw sh dw dh dy dx : ℕ) :
    (lanczosAcc M src sw sh dw dh dy dx).1 =
      ((loopIncl ⌊(dy : ℚ) * ((sh : ℚ) / dh) - 3⌋ ⌈(dy : ℚ) * ((sh : ℚ) / dh) + 3⌉).map
        (fun sy => ((loopIncl ⌊(dx : ℚ) * ((sw : ℚ) / dw) - 3⌋
            ⌈(dx : ℚ) * ((sw : ℚ) / dw) + 3⌉).map
          (fun sx => rd src.data ((sy * sw + sx) * 4) *
            ((if sx ≥ 0 ∧ sx < (sw : ℤ) then
                lanczosKernel M ((dx : ℚ) * ((sw : ℚ) / dw) - (sx : ℚ)) 3 else 0) *
              (if sy ≥ 0 ∧ sy < (sh : ℤ) then
                lanczosKernel M ((dy : ℚ) * ((sh : ℚ) / dh) - (sy : ℚ)) 3 else 0)))).sum)).sum ∧
    (lanczosAcc M src sw sh dw dh dy dx).2.1 =
      ((loopIncl ⌊(dy : ℚ) * ((sh : ℚ) / dh) - 3⌋ ⌈(dy : ℚ) * ((sh : ℚ) / dh) + 3⌉).map
        (fun sy => ((loopIncl ⌊(dx : ℚ) * ((sw : ℚ) / dw) - 3⌋
            ⌈(dx : ℚ) * ((sw : ℚ) / dw) + 3⌉).map
          (fun sx => rd src.data ((sy * sw + sx) * 4 + 1) *
            ((if sx ≥ 0 ∧ sx < (sw : ℤ) then
                lanczosKernel M ((dx : ℚ) * ((sw : ℚ) / dw) - (sx : ℚ)) 3 else 0) *
              (if sy ≥ 0 ∧ sy < (sh : ℤ) then
                lanczosKernel M ((dy : ℚ) * ((sh : ℚ) / dh) - (sy : ℚ)) 3 else 0)))).sum)).sum ∧
    (lanczosAcc M src sw sh dw dh dy dx).2.2.1 =
      ((loopIncl ⌊(dy : ℚ) * ((sh : ℚ) / dh) - 3⌋ ⌈(dy : ℚ) * ((sh : ℚ) / dh) + 3⌉).map
        (fun sy => ((loopIncl ⌊(dx : ℚ) * ((sw : ℚ) / dw) - 3⌋
            ⌈(dx : ℚ) * ((sw : ℚ) / dw) + 3⌉).map
          (fun sx => rd src.data ((sy * sw + sx) * 4 + 2) *
            ((if sx ≥ 0 ∧ sx < (sw : ℤ) then
                lanczosKernel M ((dx : ℚ) * ((sw : ℚ) / dw) - (sx : ℚ)) 3 else 0) *
              (if sy ≥ 0 ∧ sy < (sh : ℤ) then
                lanczosKernel M ((dy : ℚ) * ((sh : ℚ) / dh) - (sy : ℚ)) 3 else 0)))).sum)).sum ∧
    (lanczosAcc M src sw sh dw dh dy dx).2.2.2.1 =
      ((loopIncl ⌊(dy : ℚ) * ((sh : ℚ) / dh) - 3⌋ ⌈(dy : ℚ) * ((sh : ℚ) / dh) + 3⌉).map
        (fun sy => ((loopIncl ⌊(dx : ℚ) * ((sw : ℚ) / dw) - 3⌋
            ⌈(dx : ℚ) * ((sw : ℚ) / dw) + 3⌉).map
          (fun sx => rd src.data ((sy * sw + sx) * 4 + 3) *
            ((if sx ≥ 0 ∧ sx < (sw : ℤ) then
                lanczosKernel M ((dx : ℚ) * ((sw : ℚ) / dw) - (sx : ℚ)) 3 else 0) *
              (if sy ≥ 0 ∧ sy < (sh : ℤ) then
                lanczosKernel M ((dy : ℚ) * ((sh : ℚ) / dh) - (sy : ℚ)) 3 else 0)))).sum)).sum := by
  simp only [← ite_and4_mul]
  refine ⟨?_, ?_, ?_, ?_⟩
  · have key := foldl_proj_sum (fun t => t.1)
      (loopIncl ⌊(dx : ℚ) * ((sw : ℚ) / dw) - 3⌋ ⌈(dx : ℚ) * ((sw : ℚ) / dw) + 3⌉)
      (fun acc sy sx =>
        if sx ≥ 0 ∧ sx < (sw : ℤ) ∧ sy ≥ 0 ∧ sy < (sh : ℤ) then
          (acc.1 + rd src.data ((sy * sw + sx) * 4) *
              (lanczosKernel M ((dx : ℚ) * ((sw : ℚ) / dw) - (sx : ℚ)) 3 *
                lanczosKernel M ((dy : ℚ) * ((sh : ℚ) / dh) - (sy : ℚ)) 3),
           acc.2.1 + rd src.data ((sy * sw + sx) * 4 + 1) *
              (lanczosKernel M ((dx : ℚ) * ((sw : ℚ) / dw) - (sx : ℚ)) 3 *
                lanczosKernel M ((dy : ℚ) * ((sh : ℚ) / dh) - (sy : ℚ)) 3),
           acc.2.2.1 + rd src.data ((sy * sw + sx) * 4 + 2) *
              (lanczosKernel M ((dx : ℚ) * ((sw : ℚ) / dw) - (sx : ℚ)) 3 *
                lanczosKernel M ((dy : ℚ) * ((sh : ℚ) / dh) - (sy : ℚ)) 3),
           acc.2.2.2.1 + rd src.data ((sy * sw + sx) * 4 + 3) *
              (lanczosKernel M ((dx : ℚ) * ((sw : ℚ) / dw) - (sx : ℚ)) 3 *
                lanczosKernel M ((dy : ℚ) * ((sh : ℚ) / dh) - (sy : ℚ)) 3),
           acc.2.2.2.2 + lanczosKernel M ((dx : ℚ) * ((sw : ℚ) / dw) - (sx : ℚ)) 3 *
                lanczosKernel M ((dy : ℚ) * ((sh : ℚ) / dh) - (sy : ℚ)) 3)
        else acc)
      (fun sy sx => if sx ≥ 0 ∧ sx < (sw : ℤ) ∧ sy ≥ 0 ∧ sy < (sh : ℤ) then
          rd src.data ((sy * sw + sx) * 4) *
            (lanczosKernel M ((dx : ℚ) * ((sw : ℚ) / dw) - (sx : ℚ)) 3 *
              lanczosKernel M ((dy : ℚ) * ((sh : ℚ) / dh) - (sy : ℚ)) 3) else 0)
      (by
        intro acc sy sx
        dsimp only
        split_ifs
        · rfl
        · rw [add_zero])
      (loopIncl ⌊(dy : ℚ) * ((sh : ℚ) / dh) - 3⌋ ⌈(dy : ℚ) * ((sh : ℚ) / dh) + 3⌉)
      (0, 0, 0, 0, 0)
    rw [zero_add] at key
    exact key
  · have key := foldl_proj_sum (fun t => t.2.1)
      (loopIncl ⌊(dx : ℚ) * ((sw : ℚ) / dw) - 3⌋ ⌈(dx : ℚ) * ((sw : ℚ) / dw) + 3⌉)
      (fun acc sy sx =>
        if sx ≥ 0 ∧ sx < (sw : ℤ) ∧ sy ≥ 0 ∧ sy < (sh : ℤ) then
          (acc.1 + rd src.data ((sy * sw + sx) * 4) *
              (lanczosKernel M ((dx : ℚ) * ((sw : ℚ) / dw) - (sx : ℚ)) 3 *
                lanczosKernel M ((dy : ℚ) * ((sh : ℚ) / dh) - (sy : ℚ)) 3),
           acc.2.1 + rd src.data ((sy * sw + sx) * 4 + 1) *
              (lanczosKernel M ((dx : ℚ) * ((sw : ℚ) / dw) - (sx : ℚ)) 3 *
                lanczosKernel M ((dy : ℚ) * ((sh : ℚ) / dh) - (sy : ℚ)) 3),
           acc.2.2.1 + rd src.data ((sy * sw + sx) * 4 + 2) *
              (lanczosKernel M ((dx : ℚ) * ((sw : ℚ) / dw) - (sx : ℚ)) 3 *
                lanczosKernel M ((dy : ℚ) * ((sh : ℚ) / dh) - (sy : ℚ)) 3),
           acc.2.2.2.1 + rd src.data ((sy * sw + sx) * 4 + 3) *
              (lanczosKernel M ((dx : ℚ) * ((sw : ℚ) / dw) - (sx : ℚ)) 3 *
                lanczosKernel M ((dy : ℚ) * ((sh : ℚ) / dh) - (sy : ℚ)) 3),
           acc.2.2.2.2 + lanczosKernel M ((dx : ℚ) * ((sw : ℚ) / dw) - (sx : ℚ)) 3 *
                lanczosKernel M ((dy : ℚ) * ((sh : ℚ) / dh) - (sy : ℚ)) 3)
        else acc)
      (fun sy sx => if sx ≥ 0 ∧ sx < (sw : ℤ) ∧ sy ≥ 0 ∧ sy < (sh : ℤ) then
          rd src.data ((sy * sw + sx) * 4 + 1) *
            (lanczosKernel M ((dx : ℚ) * ((sw : ℚ) / dw) - (sx : ℚ)) 3 *
              lanczosKernel M ((dy : ℚ) * ((sh : ℚ) / dh) - (sy : ℚ)) 3) else 0)
      (by
        intro acc sy sx
        dsimp only
        split_ifs
        · rfl
        · rw [add_zero])
      (loopIncl ⌊(dy : ℚ) * ((sh : ℚ) / dh) - 3⌋ ⌈(dy : ℚ) * ((sh : ℚ) / dh) + 3⌉)
      (0, 0, 0, 0, 0)
    rw [zero_add] at key
    exact key
  · have key := foldl_proj_sum (fun t => t.2.2.1)
      (loopIncl ⌊(dx : ℚ) * ((sw : ℚ) / dw) - 3⌋ ⌈(dx : ℚ) * ((sw : ℚ) / dw) + 3⌉)
      (fun acc sy sx =>
        if sx ≥ 0 ∧ sx < (sw : ℤ) ∧ sy ≥ 0 ∧ sy < (sh : ℤ) then
          (acc.1 + rd src.data ((sy * sw + sx) * 4) *
              (lanczosKernel M ((dx : ℚ) * ((sw : ℚ) / dw) - (sx : ℚ)) 3 *
                lanczosKernel M ((dy : ℚ) * ((sh : ℚ) / dh) - (sy : ℚ)) 3),
           acc.2.1 + rd src.data ((sy * sw + sx) * 4 + 1) *
              (lanczosKernel M ((dx : ℚ) * ((sw : ℚ) / dw) - (sx : ℚ)) 3 *
                lanczosKernel M ((dy : ℚ) * ((sh : ℚ) / dh) - (sy : ℚ)) 3),
           acc.2.2.1 + rd src.data ((sy * sw + sx) * 4 + 2) *
              (lanczosKernel M ((dx : ℚ) * ((sw : ℚ) / dw) - (sx : ℚ)) 3 *
                lanczosKernel M ((dy : ℚ) * ((sh : ℚ) / dh) - (sy : ℚ)) 3),
           acc.2.2.2.1 + rd src.data ((sy * sw + sx) * 4 + 3) *
              (lanczosKernel M ((dx : ℚ) * ((sw : ℚ) / dw) - (sx : ℚ)) 3 *
                lanczosKernel M ((dy : ℚ) * ((sh : ℚ) / dh) - (sy : ℚ)) 3),
           acc.2.2.2.2 + lanczosKernel M ((dx : ℚ) * ((sw : ℚ) / dw) - (sx : ℚ)) 3 *
                lanczosKernel M ((dy : ℚ) * ((sh : ℚ) / dh) - (sy : ℚ)) 3)
        else acc)
      (fun sy sx => if sx ≥ 0 ∧ sx < (sw : ℤ) ∧ sy ≥ 0 ∧ sy < (sh : ℤ) then
          rd src.data ((sy * sw + sx) * 4 + 2) *
            (lanczosKernel M ((dx : ℚ) * ((sw : ℚ) / dw) - (sx : ℚ)) 3 *
              lanczosKernel M ((dy : ℚ) * ((sh : ℚ) / dh) - (sy : ℚ)) 3) else 0)
      (by
        intro acc sy sx
        dsimp only
        split_ifs
        · rfl
        · rw [add_zero])
      (loopIncl ⌊(dy : ℚ) * ((sh : ℚ) / dh) - 3⌋ ⌈(dy : ℚ) * ((sh : ℚ) / dh) + 3⌉)
      (0, 0, 0, 0, 0)
    rw [zero_add] at key
    exact key
  · have key := foldl_proj_sum (fun t => t.2.2.2.1)
      (loopIncl ⌊(dx : ℚ) * ((sw : ℚ) / dw) - 3⌋ ⌈(dx : ℚ) * ((sw : ℚ) / dw) + 3⌉)
      (fun acc sy sx =>
        if sx ≥ 0 ∧ sx < (sw : ℤ) ∧ sy ≥ 0 ∧ sy < (sh : ℤ) then
          (acc.1 + rd src.data ((sy * sw + sx) * 4) *
              (lanczosKernel M ((dx : ℚ) * ((sw : ℚ) / dw) - (sx : ℚ)) 3 *
                lanczosKernel M ((dy : ℚ) * ((sh : ℚ) / dh) - (sy : ℚ)) 3),
           acc.2.1 + rd src.data ((sy * sw + sx) * 4 + 1) *
              (lanczosKernel M ((dx : ℚ) * ((sw : ℚ) / dw) - (sx : ℚ)) 3 *
                lanczosKernel M ((dy : ℚ) * ((sh : ℚ) / dh) - (sy : ℚ)) 3),
           acc.2.2.1 + rd src.data ((sy * sw + sx) * 4 + 2) *
              (lanczosKernel M ((dx : ℚ) * ((sw : ℚ) / dw) - (sx : ℚ)) 3 *
                lanczosKernel M ((dy : ℚ) * ((sh : ℚ) / dh) - (sy : ℚ)) 3),
           acc.2.2.2.1 + rd src.data ((sy * sw + sx) * 4 + 3) *
              (lanczosKernel M ((dx : ℚ) * ((sw : ℚ) / dw) - (sx : ℚ)) 3 *
                lanczosKernel M ((dy : ℚ) * ((sh : ℚ) / dh) - (sy : ℚ)) 3),
           acc.2.2.2.2 + lanczosKernel M ((dx : ℚ) * ((sw : ℚ) / dw) - (sx : ℚ)) 3 *
                lanczosKernel M ((dy : ℚ) * ((sh : ℚ) / dh) - (sy : ℚ)) 3)
        else acc)
      (fun sy sx => if sx ≥ 0 ∧ sx < (sw : ℤ) ∧ sy ≥ 0 ∧ sy < (sh : ℤ) then
          rd src.data ((sy * sw + sx) * 4 + 3) *
            (lanczosKernel M ((dx : ℚ) * ((sw : ℚ) / dw) - (sx : ℚ)) 3 *
              lanczosKernel M ((dy : ℚ) * ((sh : ℚ) / dh) - (sy : ℚ)) 3) else 0)
      (by
        intro acc sy sx
        dsimp only
        split_ifs
        · rfl
        · rw [add_zero])
      (loopIncl ⌊(dy : ℚ) * ((sh : ℚ) / dh) - 3⌋ ⌈(dy : ℚ) * ((sh : ℚ) / dh) + 3⌉)
      (0, 0, 0, 0, 0)
    rw [zero_add] at key
    exact key

theorem abs_rd_le (data : List ℕ) (hv : ∀ v ∈ data, v ≤ 255) (i : ℤ) : |rd data i| ≤ 255 := by
  unfold rd
  split_ifs
  · rw [abs_zero]; norm_num
  · have h := getD_le data hv i.toNat
    have h' : ((data.getD i.toNat 0 : ℕ) : ℚ) ≤ 255 := by exact_mod_cast h
    rw [abs_of_nonneg (by positivity)]
    exact h'

/-- When `sin` is at most `ε` in absolute value at `pi * k` for the non-zero
integers `k` of the window, the Lanczos kernel is at most `ε / 3` in absolute
value at every non-zero integer. -/
theorem lanczosKernel_int_small (M : JSMath) (ε : ℚ) (hpi : 3 ≤ M.pi)
    (hsin : ∀ k : ℤ, k ≠ 0 → -3 < k → k < 3 → |M.sin (M.pi * (k : ℚ))| ≤ ε)
    (hsin3 : ∀ k : ℤ, k ≠ 0 → -3 < k → k < 3 → |M.sin (M.pi * (k : ℚ) / 3)| ≤ 1)
    (k : ℤ) (hk : k ≠ 0) : |lanczosKernel M (k : ℚ) 3| ≤ ε / 3 := by
  have hε0 : 0 ≤ ε := le_trans (abs_nonneg _) (hsin 1 (by norm_num) (by norm_num) (by norm_num))
  by_cases h3 : 3 ≤ |(k : ℚ)|
  · rw [lanczosKernel_outside M _ h3, abs_zero]
    positivity
  · have h3' : |(k : ℚ)| < 3 := not_le.mp h3
    obtain ⟨l1, l2⟩ := abs_lt.mp h3'
    have k1 : -3 < k := by exact_mod_cast l1
    have k2 : k < 3 := by exact_mod_cast l2
    have hkq : (k : ℚ) ≠ 0 := by exact_mod_cast hk
    rw [lanczosKernel_eq M _ hkq h3']
    have hs := hsin k hk k1 k2
    have ht := hsin3 k hk k1 k2
    have hkk : (1 : ℚ) ≤ (k : ℚ) * (k : ℚ) := by
      have : (1 : ℤ) ≤ k * k := by
        rcases lt_or_gt_of_ne hk with h | h
        · nlinarith
        · nlinarith
      exact_mod_cast this
    have hD : (9 : ℚ) ≤ M.pi * (k : ℚ) * (M.pi * (k : ℚ)) := by
      have e : M.pi * (k : ℚ) * (M.pi * (k : ℚ)) = (M.pi * M.pi) * ((k : ℚ) * (k : ℚ)) := by ring
      rw [e]
      have hp : (9 : ℚ) ≤ M.pi * M.pi := by nlinarith
      nlinarith
    have hDpos : (0 : ℚ) < M.pi * (k : ℚ) * (M.pi * (k : ℚ)) := by linarith
    rw [abs_div, abs_of_pos hDpos, abs_mul, abs_mul, div_le_iff₀ hDpos]
    have h1 : |(3 : ℚ)| = 3 := abs_of_pos (by norm_num)
    rw [h1]
    have h2 : 3 * |M.sin (M.pi * (k : ℚ))| * |M.sin (M.pi * (k : ℚ) / 3)| ≤ 3 * ε * 1 :=
      mul_le_mul (by linarith) ht (abs_nonneg _) (by positivity)
    have h4 : 3 * ε * 1 ≤ ε / 3 * (M.pi * (k : ℚ) * (M.pi * (k : ℚ))) := by nlinarith
    linarith

theorem window_length (d : ℕ) : (loopIncl ⌊(d : ℚ) - 3⌋ ⌈(d : ℚ) + 3⌉).length = 7 := by
  have hf : ⌊(d : ℚ) - 3⌋ = (d : ℤ) - 3 := by
    rw [Int.floor_eq_iff]
    push_cast
    constructor <;> linarith
  have hc : ⌈(d : ℚ) + 3⌉ = (d : ℤ) + 3 := by
    rw [Int.ceil_eq_iff]
    push_cast
    constructor <;> linarith
  rw [hf, hc, loopIncl_window7]
  rfl

/-- The sum of the kernel values of the in-bounds source columns of the window
of column `d` at scale 1 differs from 1 by at most `7 ε / 3`. -/
theorem axis_sum_near_one (M : JSMath) (ε : ℚ) (hpi : 3 ≤ M.pi)
    (hsin : ∀ k : ℤ, k ≠ 0 → -3 < k → k < 3 → |M.sin (M.pi * (k : ℚ))| ≤ ε)
    (hsin3 : ∀ k : ℤ, k ≠ 0 → -3 < k → k < 3 → |M.sin (M.pi * (k : ℚ) / 3)| ≤ 1)
    (s d : ℕ) (hd : d < s) :
    (if (d : ℤ) ≥ 0 ∧ (d : ℤ) < (s : ℤ) then
        lanczosKernel M ((d : ℚ) - ((d : ℤ) : ℚ)) 3 else 0) = 1 ∧
    (∀ x ∈ loopIncl ⌊(d : ℚ) - 3⌋ ⌈(d : ℚ) + 3⌉, x ≠ (d : ℤ) →
      |if x ≥ 0 ∧ x < (s : ℤ) then lanczosKernel M ((d : ℚ) - (x : ℚ)) 3 else 0| ≤ ε / 3) ∧
    |((loopIncl ⌊(d : ℚ) - 3⌋ ⌈(d : ℚ) + 3⌉).map (fun (sx : ℤ) =>
        if sx ≥ 0 ∧ sx < (s : ℤ) then lanczosKernel M ((d : ℚ) - (sx : ℚ)) 3 else 0)).sum - 1|
      ≤ 7 * (ε / 3) := by
  have hε0 : 0 ≤ ε := le_trans (abs_nonneg _) (hsin 1 (by norm_num) (by norm_num) (by norm_num))
  have h1 : (if (d : ℤ) ≥ 0 ∧ (d : ℤ) < (s : ℤ) then
      lanczosKernel M ((d : ℚ) - ((d : ℤ) : ℚ)) 3 else 0) = 1 := by
    rw [if_pos ⟨by omega, by omega⟩, Int.cast_natCast, sub_self, lanczosKernel_zero]
  have h2 : ∀ x ∈ loopIncl ⌊(d : ℚ) - 3⌋ ⌈(d : ℚ) + 3⌉, x ≠ (d : ℤ) →
      |if x ≥ 0 ∧ x < (s : ℤ) then lanczosKernel M ((d : ℚ) - (x : ℚ)) 3 else 0| ≤ ε / 3 := by
    intro x _ hne
    split_ifs
    · have e : (d : ℚ) - (x : ℚ) = (((d : ℤ) - x : ℤ) : ℚ) := by push_cast; ring
      rw [e]
      exact lanczosKernel_int_small M ε hpi hsin hsin3 _ (by omega)
    · rw [abs_zero]; positivity
  refine ⟨h1, h2, ?_⟩
  have h := sum_near_center (fun (sx : ℤ) =>
      if sx ≥ 0 ∧ sx < (s : ℤ) then lanczosKernel M ((d : ℚ) - (sx : ℚ)) 3 else 0) (d : ℤ)
    (ε / 3) (by positivity) _ (nodup_loopIncl _ _) (mem_window d) h2
  dsimp only at h
  rw [h1, window_length] at h
  exact_mod_cast h

/-- At scale 1, with `sin` at most `ε <= 1/12000` in absolute value at the
multiples `pi * k` of the window, the accumulators of `lanczosResample` for
destination pixel `(dx, dy)` are within `255 * 5 ε` of the samples of source
pixel `(dx, dy)`, and the weight sum is within `5 ε` of 1. -/
theorem lanczosAcc_near (M : JSMath) (ε : ℚ) (hε : ε ≤ 1 / 12000) (hpi : 3 ≤ M.pi)
    (hsin : ∀ k : ℤ, k ≠ 0 → -3 < k → k < 3 → |M.sin (M.pi * (k : ℚ))| ≤ ε)
    (hsin3 : ∀ k : ℤ, k ≠ 0 → -3 < k → k < 3 → |M.sin (M.pi * (k : ℚ) / 3)| ≤ 1)
    (src : ImageData) (hv : ∀ v ∈ src.data, v ≤ 255) (sw sh dy dx : ℕ)
    (hx : dx < sw) (hy : dy < sh) :
    |(lanczosAcc M src sw sh sw sh dy dx).1 - (src.data.getD ((dy * sw + dx) * 4) 0 : ℚ)|
      ≤ 255 * (5 * ε) ∧
    |(lanczosAcc M src sw sh sw sh dy dx).2.1 - (src.data.getD ((dy * sw + dx) * 4 + 1) 0 : ℚ)|
      ≤ 255 * (5 * ε) ∧
    |(lanczosAcc M src sw sh sw sh dy dx).2.2.1 - (src.data.getD ((dy * sw + dx) * 4 + 2) 0 : ℚ)|
      ≤ 255 * (5 * ε) ∧
    |(lanczosAcc M src sw sh sw sh dy dx).2.2.2.1
        - (src.data.getD ((dy * sw + dx) * 4 + 3) 0 : ℚ)| ≤ 255 * (5 * ε) ∧
    |(lanczosAcc M src sw sh sw sh dy dx).2.2.2.2 - 1| ≤ 5 * ε := by
  have hε0 : 0 ≤ ε := le_trans (abs_nonneg _) (hsin 1 (by norm_num) (by norm_num) (by norm_num))
  obtain ⟨a0, ha, hA⟩ := axis_sum_near_one M ε hpi hsin hsin3 sw dx hx
  obtain ⟨b0, hb, hB⟩ := axis_sum_near_one M ε hpi hsin hsin3 sh dy hy
  obtain ⟨s0, s1, s2, s3⟩ := lanczosAcc_sums M src sw sh sw sh dy dx
  have sw5 := lanczos_weight_sum_eq M src sw sh sw sh dy dx
  rw [scale_one_coord dx sw hx, scale_one_coord dy sh hy] at s0 s1 s2 s3 sw5
  have hidx0 : (((dy : ℤ) * sw + dx) * 4) = (((dy * sw + dx) * 4 : ℕ) : ℤ) := by
    push_cast; ring
  have hnum : (255 : ℚ) * (((7 : ℕ) : ℚ) * (ε / 3) + ((7 : ℕ) : ℚ) * (ε / 3) *
      (1 + ((7 : ℕ) : ℚ) * (ε / 3))) ≤ 255 * (5 * ε) := by
    push_cast
    nlinarith
  have near : ∀ v : ℤ → ℤ → ℚ, (∀ y x, |v y x| ≤ 255) →
      |((loopIncl ⌊(dy : ℚ) - 3⌋ ⌈(dy : ℚ) + 3⌉).map (fun sy =>
          ((loopIncl ⌊(dx : ℚ) - 3⌋ ⌈(dx : ℚ) + 3⌉).map (fun sx => v sy sx *
            ((if sx ≥ 0 ∧ sx < (sw : ℤ) then lanczosKernel M ((dx : ℚ) - (sx : ℚ)) 3 else 0) *
              (if sy ≥ 0 ∧ sy < (sh : ℤ) then lanczosKernel M ((dy : ℚ) - (sy : ℚ)) 3
                else 0)))).sum)).sum - v dy dx| ≤ 255 * (5 * ε) := by
    intro v hvb
    have h := weighted_sum_near (loopIncl ⌊(dx : ℚ) - 3⌋ ⌈(dx : ℚ) + 3⌉)
      (loopIncl ⌊(dy : ℚ) - 3⌋ ⌈(dy : ℚ) + 3⌉) dx dy (nodup_loopIncl _ _) (nodup_loopIncl _ _)
      (mem_window dx) (mem_window dy)
      (fun (sx : ℤ) =>
        if sx ≥ 0 ∧ sx < (sw : ℤ) then lanczosKernel M ((dx : ℚ) - (sx : ℚ)) 3 else 0)
      (fun (sy : ℤ) =>
        if sy ≥ 0 ∧ sy < (sh : ℤ) then lanczosKernel M ((dy : ℚ) - (sy : ℚ)) 3 else 0)
      (ε / 3) (by positivity) a0 b0 ha hb v 255 (by norm_num) hvb
    rw [window_length, window_length] at h
    exact le_trans h hnum
  refine ⟨?_, ?_, ?_, ?_, ?_⟩
  · have h := near (fun sy sx => rd src.data ((sy * sw + sx) * 4))
      (fun y x => abs_rd_le _ hv _)
    dsimp only at h
    rw [hidx0, rd_natCast] at h
    rw [s0]
    exact h
  · have h := near (fun sy sx => rd src.data ((sy * sw + sx) * 4 + 1))
      (fun y x => abs_rd_le _ hv _)
    dsimp only at h
    rw [hidx0, rd_add_one] at h
    rw [s1]
    exact h
  · have h := near (fun sy sx => rd src.data ((sy * sw + sx) * 4 + 2))
      (fun y x => abs_rd_le _ hv _)
    dsimp only at h
    rw [hidx0, rd_add_two] at h
    rw [s2]
    exact h
  · have h := near (fun sy sx => rd src.data ((sy * sw + sx) * 4 + 3))
      (fun y x => abs_rd_le _ hv _)
    dsimp only at h
    rw [hidx0, rd_add_three] at h
    rw [s3]
    exact h
  · rw [sw5]
    obtain ⟨A1, A2⟩ := abs_le.mp hA
    obtain ⟨B1, B2⟩ := abs_le.mp hB
    generalize ((loopIncl ⌊(dx : ℚ) - 3⌋ ⌈(dx : ℚ) + 3⌉).map (fun (sx : ℤ) =>
      if sx ≥ 0 ∧ sx < (sw : ℤ) then lanczosKernel M ((dx : ℚ) - (sx : ℚ)) 3 else 0)).sum = A
      at A1 A2
    generalize ((loopIncl ⌊(dy : ℚ) - 3⌋ ⌈(dy : ℚ) + 3⌉).map (fun (sy : ℤ) =>
      if sy ≥ 0 ∧ sy < (sh : ℤ) then lanczosKernel M ((dy : ℚ) - (sy : ℚ)) 3 else 0)).sum = B
      at B1 B2
    rw [abs_le]
    constructor
    · nlinarith [mul_nonneg (sub_nonneg.mpr A2) (sub_nonneg.mpr B2),
        mul_nonneg (sub_nonneg.mpr A1) (sub_nonneg.mpr B1),
        mul_nonneg (sub_nonneg.mpr A2) (sub_nonneg.mpr B1),
        mul_nonneg (sub_nonneg.mpr A1) (sub_nonneg.mpr B2)]
    · nlinarith [mul_nonneg (sub_nonneg.mpr A2) (sub_nonneg.mpr B2),
        mul_nonneg (sub_nonneg.mpr A1) (sub_nonneg.mpr B1),
        mul_nonneg (sub_nonneg.mpr A2) (sub_nonneg.mpr B1),
        mul_nonneg (sub_nonneg.mpr A1) (sub_nonneg.mpr B2)]

theorem lanczosPixel_near (M : JSMath) (ε : ℚ) (hε : ε ≤ 1 / 12000) (hpi : 3 ≤ M.pi)
    (hsin : ∀ k : ℤ, k ≠ 0 → -3 < k → k < 3 → |M.sin (M.pi * (k : ℚ))| ≤ ε)
    (hsin3 : ∀ k : ℤ, k ≠ 0 → -3 < k → k < 3 → |M.sin (M.pi * (k : ℚ) / 3)| ≤ 1)
    (src : ImageData) (hv : ∀ v ∈ src.data, v ≤ 255) (sw sh dy dx : ℕ)
    (hx : dx < sw) (hy : dy < sh)
    (dest : List ℕ) (i : ℕ) (hi : i / 4 = dy * sw + dx) (hil : i < dest.length) :
    (lanczosPixel M src sw sh sw sh dy dx dest).getD i 0 = src.data.getD i 0 := by
  have hε0 : 0 ≤ ε := le_trans (abs_nonneg _) (hsin 1 (by norm_num) (by norm_num) (by norm_num))
  obtain ⟨n0, n1, n2, n3, n5⟩ := lanczosAcc_near M ε hε hpi hsin hsin3 src hv sw sh dy dx hx hy
  have hE : 5 * ε ≤ 1 / 2 := by linarith
  have store : ∀ (R : ℚ) (p : ℕ), p ≤ 255 → |R - (p : ℚ)| ≤ 255 * (5 * ε) →
      storeClampDiv R (lanczosAcc M src sw sh sw sh dy dx).2.2.2.2 = p := by
    intro R p hp hR
    obtain ⟨hS, hq⟩ := quotient_near R _ (p : ℚ) (5 * ε) (by positivity)
      (by exact_mod_cast hp) hE hR n5
    rw [storeClampDiv_of_ne _ _ hS.ne']
    exact toUint8Clamp_near p hp _ (by linarith)
  simp only [lanczosPixel, store _ _ (getD_le _ hv _) n0, store _ _ (getD_le _ hv _) n1,
    store _ _ (getD_le _ hv _) n2, store _ _ (getD_le _ hv _) n3]
  have hc : i = (dy * sw + dx) * 4 ∨ i = (dy * sw + dx) * 4 + 1 ∨
      i = (dy * sw + dx) * 4 + 2 ∨ i = (dy * sw + dx) * 4 + 3 := by omega
  rcases hc with h | h | h | h <;> subst h
  · rw [getD_set_ne _ _ _ _ (by omega), getD_set_ne _ _ _ _ (by omega),
      getD_set_ne _ _ _ _ (by omega), getD_set_eq _ _ _ hil]
  · rw [getD_set_ne _ _ _ _ (by omega), getD_set_ne _ _ _ _ (by omega),
      getD_set_eq _ _ _ (by simpa using hil)]
  · rw [getD_set_ne _ _ _ _ (by omega), getD_set_eq _ _ _ (by simpa using hil)]
  · rw [getD_set_eq _ _ _ (by simpa using hil)]

/-- C12: `lanczosResample` called with `dw = sw` and `dh = sh` (scale 1)
reproduces the source within a small tolerance.  Let `sin` be at most `ε` in
absolute value at `pi * k` for `k = -2, -1, 1, 2` (`ε = 0` for the exact sine,
about `2.5e-16` for `Math.sin` and `Math.PI`), with `ε <= 1/12000`, `sin` at
most 1 in absolute value at `pi * k / 3`, and `pi >= 3`.  Then for a source of
`sw * sh` pixels of 8-bit samples every quotient `r / weight_sum`, ...,
`alpha / weight_sum` is within `5100 ε` of the source sample, the weight sum is
within `5 ε` of 1, the kernel is 1 at offset 0 and at most `ε / 3` in absolute
value at every other integer offset, and the samples stored in the destination
are exactly the samples of the source. -/
theorem lanczos_scale_one_tolerance (M : JSMath) (ε : ℚ) (hε : ε ≤ 1 / 12000) (hpi : 3 ≤ M.pi)
    (hsin : ∀ k : ℤ, k ≠ 0 → -3 < k → k < 3 → |M.sin (M.pi * (k : ℚ))| ≤ ε)
    (hsin3 : ∀ k : ℤ, k ≠ 0 → -3 < k → k < 3 → |M.sin (M.pi * (k : ℚ) / 3)| ≤ 1)
    (src dest : ImageData) (sw sh : ℕ)
    (hsrc : src.data.length = sw * sh * 4) (hv : ∀ v ∈ src.data, v ≤ 255)
    (hdest : dest.data.length = sw * sh * 4) :
    (lanczosResample M src dest sw sh sw sh).data = src.data ∧
    (∀ dy dx, dy < sh → dx < sw →
      |(lanczosAcc M src sw sh sw sh dy dx).1 / (lanczosAcc M src sw sh sw sh dy dx).2.2.2.2
          - (src.data.getD ((dy * sw + dx) * 4) 0 : ℚ)| ≤ 5100 * ε ∧
      |(lanczosAcc M src sw sh sw sh dy dx).2.1 / (lanczosAcc M src sw sh sw sh dy dx).2.2.2.2
          - (src.data.getD ((dy * sw + dx) * 4 + 1) 0 : ℚ)| ≤ 5100 * ε ∧
      |(lanczosAcc M src sw sh sw sh dy dx).2.2.1 / (lanczosAcc M src sw sh sw sh dy dx).2.2.2.2
          - (src.data.getD ((dy * sw + dx) * 4 + 2) 0 : ℚ)| ≤ 5100 * ε ∧
      |(lanczosAcc M src sw sh sw sh dy dx).2.2.2.1 / (lanczosAcc M src sw sh sw sh dy dx).2.2.2.2
          - (src.data.getD ((dy * sw + dx) * 4 + 3) 0 : ℚ)| ≤ 5100 * ε ∧
      |(lanczosAcc M src sw sh sw sh dy dx).2.2.2.2 - 1| ≤ 5 * ε) ∧
    lanczosKernel M 0 3 = 1 ∧ ∀ k : ℤ, k ≠ 0 → |lanczosKernel M (k : ℚ) 3| ≤ ε / 3 := by
  have hε0 : 0 ≤ ε := le_trans (abs_nonneg _) (hsin 1 (by norm_num) (by norm_num) (by norm_num))
  have hE : 5 * ε ≤ 1 / 2 := by linarith
  refine ⟨?_, ?_, lanczosKernel_zero M, lanczosKernel_int_small M ε hpi hsin hsin3⟩
  · have key := gridLoop_spec sw (List.range sh) (List.range sw)
      (lanczosPixel M src sw sh sw sh) (fun i => src.data.getD i 0) dest.data
      (List.nodup_range _) (List.nodup_range _) (fun x hx => List.mem_range.mp hx)
      (fun y x l => lanczosPixel_length M src sw sh sw sh y x l)
      (fun y _ x _ l i hi => lanczosPixel_other M src sw sh sw sh y x l i hi)
      (fun y hy x hx l hl _ i hi hil =>
        lanczosPixel_near M ε hε hpi hsin hsin3 src hv sw sh y x (List.mem_range.mp hx)
          (List.mem_range.mp hy) l i hi (by omega))
    apply list_ext_getD
    · simp only [lanczosResample]; rw [key.1, hdest, hsrc]
    · intro i hi
      simp only [lanczosResample]
      exact (key.2 i (by omega)).1 (exists_grid_coord sw sh i (by omega))
  · intro dy dx hy hx
    obtain ⟨n0, n1, n2, n3, n5⟩ := lanczosAcc_near M ε hε hpi hsin hsin3 src hv sw sh dy dx hx hy
    have q : ∀ (R : ℚ) (p : ℕ), p ≤ 255 → |R - (p : ℚ)| ≤ 255 * (5 * ε) →
        |R / (lanczosAcc M src sw sh sw sh dy dx).2.2.2.2 - (p : ℚ)| ≤ 5100 * ε := by
      intro R p hp hR
      have h := (quotient_near R _ (p : ℚ) (5 * ε) (by positivity)
        (by exact_mod_cast hp) hE hR n5).2
      linarith
    exact ⟨q _ _ (getD_le _ hv _) n0, q _ _ (getD_le _ hv _) n1, q _ _ (getD_le _ hv _) n2,
      q _ _ (getD_le _ hv _) n3, n5⟩

theorem exampleMathInexact_sin (x : ℚ) :
    exampleMathInexact.sin x = exampleMathPeriodic.sin x + 1 / 10 ^ 16 := rfl

theorem exampleMathInexact_sin_pi (k : ℤ) :
    |exampleMathInexact.sin (exampleMathInexact.pi * (k : ℚ))| ≤ 1 / 10 ^ 15 := by
  have h := exampleMathPeriodic_sin k
  have e : exampleMathInexact.pi = exampleMathPeriodic.pi := rfl
  rw [exampleMathInexact_sin, e, h, zero_add, abs_of_pos (by norm_num)]
  norm_num

theorem exampleMathInexact_sin_third (k : ℤ) (hk : k ≠ 0) (h1 : -3 < k) (h2 : k < 3) :
    |exampleMathInexact.sin (exampleMathInexact.pi * (k : ℚ) / 3)| ≤ 1 := by
  have hc : k = -2 ∨ k = -1 ∨ k = 1 ∨ k = 2 := by omega
  rcases hc with h | h | h | h <;> subst h <;> decide!

/-- C12 (witness): with the inexact sine, whose value at `pi * k` is `10^-16`,
the Lanczos resampling of the 2x2 image of sixteen different samples at scale 1
returns those samples. -/
theorem lanczos_scale_one_tolerance_witness :
    ((1 / 10 ^ 15 : ℚ) ≤ 1 / 12000 ∧ 3 ≤ exampleMathInexact.pi ∧
      exampleMathInexact.sin (exampleMathInexact.pi * ((1 : ℤ) : ℚ)) ≠ 0 ∧
      (∀ k : ℤ, k ≠ 0 → -3 < k → k < 3 →
        |exampleMathInexact.sin (exampleMathInexact.pi * (k : ℚ))| ≤ 1 / 10 ^ 15) ∧
      (∀ k : ℤ, k ≠ 0 → -3 < k → k < 3 →
        |exampleMathInexact.sin (exampleMathInexact.pi * (k : ℚ) / 3)| ≤ 1)) ∧
    (exampleSrc.data.length = 2 * 2 * 4 ∧ (∀ v ∈ exampleSrc.data, v ≤ 255) ∧
      (createImageData 2 2).data.length = 2 * 2 * 4) ∧
    (lanczosResample exampleMathInexact exampleSrc (createImageData 2 2) 2 2 2 2).data
      = exampleSrc.data :=
  ⟨⟨by norm_num, by decide!, by decide!, fun k _ _ _ => exampleMathInexact_sin_pi k,
      exampleMathInexact_sin_third⟩,
    ⟨by decide, by decide, createImageData_length _ _⟩,
    (lanczos_scale_one_tolerance exampleMathInexact (1 / 10 ^ 15) (by norm_num) (by decide!)
      (fun k _ _ _ => exampleMathInexact_sin_pi k) exampleMathInexact_sin_third exampleSrc
      (createImageData 2 2) 2 2 (by decide) (by decide) (createImageData_length _ _)).1⟩

end Upscaler
